import Mathlib

/-!
Verification of the `dtzeng/ics-f13` repository: a segregated-free-list heap
allocator (`mm.c`), a bounded most-recently-added web-object cache (`cache.c`,
`cache.h`) and an HTTP forward proxy (`proxy.c`).

The C sources are shallowly embedded:

* the cache's doubly linked MRA/LRA list is embedded as a Lean `List` ordered
  MRA-first (the spec invariant "the list is acyclic and doubly consistent"
  justifies this view; `MRA` is the head, `LRA` is the last element);
* the heap's tiled region is embedded as a `List` of blocks in address order,
  each block carrying its header word, footer word and payload bytes
  separately, exactly as the C code stores them; the prologue and epilogue
  sentinels are implicit (a missing left/right neighbour reads as allocated);
* machine integers are `Nat`/`Int`; `size_t` arithmetic that can overflow
  (the adjusted-size computation and calloc's product) is taken `% 2^64`.
-/

/-! ## Part 1: the proxy cache (`cache.c`, `cache.h`) -/

/-- `struct object` of `cache.h`.  `request` and `response` are the byte
strings the C code keeps behind `char *`; `size` is the C `int` field.
`prev`/`next` are represented by the position of the object in the cache's
list.  `oid` is the object's identity (the C pointer), assigned by the
driver as an insertion counter. -/
structure CObject where
  oid : Nat
  request : String
  response : String
  size : Int
  deriving Repr, DecidableEq

/-- `struct cache` of `cache.h`: the remaining capacity `bytes_left` and the
doubly linked object list, kept MRA-first (head = `MRA`, last = `LRA`). -/
structure CCache where
  bytes_left : Int
  objs : List CObject
  deriving Repr, DecidableEq

/-- `MRA` field of `struct cache`: head of the list. -/
def CCache.MRA (C : CCache) : Option CObject := C.objs.head?

/-- `LRA` field of `struct cache`: last element of the list. -/
def CCache.LRA (C : CCache) : Option CObject := C.objs.getLast?

/-- `cache_init` (cache.c:30-36). -/
def cache_init (max_size : Int) : CCache := ⟨max_size, []⟩

/-- `cache_remove` (cache.c:73-98): unlink `obj` (identified by its pointer,
here by `oid`) and return its size to `bytes_left`.  The four `prev`/`next`
cases of the C code collapse to erasing the object from the list. -/
def cache_remove (C : CCache) (obj : CObject) : CCache :=
  ⟨C.bytes_left + obj.size, C.objs.eraseP (fun x => x.oid == obj.oid)⟩

/-- The loop of `evict` (cache.c:117-121), one constructor of `fuel` per
iteration.  Each iteration removes one object, so `C.objs.length` bounds the
number of iterations and `evict` below supplies that much fuel; the `0` case
is unreachable with that fuel except when the list is already empty. -/
def evictGo : Nat → CCache → Int → Option CCache
  | 0, C, req_size => if C.bytes_left < req_size then none else some C
  | fuel + 1, C, req_size =>
    if C.bytes_left < req_size then
      match C.objs.getLast? with
      | none => none
      | some o => evictGo fuel (cache_remove C o) req_size
    else some C

/-- `evict` (cache.c:117-121): remove LRA objects while `bytes_left <
req_size`.  When the cache drains and the bound is still not met, the C code
calls `cache_remove(C, NULL)` and dereferences the null pointer; that crash
is modelled as `none`. -/
def evict (C : CCache) (req_size : Int) : Option CCache :=
  evictGo C.objs.length C req_size

/-- `cache_insert` (cache.c:52-68): evict for space, then prepend `obj` as
the new MRA.  `none` propagates `evict`'s null-pointer crash. -/
def cache_insert (C : CCache) (obj : CObject) : Option CCache :=
  (evict C obj.size).map (fun C2 => ⟨C2.bytes_left - obj.size, obj :: C2.objs⟩)

/-- `find_request` (cache.c:127-135): scan from the MRA head and return the
first object whose request compares `strcmp`-equal to `req`. -/
def find_request (C : CCache) (req : String) : Option CObject :=
  C.objs.find? (fun scan => req == scan.request)

/-- The removal loop of `cache_free` (cache.c:41-46) with structural fuel
(one object is removed per iteration). -/
def cacheFreeGo : Nat → CCache → CCache
  | 0, C => C
  | fuel + 1, C =>
    match C.objs.head? with
    | none => C
    | some o => cacheFreeGo fuel (cache_remove C o)

/-- The removal loop of `cache_free` (cache.c:41-46): remove the MRA object
until the list is empty (the handle itself is then released). -/
def cache_free_drain (C : CCache) : CCache :=
  cacheFreeGo C.objs.length C

/-- Driver operations for the cache: the four public operations a client can
perform on a cache handle (`insert`, `remove` of a resident object, `find`,
and the drain loop of `cache_free`). -/
inductive COp where
  | ins (req resp : String) (size : Int)
  | rem (k : Nat)
  | qry (req : String)
  | drain
  deriving Repr, DecidableEq

/-- Driver state: the cache plus the next object identity (the insertion
counter standing in for the C pointer values). -/
structure CState where
  C : CCache
  nextId : Nat
  deriving Repr, DecidableEq

/-- One driver step.  `ins` builds a `new_object` (cache.c:103-111) and
inserts it; `rem` removes the `k`-th resident object (no-op when out of
range, mirroring that `cache_remove`'s argument is always a resident
object); `qry` calls `find_request` and discards the result; `drain` runs
`cache_free`'s loop.  `none` is the crash of `evict`. -/
def runCOp (st : CState) (op : COp) : Option CState :=
  match op with
  | .ins rq rs sz =>
      (cache_insert st.C ⟨st.nextId, rq, rs, sz⟩).map (fun C2 => ⟨C2, st.nextId + 1⟩)
  | .rem k =>
      match st.C.objs.get? k with
      | none => some st
      | some o => some ⟨cache_remove st.C o, st.nextId⟩
  | .qry _ => some st
  | .drain => some ⟨cache_free_drain st.C, st.nextId⟩

/-- Run a list of cache operations from a fresh `cache_init max_size`. -/
def runCOps (max_size : Int) (ops : List COp) : Option CState :=
  ops.foldlM runCOp ⟨cache_init max_size, 0⟩

/-- Sum of the `size` fields of the resident objects. -/
def objsSum (l : List CObject) : Int := (l.map (·.size)).sum

/-! ### Cache lemmas -/

theorem objsSum_append (a b : List CObject) : objsSum (a ++ b) = objsSum a + objsSum b := by
  simp [objsSum]

theorem objsSum_cons (o : CObject) (l : List CObject) :
    objsSum (o :: l) = o.size + objsSum l := by
  simp [objsSum]

theorem objsSum_nonneg {l : List CObject} (h : ∀ o ∈ l, 0 ≤ o.size) : 0 ≤ objsSum l := by
  induction l with
  | nil => simp [objsSum]
  | cons x t ih =>
    rw [objsSum_cons]
    have := h x (by simp)
    have := ih (fun o ho => h o (by simp [ho]))
    omega

/-- Object identities strictly decrease from MRA to LRA: the head is the most
recently inserted object. -/
def OidDesc (l : List CObject) : Prop := l.Pairwise (fun a b => b.oid < a.oid)

/-- Under distinct identities, `cache_remove` erases exactly the occurrence
of `obj` and leaves the rest of the list in order. -/
theorem cache_remove_decomp {C : CCache} {o : CObject}
    (hdesc : OidDesc C.objs) (ho : o ∈ C.objs) :
    ∃ l1 l2, C.objs = l1 ++ o :: l2 ∧ (cache_remove C o).objs = l1 ++ l2 := by
  obtain ⟨a, l1, l2, hl1, hpa, hsplit, herase⟩ :=
    List.exists_of_eraseP (p := fun x => x.oid == o.oid) ho (by simp)
  have haid : a.oid = o.oid := by simpa using hpa
  have ha : a = o := by
    rcases List.mem_append.mp (hsplit ▸ ho) with h1 | h2
    · have := hl1 o h1
      simp at this
    · rcases List.mem_cons.mp h2 with rfl | h2'
      · rfl
      · have hpw : C.objs.Pairwise (fun x y => y.oid < x.oid) := hdesc
        rw [hsplit] at hpw
        have := (List.pairwise_cons.mp (List.pairwise_append.mp hpw).2.1).1 o h2'
        omega
  subst ha
  exact ⟨l1, l2, hsplit, herase⟩

theorem cache_remove_objs_getLast {C : CCache} {o : CObject}
    (hdesc : OidDesc C.objs) (hlast : C.objs.getLast? = some o) :
    (cache_remove C o).objs = C.objs.dropLast := by
  obtain ⟨l', he⟩ := List.getLast?_eq_some_iff.mp hlast
  have hpw : (l' ++ [o]).Pairwise (fun x y => y.oid < x.oid) := he ▸ hdesc
  have hl' : ∀ b ∈ l', ¬((fun x => x.oid == o.oid) b = true) := by
    intro b hb
    have := (List.pairwise_append.mp hpw).2.2 b hb o (by simp)
    simp only [beq_iff_eq]
    omega
  show C.objs.eraseP _ = _
  rw [he, List.eraseP_append_right _ hl', List.dropLast_concat]
  simp

theorem evictGo_spec (max : Int) : ∀ (fuel : Nat) (C : CCache) (r : Int) (C2 : CCache),
    C.objs.length ≤ fuel → OidDesc C.objs →
    objsSum C.objs + C.bytes_left = max →
    evictGo fuel C r = some C2 →
    ∃ k, C2.objs = C.objs.take k ∧
      objsSum C2.objs + C2.bytes_left = max ∧ r ≤ C2.bytes_left := by
  intro fuel
  induction fuel with
  | zero =>
    intro C r C2 hlen hdesc hsum h
    by_cases hb : C.bytes_left < r
    · simp [evictGo, hb] at h
    · simp [evictGo, hb] at h
      subst h
      exact ⟨C.objs.length, by simp, hsum, not_lt.mp hb⟩
  | succ fuel ih =>
    intro C r C2 hlen hdesc hsum h
    by_cases hb : C.bytes_left < r
    · simp only [evictGo, if_pos hb] at h
      cases hlast : C.objs.getLast? with
      | none => rw [hlast] at h; cases h
      | some o =>
        rw [hlast] at h
        have hrem := cache_remove_objs_getLast hdesc hlast
        have hne : C.objs ≠ [] := by
          intro he; rw [he] at hlast; simp at hlast
        have hlen0 : 0 < C.objs.length := List.length_pos.mpr hne
        have hlen' : (cache_remove C o).objs.length ≤ fuel := by
          rw [hrem, List.length_dropLast]; omega
        have hdesc' : OidDesc (cache_remove C o).objs := by
          rw [hrem]
          exact List.Pairwise.sublist (List.dropLast_sublist _) hdesc
        obtain ⟨l', hl'⟩ := List.getLast?_eq_some_iff.mp hlast
        have hsum' : objsSum (cache_remove C o).objs + (cache_remove C o).bytes_left = max := by
          rw [hrem, hl', List.dropLast_concat]
          show objsSum l' + (C.bytes_left + o.size) = max
          rw [hl', objsSum_append, objsSum_cons] at hsum
          simp [objsSum] at hsum ⊢
          omega
        obtain ⟨k, hobjs, hsum2, hge⟩ := ih _ r C2 hlen' hdesc' hsum' h
        refine ⟨min k (C.objs.length - 1), ?_, hsum2, hge⟩
        rw [hobjs, hrem, List.dropLast_eq_take, List.take_take]
    · simp [evictGo, hb] at h
      subst h
      exact ⟨C.objs.length, by simp, hsum, not_lt.mp hb⟩

/-- The pieces of the state of `evict` that one removal step preserves. -/
theorem cache_remove_getLast_inv (max : Int) {C : CCache} {o : CObject}
    (hdesc : OidDesc C.objs) (hlast : C.objs.getLast? = some o)
    (hsum : objsSum C.objs + C.bytes_left = max) :
    (cache_remove C o).objs = C.objs.dropLast ∧
      OidDesc (cache_remove C o).objs ∧
      objsSum (cache_remove C o).objs + (cache_remove C o).bytes_left = max ∧
      (cache_remove C o).objs.length = C.objs.length - 1 := by
  have hrem := cache_remove_objs_getLast hdesc hlast
  obtain ⟨l', he⟩ := List.getLast?_eq_some_iff.mp hlast
  refine ⟨hrem, ?_, ?_, ?_⟩
  · rw [hrem]
    exact List.Pairwise.sublist (List.dropLast_sublist _) hdesc
  · rw [hrem, he, List.dropLast_concat]
    show objsSum l' + (C.bytes_left + o.size) = max
    rw [he, objsSum_append, objsSum_cons] at hsum
    simp [objsSum] at hsum ⊢
    omega
  · rw [hrem, List.length_dropLast]

theorem evictGo_isSome (max : Int) : ∀ (fuel : Nat) (C : CCache) (r : Int),
    C.objs.length ≤ fuel → OidDesc C.objs →
    objsSum C.objs + C.bytes_left = max → r ≤ max →
    (evictGo fuel C r).isSome := by
  intro fuel
  induction fuel with
  | zero =>
    intro C r hlen hdesc hsum hr
    have : C.objs = [] := List.length_eq_zero.mp (Nat.le_zero.mp hlen)
    rw [this, objsSum] at hsum
    simp at hsum
    have : ¬(C.bytes_left < r) := by omega
    simp [evictGo, this]
  | succ fuel ih =>
    intro C r hlen hdesc hsum hr
    by_cases hb : C.bytes_left < r
    · cases hlast : C.objs.getLast? with
      | none =>
        have he : C.objs = [] := by
          cases hC : C.objs with
          | nil => rfl
          | cons x t => rw [hC] at hlast; simp at hlast
        rw [he, objsSum] at hsum
        simp at hsum
        omega
      | some o =>
        simp only [evictGo, if_pos hb, hlast]
        obtain ⟨_, hdesc', hsum', hlen'⟩ := cache_remove_getLast_inv max hdesc hlast hsum
        have hne : C.objs ≠ [] := by
          intro he; rw [he] at hlast; simp at hlast
        have h0 : 0 < C.objs.length := List.length_pos.mpr hne
        exact ih _ r (by omega) hdesc' hsum' hr
    · simp [evictGo, hb]

theorem evictGo_none_of_oversize (max : Int) : ∀ (fuel : Nat) (C : CCache) (r : Int),
    C.objs.length ≤ fuel → OidDesc C.objs →
    (∀ o ∈ C.objs, 0 ≤ o.size) →
    objsSum C.objs + C.bytes_left = max → max < r →
    evictGo fuel C r = none := by
  intro fuel
  induction fuel with
  | zero =>
    intro C r hlen hdesc hpos hsum hr
    have hb : C.bytes_left < r := by
      have := objsSum_nonneg hpos
      omega
    simp [evictGo, hb]
  | succ fuel ih =>
    intro C r hlen hdesc hpos hsum hr
    have hb : C.bytes_left < r := by
      have := objsSum_nonneg hpos
      omega
    cases hlast : C.objs.getLast? with
    | none => simp [evictGo, hb, hlast]
    | some o =>
      simp only [evictGo, if_pos hb, hlast]
      obtain ⟨hrem, hdesc', hsum', hlen'⟩ := cache_remove_getLast_inv max hdesc hlast hsum
      have hne : C.objs ≠ [] := by
        intro he; rw [he] at hlast; simp at hlast
      have h0 : 0 < C.objs.length := List.length_pos.mpr hne
      apply ih _ r (by omega) hdesc' ?_ hsum' hr
      intro x hx
      apply hpos
      rw [hrem] at hx
      exact List.dropLast_sublist _ |>.mem hx

theorem cacheFreeGo_spec : ∀ (fuel : Nat) (C : CCache), C.objs.length ≤ fuel →
    (cacheFreeGo fuel C).objs = [] ∧
    (cacheFreeGo fuel C).bytes_left = C.bytes_left + objsSum C.objs := by
  intro fuel
  induction fuel with
  | zero =>
    intro C hlen
    have he : C.objs = [] := List.length_eq_zero.mp (Nat.le_zero.mp hlen)
    simp [cacheFreeGo, he, objsSum]
  | succ fuel ih =>
    intro C hlen
    cases hC : C.objs with
    | nil => simp [cacheFreeGo, hC, objsSum]
    | cons o t =>
      have hh : C.objs.head? = some o := by rw [hC]; rfl
      have hrm : (cache_remove C o).objs = t := by
        show C.objs.eraseP _ = t
        rw [hC]
        simp [List.eraseP_cons]
      have hlen2 : (cache_remove C o).objs.length ≤ fuel := by
        rw [hrm]; rw [hC] at hlen; simpa using hlen
      obtain ⟨h1, h2⟩ := ih (cache_remove C o) hlen2
      constructor
      · simpa [cacheFreeGo, hh] using h1
      · have hstep : cacheFreeGo (fuel + 1) C = cacheFreeGo fuel (cache_remove C o) := by
          simp [cacheFreeGo, hh]
        rw [hstep, h2, hrm]
        show C.bytes_left + o.size + objsSum t = C.bytes_left + objsSum (o :: t)
        rw [objsSum_cons]
        omega

/-- The reachability invariant of the cache driver: the byte accounting of
the spec, strictly decreasing object identities from MRA to LRA, and the
identity counter dominating all resident identities. -/
structure CInv (max : Int) (st : CState) : Prop where
  sum_bl : objsSum st.C.objs + st.C.bytes_left = max
  desc : OidDesc st.C.objs
  lt_next : ∀ o ∈ st.C.objs, o.oid < st.nextId

theorem cache_insert_some_elim {C : CCache} {obj : CObject} {C2 : CCache}
    (h : cache_insert C obj = some C2) :
    ∃ C1, evict C obj.size = some C1 ∧
      C2 = ⟨C1.bytes_left - obj.size, obj :: C1.objs⟩ := by
  unfold cache_insert at h
  cases he : evict C obj.size with
  | none => rw [he] at h; cases h
  | some C1 =>
    rw [he] at h
    exact ⟨C1, rfl, by simpa using h.symm⟩

theorem runCOp_some_inv {max : Int} {st st2 : CState} {op : COp}
    (hinv : CInv max st) (h : runCOp st op = some st2) : CInv max st2 := by
  cases op with
  | ins rq rs sz =>
    simp only [runCOp, Option.map_eq_some'] at h
    obtain ⟨C2, hins, hst2⟩ := h
    obtain ⟨C1, hev, hC2⟩ := cache_insert_some_elim hins
    obtain ⟨k, hobjs, hsum, _⟩ :=
      evictGo_spec max st.C.objs.length st.C _ C1 le_rfl hinv.desc hinv.sum_bl hev
    have hsub : C1.objs.Sublist st.C.objs := hobjs ▸ List.take_sublist _ _
    subst hst2 hC2
    constructor
    · show objsSum (_ :: C1.objs) + _ = max
      rw [objsSum_cons]
      show sz + objsSum C1.objs + (C1.bytes_left - sz) = max
      omega
    · show OidDesc (_ :: C1.objs)
      refine List.pairwise_cons.mpr ⟨?_, List.Pairwise.sublist hsub hinv.desc⟩
      intro o ho
      exact hinv.lt_next o (hsub.mem ho)
    · intro o ho
      rcases List.mem_cons.mp ho with rfl | ho'
      · simp
      · have := hinv.lt_next o (hsub.mem ho')
        show o.oid < st.nextId + 1
        omega
  | rem k =>
    simp only [runCOp] at h
    cases hg : st.C.objs.get? k with
    | none => rw [hg] at h; cases h; exact hinv
    | some o =>
      rw [hg] at h
      cases h
      have ho : o ∈ st.C.objs := List.get?_mem hg
      obtain ⟨l1, l2, hsplit, herase⟩ := cache_remove_decomp hinv.desc ho
      have hsub : (l1 ++ l2).Sublist (l1 ++ o :: l2) :=
        List.Sublist.append_left (List.sublist_cons_self o l2) l1
      constructor
      · show objsSum (cache_remove st.C o).objs + (st.C.bytes_left + o.size) = max
        rw [herase, objsSum_append]
        have := hinv.sum_bl
        rw [hsplit, objsSum_append, objsSum_cons] at this
        omega
      · show OidDesc (cache_remove st.C o).objs
        rw [herase]
        exact List.Pairwise.sublist (hsplit ▸ hsub) hinv.desc
      · intro x hx
        apply hinv.lt_next
        rw [herase] at hx
        exact (hsplit ▸ hsub).mem hx
  | qry r =>
    cases h
    exact hinv
  | drain =>
    cases h
    obtain ⟨h1, h2⟩ := cacheFreeGo_spec st.C.objs.length st.C le_rfl
    constructor
    · show objsSum (cache_free_drain st.C).objs + (cache_free_drain st.C).bytes_left = max
      rw [show cache_free_drain st.C = cacheFreeGo st.C.objs.length st.C from rfl, h1, h2]
      have := hinv.sum_bl
      have h0 : objsSum ([] : List CObject) = 0 := rfl
      omega
    · show OidDesc (cache_free_drain st.C).objs
      rw [show cache_free_drain st.C = cacheFreeGo st.C.objs.length st.C from rfl, h1]
      exact List.Pairwise.nil
    · intro o ho
      rw [show cache_free_drain st.C = cacheFreeGo st.C.objs.length st.C from rfl, h1] at ho
      cases ho

theorem runCOp_isSome {max : Int} {st : CState} {op : COp}
    (hinv : CInv max st)
    (hsz : ∀ rq rs sz, op = COp.ins rq rs sz → sz ≤ max) :
    (runCOp st op).isSome := by
  cases op with
  | ins rq rs sz =>
    have hs := hsz rq rs sz rfl
    have hev : (evict st.C sz).isSome :=
      evictGo_isSome max st.C.objs.length st.C sz le_rfl hinv.desc hinv.sum_bl hs
    cases he : evict st.C sz with
    | none => rw [he] at hev; cases hev
    | some C1 => simp [runCOp, cache_insert, he]
  | rem k =>
    unfold runCOp
    cases hg : st.C.objs[k]? <;> simp [hg]
  | qry r => simp [runCOp]
  | drain => simp [runCOp]

theorem foldl_runCOp_inv (max : Int) : ∀ (ops : List COp) (st : CState),
    CInv max st →
    (∀ op ∈ ops, ∀ rq rs sz, op = COp.ins rq rs sz → sz ≤ max) →
    ∃ st2, ops.foldlM runCOp st = some st2 ∧ CInv max st2 := by
  intro ops
  induction ops with
  | nil => intro st hinv _; exact ⟨st, rfl, hinv⟩
  | cons op rest ih =>
    intro st hinv hops
    have h1 := runCOp_isSome hinv (hops op (by simp))
    cases hs : runCOp st op with
    | none => rw [hs] at h1; cases h1
    | some st1 =>
      obtain ⟨st2, hr, hinv2⟩ :=
        ih st1 (runCOp_some_inv hinv hs) (fun o ho => hops o (by simp [ho]))
      exact ⟨st2, by rw [List.foldlM_cons, hs]; exact hr, hinv2⟩

theorem foldl_runCOp_inv_of_some (max : Int) : ∀ (ops : List COp) (st st2 : CState),
    CInv max st → ops.foldlM runCOp st = some st2 → CInv max st2 := by
  intro ops
  induction ops with
  | nil =>
    intro st st2 hinv h
    cases h
    exact hinv
  | cons op rest ih =>
    intro st st2 hinv h
    rw [List.foldlM_cons] at h
    cases hs : runCOp st op with
    | none => rw [hs] at h; cases h
    | some st1 =>
      rw [hs] at h
      exact ih st1 st2 (runCOp_some_inv hinv hs) h

theorem cache_init_inv (max : Int) : CInv max ⟨cache_init max, 0⟩ := by
  constructor
  · simp [cache_init, objsSum]
  · exact List.Pairwise.nil
  · intro o ho; cases ho

/-- Decidable size condition on a driver operation: an inserted object fits
within `max` (other operations are unconstrained). -/
def insSizeOK (max : Int) : COp → Bool
  | .ins _ _ sz => sz ≤ max
  | _ => true

theorem insSizeOK_elim {max : Int} {op : COp} (h : insSizeOK max op = true) :
    ∀ rq rs sz, op = COp.ins rq rs sz → sz ≤ max := by
  intro rq rs sz he
  subst he
  simpa [insSizeOK] using h

/-! ### Claim C2 -/

/-- C2: for a cache created by `cache_init max_size`, provided every inserted
object has `size ≤ max_size`, after every sequence of cache operations the
sum of resident sizes plus `bytes_left` equals `max_size`, and `MRA` is null
iff `LRA` is null iff the object list is empty. -/
theorem cache_accounting_inv (max : Int) (ops : List COp)
    (hins : ∀ op ∈ ops, insSizeOK max op = true) :
    ∃ st, runCOps max ops = some st ∧
      objsSum st.C.objs + st.C.bytes_left = max ∧
      (st.C.MRA = none ↔ st.C.objs = []) ∧
      (st.C.LRA = none ↔ st.C.objs = []) := by
  obtain ⟨st2, hrun, hinv⟩ :=
    foldl_runCOp_inv max ops _ (cache_init_inv max)
      (fun op hop => insSizeOK_elim (hins op hop))
  refine ⟨st2, hrun, hinv.sum_bl, ?_, ?_⟩
  · simp [CCache.MRA, List.head?_eq_none_iff]
  · simp [CCache.LRA, List.getLast?_eq_none_iff]

/-- Witness for C2 at a concrete operation sequence (spec scenario E). -/
theorem cache_accounting_inv_witness :
    (∀ op ∈ [COp.ins "o1" "r1" 60, COp.ins "o2" "r2" 50, COp.qry "o1"],
        insSizeOK 100 op = true) ∧
    (∃ st, runCOps 100 [COp.ins "o1" "r1" 60, COp.ins "o2" "r2" 50, COp.qry "o1"] = some st ∧
      objsSum st.C.objs + st.C.bytes_left = 100 ∧
      (st.C.MRA = none ↔ st.C.objs = []) ∧
      (st.C.LRA = none ↔ st.C.objs = [])) :=
  ⟨by decide, cache_accounting_inv 100 _ (by decide)⟩

/-! ### Claim C8 -/

/-- C8 (amended): `cache_insert` never completes over budget.  When
`obj.size ≤ max` the eviction loop establishes `bytes_left ≥ obj.size`
before the object is linked in, so the completed insert has non-negative
`bytes_left`.  When `obj.size > max` (sizes being non-negative) the loop
drains the cache and then dereferences the null `LRA` pointer (modelled as
`none`): the insert never completes and `bytes_left` never becomes
negative. -/
theorem cache_insert_budget (max : Int) (C : CCache) (obj : CObject)
    (hdesc : OidDesc C.objs) (hsum : objsSum C.objs + C.bytes_left = max) :
    (obj.size ≤ max →
      ∃ C1, evict C obj.size = some C1 ∧ obj.size ≤ C1.bytes_left ∧
        cache_insert C obj = some ⟨C1.bytes_left - obj.size, obj :: C1.objs⟩ ∧
        0 ≤ C1.bytes_left - obj.size) ∧
    ((∀ o ∈ C.objs, 0 ≤ o.size) → max < obj.size → cache_insert C obj = none) := by
  constructor
  · intro hle
    have hev : (evict C obj.size).isSome :=
      evictGo_isSome max C.objs.length C obj.size le_rfl hdesc hsum hle
    cases he : evict C obj.size with
    | none => rw [he] at hev; cases hev
    | some C1 =>
      obtain ⟨k, hobjs, hsum1, hge⟩ :=
        evictGo_spec max C.objs.length C obj.size C1 le_rfl hdesc hsum he
      refine ⟨C1, rfl, hge, ?_, by omega⟩
      rw [cache_insert, he]
      rfl
  · intro hpos hgt
    have : evict C obj.size = none :=
      evictGo_none_of_oversize max C.objs.length C obj.size le_rfl hdesc hpos hsum hgt
    rw [cache_insert, this]
    rfl

/-- Witness for C8's amended statement at a concrete cache. -/
theorem cache_insert_budget_witness :
    OidDesc (cache_init 100).objs ∧
    ((50 : Int) ≤ 100 →
      ∃ C1, evict (cache_init 100) (50 : Int) = some C1 ∧ (50 : Int) ≤ C1.bytes_left ∧
        cache_insert (cache_init 100) ⟨0, "k", "v", 50⟩ =
          some ⟨C1.bytes_left - 50, ⟨0, "k", "v", 50⟩ :: C1.objs⟩ ∧
        0 ≤ C1.bytes_left - 50) :=
  ⟨List.Pairwise.nil,
    (cache_insert_budget 100 (cache_init 100) ⟨0, "k", "v", 50⟩
      List.Pairwise.nil (by decide)).1⟩

/-- Counterexample to C8 as stated: inserting an object of size 150 into a
fresh cache of capacity 100 does not "drain the cache and leave `bytes_left`
negative" — the eviction loop dereferences the null `LRA` pointer and the
insert never completes (no resulting cache state at all). -/
theorem cache_insert_oversize_crash :
    cache_insert (cache_init 100) ⟨0, "k", "v", 150⟩ = none := by decide

/-! ### Claim C10 -/

/-- C10: on any reachable cache, `find_request` starts at the MRA head, and
since new objects are prepended there, the first `strcmp` match it returns
is the most recently inserted object whose request equals `req`. -/
theorem find_request_most_recent (max : Int) (ops : List COp) (st : CState)
    (hrun : runCOps max ops = some st) (req : String) (o : CObject)
    (hfind : find_request st.C req = some o) :
    o.request = req ∧ o ∈ st.C.objs ∧
      ∀ o2 ∈ st.C.objs, o2.request = req → o2.oid ≤ o.oid := by
  have hinv := foldl_runCOp_inv_of_some max ops _ st (cache_init_inv max) hrun
  obtain ⟨hpo, as, bs, hsplit, hprev⟩ := List.find?_eq_some.mp hfind
  have hreq : o.request = req := by
    have : req = o.request := by simpa using hpo
    exact this.symm
  have hdesc : st.C.objs.Pairwise (fun a b => b.oid < a.oid) := hinv.desc
  refine ⟨hreq, by rw [hsplit]; simp, ?_⟩
  intro o2 ho2 hreq2
  rw [hsplit] at ho2 hdesc
  rcases List.mem_append.mp ho2 with h1 | h2
  · have := hprev o2 h1
    rw [hreq2] at this
    simp at this
  · rcases List.mem_cons.mp h2 with rfl | h2'
    · exact le_rfl
    · have := (List.pairwise_cons.mp (List.pairwise_append.mp hdesc).2.1).1 o2 h2'
      omega

/-- Witness for C10: two objects with the same request key "a"; the most
recently inserted one (identity 1) is returned. -/
theorem find_request_most_recent_witness :
    (⟨1, "a", "y", 10⟩ : CObject).request = "a" ∧
      (⟨1, "a", "y", 10⟩ : CObject) ∈
        [(⟨1, "a", "y", 10⟩ : CObject), ⟨0, "a", "x", 10⟩] ∧
      ∀ o2 ∈ [(⟨1, "a", "y", 10⟩ : CObject), ⟨0, "a", "x", 10⟩],
        o2.request = "a" → o2.oid ≤ 1 :=
  find_request_most_recent 100 [COp.ins "a" "x" 10, COp.ins "a" "y" 10]
    ⟨⟨80, [⟨1, "a", "y", 10⟩, ⟨0, "a", "x", 10⟩]⟩, 2⟩ (by decide)
    "a" ⟨1, "a", "y", 10⟩ (by decide)

/-! ### Claim C3 -/

/-- The objects that a run of inserts creates, in insertion order, starting
at identity `i`. -/
def insObjsFrom : Nat → List (String × String × Int) → List CObject
  | _, [] => []
  | i, x :: t => ⟨i, x.1, x.2.1, x.2.2⟩ :: insObjsFrom (i + 1) t

/-- The driver operations inserting the given (request, response, size)
triples in order. -/
def insOpsOf (l : List (String × String × Int)) : List COp :=
  l.map (fun x => COp.ins x.1 x.2.1 x.2.2)

theorem insObjsFrom_append (x : String × String × Int) :
    ∀ (l : List (String × String × Int)) (i : Nat),
    insObjsFrom i (l ++ [x]) = insObjsFrom i l ++ [⟨i + l.length, x.1, x.2.1, x.2.2⟩] := by
  intro l
  induction l with
  | nil => intro i; simp [insObjsFrom]
  | cons y t ih =>
    intro i
    show (⟨i, y.1, y.2.1, y.2.2⟩ : CObject) :: insObjsFrom (i + 1) (t ++ [x]) = _
    rw [ih (i + 1)]
    simp [insObjsFrom]
    omega

/-- Running a sequence of inserts (all fitting the budget) from a fresh
cache: the run succeeds, the invariant holds, the identity counter equals
the number of inserts, and the resident list is a prefix of the insertion
sequence in reverse insertion order (most recent first) — eviction only ever
trims the tail. -/
theorem runIns_spec (max : Int) : ∀ (l : List (String × String × Int)),
    (∀ x ∈ l, x.2.2 ≤ max) →
    ∃ st, runCOps max (insOpsOf l) = some st ∧ CInv max st ∧
      st.nextId = l.length ∧
      st.C.objs = (insObjsFrom 0 l).reverse.take st.C.objs.length := by
  intro l
  induction l using List.reverseRecOn with
  | nil =>
    intro _
    exact ⟨⟨cache_init max, 0⟩, rfl, cache_init_inv max, rfl,
      by simp [cache_init, insObjsFrom]⟩
  | append_singleton t x ih =>
    intro hsz
    obtain ⟨st, hrun, hinv, hnext, hobjs⟩ := ih (fun y hy => hsz y (by simp [hy]))
    have hxle : x.2.2 ≤ max := hsz x (by simp)
    -- one more insert step
    have hev : (evict st.C x.2.2).isSome :=
      evictGo_isSome max st.C.objs.length st.C x.2.2 le_rfl hinv.desc hinv.sum_bl hxle
    cases he : evict st.C x.2.2 with
    | none => rw [he] at hev; cases hev
    | some C1 =>
      obtain ⟨k, hC1objs, hsum1, hge⟩ :=
        evictGo_spec max st.C.objs.length st.C x.2.2 C1 le_rfl hinv.desc hinv.sum_bl he
      set obj : CObject := ⟨st.nextId, x.1, x.2.1, x.2.2⟩ with hobj
      have hins : cache_insert st.C obj = some ⟨C1.bytes_left - x.2.2, obj :: C1.objs⟩ := by
        show (evict st.C x.2.2).map
            (fun C2 => (⟨C2.bytes_left - x.2.2, obj :: C2.objs⟩ : CCache)) = _
        rw [he]
        rfl
      have hstep : runCOp st (COp.ins x.1 x.2.1 x.2.2) =
          some ⟨⟨C1.bytes_left - x.2.2, obj :: C1.objs⟩, st.nextId + 1⟩ := by
        show (cache_insert st.C obj).map
            (fun C2 => (⟨C2, st.nextId + 1⟩ : CState)) = _
        rw [hins]
        rfl
      set st2 : CState := ⟨⟨C1.bytes_left - x.2.2, obj :: C1.objs⟩, st.nextId + 1⟩ with hst2
      have hrun2 : runCOps max (insOpsOf (t ++ [x])) = some st2 := by
        show (insOpsOf (t ++ [x])).foldlM runCOp _ = some st2
        rw [show insOpsOf (t ++ [x]) = insOpsOf t ++ [COp.ins x.1 x.2.1 x.2.2] by
          simp [insOpsOf]]
        rw [List.foldlM_append]
        show (runCOps max (insOpsOf t) >>= _) = some st2
        rw [hrun]
        show ([COp.ins x.1 x.2.1 x.2.2].foldlM runCOp st) = some st2
        rw [List.foldlM_cons, hstep]
        rfl
      refine ⟨st2, hrun2, runCOp_some_inv hinv hstep, by simp [hst2, hnext], ?_⟩
      -- the prefix property
      have hXlen : st.C.objs.length ≤ ((insObjsFrom 0 t).reverse).length := by
        have := congrArg List.length hobjs
        simp only [List.length_take] at this
        omega
      have hC1take : C1.objs = ((insObjsFrom 0 t).reverse).take C1.objs.length := by
        have h1 : C1.objs = ((insObjsFrom 0 t).reverse).take (min k st.C.objs.length) := by
          rw [hC1objs]
          conv_lhs => rw [hobjs]
          rw [List.take_take]
        rw [h1, List.length_take]
        congr 1
        omega
      show obj :: C1.objs = ((insObjsFrom 0 (t ++ [x])).reverse).take (obj :: C1.objs).length
      rw [insObjsFrom_append x t 0, List.reverse_append]
      simp only [List.reverse_singleton, List.singleton_append, List.length_cons,
        List.take_succ_cons]
      have hhead : (⟨0 + t.length, x.1, x.2.1, x.2.2⟩ : CObject) = obj := by
        rw [hobj, hnext]
        simp
      rw [hhead, ← hC1take]

/-- C3: (1) after a completed `insert(o)`, `o` is the MRA head and
`find(o.request)` returns `o`; (2) over any run of inserts that fit the
budget, eviction is tail-only, so the resident list is always a prefix of
the reverse insertion order (the most recently inserted objects survive);
(3) a `find` (cache hit) does not modify the cache — no promotion. -/
theorem cache_mra_discipline :
    (∀ (C : CCache) (o : CObject) (C2 : CCache), cache_insert C o = some C2 →
        C2.MRA = some o ∧ find_request C2 o.request = some o) ∧
    (∀ (max : Int) (l : List (String × String × Int)), (∀ x ∈ l, x.2.2 ≤ max) →
        ∃ st, runCOps max (insOpsOf l) = some st ∧
          st.C.objs = (insObjsFrom 0 l).reverse.take st.C.objs.length) ∧
    (∀ (max : Int) (ops : List COp) (r : String),
        runCOps max (ops ++ [COp.qry r]) = runCOps max ops) := by
  refine ⟨?_, ?_, ?_⟩
  · intro C o C2 h
    obtain ⟨C1, _, hC2⟩ := cache_insert_some_elim h
    subst hC2
    constructor
    · rfl
    · show (o :: C1.objs).find? (fun scan => o.request == scan.request) = some o
      rw [List.find?_cons_of_pos _ (by simp)]
  · intro max l hsz
    obtain ⟨st, hrun, _, _, hobjs⟩ := runIns_spec max l hsz
    exact ⟨st, hrun, hobjs⟩
  · intro max ops r
    show (ops ++ [COp.qry r]).foldlM runCOp _ = ops.foldlM runCOp _
    rw [List.foldlM_append]
    cases h : ops.foldlM runCOp (⟨cache_init max, 0⟩ : CState) with
    | none => rfl
    | some st => rfl

/-- Witness for C3 at concrete inputs: a completed insert is found by its
request key, a concrete insert run is a reverse-insertion-order prefix, and
appending a `find` leaves the run state unchanged. -/
theorem cache_mra_discipline_witness :
    ((⟨40, [⟨0, "a", "b", 60⟩]⟩ : CCache).MRA = some ⟨0, "a", "b", 60⟩ ∧
      find_request ⟨40, [⟨0, "a", "b", 60⟩]⟩ "a" = some ⟨0, "a", "b", 60⟩) ∧
    (∃ st, runCOps 100 (insOpsOf [("o1", "r1", 60), ("o2", "r2", 50)]) = some st ∧
      st.C.objs = (insObjsFrom 0 [("o1", "r1", 60), ("o2", "r2", 50)]).reverse.take
        st.C.objs.length) ∧
    runCOps 100 ([COp.ins "o1" "r1" 60] ++ [COp.qry "o1"]) = runCOps 100 [COp.ins "o1" "r1" 60] :=
  ⟨cache_mra_discipline.1 (cache_init 100) ⟨0, "a", "b", 60⟩ _ (by decide),
    cache_mra_discipline.2.1 100 [("o1", "r1", 60), ("o2", "r2", 50)] (by decide),
    cache_mra_discipline.2.2 100 [COp.ins "o1" "r1" 60] "o1"⟩

/-! ## Part 2: the heap allocator (`mm.c`)

The heap's tiled working region (between the prologue and the epilogue) is
embedded as a list of blocks in address order.  Each block stores its header
word (`hsize`, `halloc`), its footer word (`fsize`, `falloc`) and its payload
bytes `data` (`hsize - 16` bytes: the block size counts the 8-byte header
and 8-byte footer; `GET`/`PUT` read and write `unsigned long`).  A block's
address is the offset of its header from the start of the tiled region;
`locate` is the address arithmetic of `HDRP`/`NEXT_BLKP`.  The prologue and
epilogue sentinels are implicit: reading the neighbour of the first or last
block yields "allocated", exactly as the sentinels guarantee in C.  The
segregated free lists (the `SEGS` root pointers and the `next`/`prev` links
threaded through free payloads) are represented as five lists of block
addresses, root first.  `size_t` arithmetic that can wrap (the adjusted-size
computation, calloc's product) is taken modulo `2^64`. -/

/-- `2^64`, the modulus of `size_t` arithmetic. -/
def wordMod : Nat := 2 ^ 64

/-- The adjusted block size of `malloc`/`realloc` (mm.c:200-203, 268-271):
`asize = 2*QSIZE` for requests up to `QSIZE = 16`, otherwise
`ALIGN(size + QSIZE) = ((size + 16 + 7) mod 2^64) & ~7` in `size_t`
arithmetic. -/
def asizeOf (size : Nat) : Nat :=
  if size ≤ 16 then 32 else (size + 23) % wordMod / 8 * 8

/-- The division loop of `bucket` (mm.c:727-732) with structural fuel: the
argument shrinks by a factor of `RATIO = 6` per iteration, so the starting
value bounds the iteration count. -/
def logLoopGo : Nat → Nat → Nat
  | 0, _ => 0
  | fuel + 1, n => if n = 0 then 0 else logLoopGo fuel (n / 6) + 1

/-- `bucket` (mm.c:722-734): the byte offset from `seg_listp` of the class
list for a block of `num` bytes.  `num/32` picks the size in minimum-block
units, values at or above `LASTCLASS = 1296 = 6^4` go to the last of the
`SEGS = 5` classes, and otherwise the loop computes the floor logarithm
base `RATIO = 6`; the result is scaled by `DSIZE = 8`. -/
def bucket (num : Nat) : Nat :=
  let n := num / (2 * 16)
  if 1296 ≤ n then (5 - 1) * 8
  else (logLoopGo (n / 6) (n / 6)) * 8

/-- The class index of a block size: `bucket` divided by the 8-byte slot. -/
def segIdx (size : Nat) : Nat := bucket size / 8

/-- One block of the tiled region: header word, footer word, payload. -/
structure Block where
  hsize : Nat
  halloc : Bool
  fsize : Nat
  falloc : Bool
  data : List Nat
  deriving Repr, DecidableEq

/-- Total size in bytes of a list of blocks. -/
def sumSizes (bs : List Block) : Nat := (bs.map (·.hsize)).sum

/-- Resolve a block address (offset of its header from the start of the
tiled region) into the zipper `(blocks before it, the block, blocks after
it)`.  Mirrors walking the heap with `NEXT_BLKP`. -/
def locate : List Block → Nat → Option (List Block × Block × List Block)
  | [], _ => none
  | b :: rest, a =>
    if a = 0 then some ([], b, rest)
    else if a < b.hsize then none
    else (locate rest (a - b.hsize)).map (fun t => (b :: t.1, t.2.1, t.2.2))

/-- The 8 bytes of a boundary-tag word `PACK(size, alloc)`, little endian.
When blocks are merged, the dead footer/header words between their payloads
become payload bytes; these are their values. -/
def tagBytes (size : Nat) (alloc : Bool) : List Nat :=
  let w := size + (if alloc then 1 else 0)
  [w % 256, w / 256 % 256, w / 256 ^ 2 % 256, w / 256 ^ 3 % 256,
   w / 256 ^ 4 % 256, w / 256 ^ 5 % 256, w / 256 ^ 6 % 256, w / 256 ^ 7 % 256]

/-- The allocator state: the five segregated class lists (lists of free
block addresses, root first), the tiled region, the number of bytes obtained
from `mem_sbrk`, and the capacity of the memory system (`memlib`'s
`MAX_HEAP`). -/
structure Heap where
  segs : List (List Nat)
  blocks : List Block
  used : Nat
  maxHeap : Nat
  deriving Repr, DecidableEq

/-- Read the class list rooted at index `j`. -/
def segGet (segs : List (List Nat)) (j : Nat) : List Nat := (segs[j]?).getD []

/-- Overwrite the class list rooted at index `j`. -/
def segSet (segs : List (List Nat)) (j : Nat) (l : List Nat) : List (List Nat) :=
  segs.set j l

/-- `splice_together` (mm.c:430-447) applied to the neighbours of a free
block being detached: under the doubly-linked-list consistency invariant the
four pointer cases amount to erasing the block's address from its class
list (the class of `size`). -/
def detachAddr (segs : List (List Nat)) (size : Nat) (a : Nat) : List (List Nat) :=
  segSet segs (segIdx size) ((segGet segs (segIdx size)).erase a)

/-- Insert a free block's address at the root of the class of `size`
(the LIFO insertion of `coalesce`). -/
def insertRoot (segs : List (List Nat)) (size : Nat) (a : Nat) : List (List Nat) :=
  segSet segs (segIdx size) (a :: segGet segs (segIdx size))

/-- `coalesce` (mm.c:476-570).  The block at `a` is free; inspect the
neighbours' boundary tags (`GET_ALLOC(FTRP(PREV_BLKP))`,
`GET_ALLOC(HDRP(NEXT_BLKP))`; a missing neighbour is a sentinel and reads
allocated), merge per the four cases, detaching absorbed neighbours from
their class lists, and insert the result at the root of its class.  Returns
the new heap and the (possibly moved) block address.  Merged payloads keep
the dead boundary-tag words of the absorbed blocks as payload bytes, exactly
as the C memory does. -/
def coalesce (h : Heap) (a : Nat) : Heap × Nat :=
  match locate h.blocks a with
  | none => (h, a)
  | some (pre, b, post) =>
    let size := b.hsize
    let prev_alloc : Bool := ((pre.getLast?).map (·.falloc)).getD true
    let next_alloc : Bool := ((post.head?).map (·.halloc)).getD true
    if prev_alloc then
      if next_alloc then
        /- Case 1: both neighbours allocated -/
        ({ h with segs := insertRoot h.segs size a }, a)
      else
        /- Case 2: right neighbour free -/
        match post with
        | [] => (h, a)
        | n :: post2 =>
          let segs1 := detachAddr h.segs n.hsize (a + size)
          let size2 := size + n.hsize
          let merged : Block := ⟨size2, false, size2, false,
            b.data ++ tagBytes b.fsize b.falloc ++ tagBytes n.hsize n.halloc ++ n.data⟩
          (⟨insertRoot segs1 size2 a, pre ++ merged :: post2, h.used, h.maxHeap⟩, a)
    else
      if next_alloc then
        /- Case 3: left neighbour free -/
        match pre.getLast? with
        | none => (h, a)
        | some p =>
          let pa := a - p.hsize
          let segs1 := detachAddr h.segs p.hsize pa
          let size2 := p.hsize + size
          let merged : Block := ⟨size2, false, size2, false,
            p.data ++ tagBytes p.fsize p.falloc ++ tagBytes b.hsize b.halloc ++ b.data⟩
          (⟨insertRoot segs1 size2 pa, pre.dropLast ++ merged :: post, h.used, h.maxHeap⟩, pa)
      else
        /- Case 4: both neighbours free -/
        match post with
        | [] => (h, a)
        | n :: post2 =>
          match pre.getLast? with
          | none => (h, a)
          | some p =>
            let segs1 := detachAddr h.segs n.hsize (a + size)
            let segs2 := detachAddr segs1 p.hsize (a - p.hsize)
            let pa := a - p.hsize
            let size2 := size + p.hsize + n.fsize
            let merged : Block := ⟨size2, false, size2, false,
              p.data ++ tagBytes p.fsize p.falloc ++ tagBytes b.hsize b.halloc ++
                b.data ++ tagBytes b.fsize b.falloc ++ tagBytes n.hsize n.halloc ++ n.data⟩
            (⟨insertRoot segs2 size2 pa, pre.dropLast ++ merged :: post2, h.used, h.maxHeap⟩, pa)

/-- `place` (mm.c:576-595): detach the chosen free block from its class list
(`splice_together` on its recorded neighbours), then either split — the low
`asize` bytes become allocated, the remainder becomes a free block that is
re-coalesced — or allocate the whole block.  `place` is only called with
`asize ≤ csize`, where the C `size_t` subtraction agrees with `Nat`
subtraction. -/
def place (h : Heap) (a : Nat) (asize : Nat) : Heap :=
  match locate h.blocks a with
  | none => h
  | some (pre, b, post) =>
    let csize := b.hsize
    let segs1 := detachAddr h.segs csize a
    if 32 ≤ csize - asize then
      let bA : Block := ⟨asize, true, asize, true, b.data.take (asize - 16)⟩
      let rem : Block := ⟨csize - asize, false, csize - asize, false, b.data.drop asize⟩
      (coalesce ⟨segs1, pre ++ bA :: rem :: post, h.used, h.maxHeap⟩ (a + asize)).1
    else
      let bW : Block := ⟨csize, true, csize, true, b.data⟩
      ⟨segs1, pre ++ bW :: post, h.used, h.maxHeap⟩

/-- The inner loop of `find_fit` (mm.c:614-624) over one class list,
instrumented with the number of fits counted (`count`) and the number of
list nodes visited.  At most the first ten fitting blocks are examined
(`count < 10` is the loop guard and only fits increment `count`); the
smallest fit is remembered; an exact fit returns immediately (before
`count++`). -/
def scanClass (bs : List Block) (asize : Nat) :
    List Nat → Option Nat → Nat → Nat → Nat → Option Nat × Nat × Nat
  | [], result, _, count, visits => (result, count, visits)
  | bp :: rest, result, smallest, count, visits =>
    if count < 10 then
      let sz := ((locate bs bp).map (fun t => t.2.1.hsize)).getD 0
      if asize ≤ sz then
        if result.isNone || sz < smallest then
          if sz = asize then (some bp, count, visits + 1)
          else scanClass bs asize rest (some bp) sz (count + 1) (visits + 1)
        else scanClass bs asize rest result smallest (count + 1) (visits + 1)
      else scanClass bs asize rest result smallest count (visits + 1)
    else (result, count, visits)

/-- The outer loop of `find_fit` (mm.c:602-629) over the class indices from
the starting class to the last, instrumented with total fits counted and
total nodes visited.  A class that yields a fit ends the search. -/
def findFitClasses (bs : List Block) (segs : List (List Nat)) (asize : Nat) :
    List Nat → Option Nat × Nat × Nat
  | [] => (none, 0, 0)
  | j :: js =>
    let s := scanClass bs asize (segGet segs j) none (wordMod - 1) 0 0
    if s.1.isSome then s
    else
      let t := findFitClasses bs segs asize js
      (t.1, s.2.1 + t.2.1, s.2.2 + t.2.2)

/-- `find_fit` (mm.c:602-629): first-best-of-ten search starting at the
class of `asize`. -/
def find_fit (h : Heap) (asize : Nat) : Option Nat :=
  (findFitClasses h.blocks h.segs asize ((List.range 5).drop (segIdx asize))).1

/-- `extend_heap` (mm.c:452-469): round the word count to even, grow the
region by `size = words*WSIZE` bytes (`mem_sbrk` fails when the capacity is
exceeded), lay out a free block over the new bytes (the old epilogue word
becomes its header; a new epilogue is written at the end), and coalesce with
a trailing free block. -/
def extend_heap (h : Heap) (words : Nat) : Option (Heap × Nat) :=
  let size := if words % 2 = 1 then (words + 1) * 4 else words * 4
  if h.used + size ≤ h.maxHeap then
    let a := sumSizes h.blocks
    let nb : Block := ⟨size, false, size, false, List.replicate (size - 16) 0⟩
    some (coalesce ⟨h.segs, h.blocks ++ [nb], h.used + size, h.maxHeap⟩ a)
  else none

/-- `mm_init` (mm.c:159-179): obtain `4*DSIZE + SEGS*DSIZE = 72` bytes for
the padding word, the five null class roots and the prologue/epilogue
sentinels, then extend by `CHUNKSIZE/WSIZE = 65` words. -/
def mm_init (maxHeap : Nat) : Option Heap :=
  if 4 * 8 + 5 * 8 ≤ maxHeap then
    match extend_heap ⟨[[], [], [], [], []], [], 4 * 8 + 5 * 8, maxHeap⟩ (260 / 4) with
    | some (h1, _) => some h1
    | none => none
  else none

/-- `malloc` (mm.c:186-223): adjust the size, search the free lists, place
on a fit; otherwise extend by `max(asize, CHUNKSIZE)` and place there.
Returns the new heap and the payload address (`none` for null). -/
def mm_malloc (h : Heap) (size : Nat) : Heap × Option Nat :=
  if size = 0 then (h, none)
  else
    let asize := asizeOf size
    match find_fit h asize with
    | some bp => (place h bp asize, some bp)
    | none =>
      let extendsize := max asize 260
      match extend_heap h (extendsize / 4) with
      | none => (h, none)
      | some (h2, bp) => (place h2 bp asize, some bp)

/-- `free` (mm.c:228-244): clear the allocated bit in header and footer and
coalesce. -/
def mm_free (h : Heap) (a : Nat) : Heap :=
  match locate h.blocks a with
  | none => h
  | some (pre, b, post) =>
    let size := b.hsize
    (coalesce ⟨h.segs, pre ++ (⟨size, false, size, false, b.data⟩ : Block) :: post,
      h.used, h.maxHeap⟩ a).1

/-- The bytes `memcpy` reads from a block's payload address: the payload
itself followed (for the possible over-read, mm.c:315 copies
`min(oldsize, size)` bytes where `oldsize` is the whole block size) by the
block's footer word and the next block's header word (the epilogue header
`PACK(0,1)` when there is no next block). -/
def readRegion (bs : List Block) (a : Nat) (cnt : Nat) : List Nat :=
  match locate bs a with
  | none => []
  | some (_, b, post) =>
    (b.data ++ tagBytes b.fsize b.falloc ++
      (match post.head? with
       | some nb => tagBytes nb.hsize nb.halloc
       | none => tagBytes 0 true)).take cnt

/-- Overwrite the leading bytes of the payload of the block at `a`. -/
def writeBytes (h : Heap) (a : Nat) (bytes : List Nat) : Heap :=
  match locate h.blocks a with
  | none => h
  | some (pre, b, post) =>
    ⟨h.segs,
      pre ++ ({ b with data := bytes.take b.data.length ++ b.data.drop bytes.length }) :: post,
      h.used, h.maxHeap⟩

/-- The alloc-copy-free fallback of `realloc` (mm.c:307-321): allocate,
copy `min(oldsize, size)` bytes from the old payload, free the old block.
On allocation failure the original block is left untouched and null is
returned. -/
def reallocMove (h : Heap) (p : Nat) (size : Nat) (oldsize : Nat) : Heap × Option Nat :=
  match mm_malloc h size with
  | (h2, none) => (h2, none)
  | (h2, some np) =>
    let cnt := min oldsize size
    let h3 := writeBytes h2 np (readRegion h2.blocks p cnt)
    (mm_free h3 p, some np)

/-- `realloc` (mm.c:252-322): the four paths — same adjusted size; shrink
(split off and coalesce a free remainder when it is at least the minimum
block size); absorb an immediately following free block when the combined
size suffices (the neighbour is detached from its class list and absorbed
whole); otherwise alloc-copy-free. -/
def mm_realloc (h : Heap) (oldptr : Option Nat) (size : Nat) : Heap × Option Nat :=
  if size = 0 then
    (match oldptr with
     | some p => mm_free h p
     | none => h, none)
  else
    match oldptr with
    | none => mm_malloc h size
    | some p =>
      let asize := asizeOf size
      match locate h.blocks p with
      | none => (h, some p)
      | some (pre, b, post) =>
        let oldsize := b.hsize
        if asize = oldsize then (h, some p)
        else if asize < oldsize then
          if 32 ≤ oldsize - asize then
            let bA : Block := ⟨asize, true, asize, true, b.data.take (asize - 16)⟩
            let rem : Block := ⟨oldsize - asize, false, oldsize - asize, false,
              b.data.drop asize⟩
            ((coalesce ⟨h.segs, pre ++ bA :: rem :: post, h.used, h.maxHeap⟩ (p + asize)).1,
              some p)
          else (h, some p)
        else
          match post.head? with
          | some nb =>
            if nb.halloc = false then
              if asize ≤ oldsize + nb.hsize then
                let m : Block := ⟨oldsize + nb.hsize, true, oldsize + nb.hsize, true,
                  b.data ++ tagBytes b.fsize b.falloc ++ tagBytes nb.hsize nb.halloc ++ nb.data⟩
                (⟨detachAddr h.segs nb.hsize (p + oldsize), pre ++ m :: post.tail,
                  h.used, h.maxHeap⟩, some p)
              else reallocMove h p size oldsize
            else reallocMove h p size oldsize
          | none => reallocMove h p size oldsize

/-- `calloc` (mm.c:328-336): `bytes = nmemb * size` in `size_t` arithmetic
(no overflow check), `malloc`, `memset` to zero.  The C code passes a null
`malloc` result straight to `memset` (§9 of the spec notes this); the model
returns null there. -/
def mm_calloc (h : Heap) (nmemb size : Nat) : Heap × Option Nat :=
  let bytes := nmemb * size % wordMod
  match mm_malloc h bytes with
  | (h2, none) => (h2, none)
  | (h2, some p) => (writeBytes h2 p (List.replicate bytes 0), some p)

/-- Driver operations: the four public entry points.  `fre`/`rea` refer to
the `k`-th live pointer, mirroring the contract that `free`/`realloc` only
receive pointers previously returned and not yet freed. -/
inductive MOp where
  | mal (n : Nat)
  | fre (k : Nat)
  | rea (k : Nat) (n : Nat)
  | cal (a b : Nat)
  deriving Repr, DecidableEq

/-- Driver state: the heap and the list of live payload addresses. -/
structure MState where
  heap : Heap
  ptrs : List Nat
  deriving Repr, DecidableEq

/-- One driver step. -/
def runMOp (st : MState) (op : MOp) : MState :=
  match op with
  | .mal n =>
    match mm_malloc st.heap n with
    | (h, p?) => ⟨h, st.ptrs ++ p?.toList⟩
  | .fre k =>
    match st.ptrs.get? k with
    | none => st
    | some p => ⟨mm_free st.heap p, st.ptrs.eraseIdx k⟩
  | .rea k n =>
    match st.ptrs.get? k with
    | none => st
    | some p =>
      if n = 0 then ⟨(mm_realloc st.heap (some p) 0).1, st.ptrs.eraseIdx k⟩
      else
        match mm_realloc st.heap (some p) n with
        | (h, none) => ⟨h, st.ptrs⟩
        | (h, some q) => ⟨h, st.ptrs.set k q⟩
  | .cal a b =>
    match mm_calloc st.heap a b with
    | (h, p?) => ⟨h, st.ptrs ++ p?.toList⟩

/-- Run a sequence of allocator operations from a successful `mm_init`. -/
def runMOps (maxHeap : Nat) (ops : List MOp) : Option MState :=
  (mm_init maxHeap).map (fun h => ops.foldl runMOp ⟨h, []⟩)

/-- The tiled region after a run (empty when `mm_init` fails). -/
def blocksOfRun (maxHeap : Nat) (ops : List MOp) : List Block :=
  match runMOps maxHeap ops with
  | none => []
  | some st => st.heap.blocks

/-! ### Claim C5 -/

/-- The division loop computes the floor logarithm base 6 (for a positive
starting value `n`, `logLoopGo` applied to `n / 6` with fuel `n / 6`). -/
theorem logLoopGo_eq (fuel : Nat) : ∀ n : Nat, n ≤ fuel →
    logLoopGo fuel n = if n = 0 then 0 else Nat.log 6 n + 1 := by
  induction fuel with
  | zero =>
    intro n hn
    have : n = 0 := Nat.le_zero.mp hn
    simp [this, logLoopGo]
  | succ fuel ih =>
    intro n hn
    by_cases h0 : n = 0
    · simp [h0, logLoopGo]
    · have h1 : 1 ≤ n := Nat.one_le_iff_ne_zero.mpr h0
      have hdiv : n / 6 ≤ fuel := by
        have := Nat.div_lt_self h1 (by norm_num : 1 < 6)
        omega
      rw [show logLoopGo (fuel + 1) n = logLoopGo fuel (n / 6) + 1 by simp [logLoopGo, h0]]
      rw [ih (n / 6) hdiv]
      by_cases h6 : n / 6 = 0
      · have hlt : n < 6 := by
          rcases Nat.lt_or_ge n 6 with h | h
          · exact h
          · have h60 : 0 < n / 6 := Nat.div_pos h (by norm_num)
            omega
        have : Nat.log 6 n = 0 := Nat.log_eq_zero_iff.mpr (Or.inl hlt)
        simp [h6, h0, this]
      · have h6ge : 6 ≤ n := by
          by_contra hc
          exact h6 (Nat.div_eq_of_lt (by omega))
        have hpos : 0 < Nat.log 6 n := Nat.log_pos (by norm_num) h6ge
        have := Nat.log_div_base 6 n
        rw [if_neg h6, if_neg h0]
        omega

/-- The spec's size-class formula: `min(SEGS-1, floor(log_RATIO(size/32)))`,
scaled by the code's 8-byte slot size. -/
def bucketSpec (s : Nat) : Nat := 8 * min (5 - 1) (Nat.log 6 (s / 32))

/-- C5: for every block size `s ≥ 32`, the class offset the allocator's
`bucket` assigns equals `min(SEGS-1, floor(log_6(s / 32)))` scaled by the
8-byte slot size, and every `s ≥ 32·1296` lands in the last class. -/
theorem bucket_eq_bucketSpec (s : Nat) (hs : 32 ≤ s) :
    bucket s = bucketSpec s ∧ (32 * 1296 ≤ s → bucket s = (5 - 1) * 8) := by
  have hn1 : 1 ≤ s / 32 := (Nat.one_le_div_iff (by norm_num)).mpr hs
  set n := s / 32 with hn
  by_cases hbig : 1296 ≤ n
  · have hlog : 4 ≤ Nat.log 6 n := by
      have : (6 : Nat) ^ 4 ≤ n := by norm_num; omega
      exact (Nat.pow_le_iff_le_log (by norm_num) (by omega)).mp this
    constructor
    · rw [bucket, bucketSpec]
      simp only [← hn]
      rw [if_pos (by omega)]
      have : min (5 - 1) (Nat.log 6 n) = 4 := by omega
      rw [this]
    · intro _
      rw [bucket]
      simp only [← hn]
      rw [if_pos (by omega)]
  · have hlt : Nat.log 6 n < 4 := by
      apply Nat.log_lt_of_lt_pow (by omega)
      norm_num
      omega
    have hloop : logLoopGo (n / 6) (n / 6) = if n / 6 = 0 then 0 else Nat.log 6 (n / 6) + 1 :=
      logLoopGo_eq (n / 6) (n / 6) le_rfl
    have hkey : (if n / 6 = 0 then 0 else Nat.log 6 (n / 6) + 1) = Nat.log 6 n := by
      by_cases h6 : n / 6 = 0
      · have hlt6 : n < 6 := by
          rcases Nat.lt_or_ge n 6 with h | h
          · exact h
          · have h60 : 0 < n / 6 := Nat.div_pos h (by norm_num)
            omega
        have : Nat.log 6 n = 0 := Nat.log_eq_zero_iff.mpr (Or.inl hlt6)
        simp [h6, this]
      · have h6ge : 6 ≤ n := by
          by_contra hc
          exact h6 (Nat.div_eq_of_lt (by omega))
        have hpos : 0 < Nat.log 6 n := Nat.log_pos (by norm_num) h6ge
        have := Nat.log_div_base 6 n
        simp only [if_neg h6]
        omega
    constructor
    · rw [bucket, bucketSpec]
      simp only [← hn]
      rw [if_neg (by omega), hloop, hkey]
      have : min (5 - 1) (Nat.log 6 n) = Nat.log 6 n := by omega
      rw [this]
      omega
    · intro hbig2
      exfalso
      have : 1296 ≤ n := by
        rw [hn]
        have := Nat.div_le_div_right (c := 32) hbig2
        rw [Nat.mul_div_cancel_left 1296 (by norm_num : 0 < 32)] at this
        exact this
      omega

/-- Witness for C5 at `s = 200`. -/
theorem bucket_eq_bucketSpec_witness :
    bucket 200 = bucketSpec 200 ∧ ((32 * 1296 : Nat) ≤ 200 → bucket 200 = (5 - 1) * 8) :=
  bucket_eq_bucketSpec 200 (by norm_num)

/-! ### Claim C6 -/

theorem scanClass_bounds (bs : List Block) (asize : Nat) :
    ∀ (lst : List Nat) (res : Option Nat) (sm cnt vis : Nat), cnt ≤ 10 →
    (scanClass bs asize lst res sm cnt vis).2.1 ≤ 10 ∧
    (scanClass bs asize lst res sm cnt vis).2.2 ≤ vis + lst.length := by
  intro lst
  induction lst with
  | nil =>
    intro res sm cnt vis hcnt
    exact ⟨hcnt, by simp [scanClass]⟩
  | cons bp rest ih =>
    intro res sm cnt vis hcnt
    show (scanClass bs asize (bp :: rest) res sm cnt vis).2.1 ≤ 10 ∧ _
    rw [scanClass]
    by_cases hc : cnt < 10
    · rw [if_pos hc]
      set sz := ((locate bs bp).map (fun t => t.2.1.hsize)).getD 0 with hsz
      by_cases hfit : asize ≤ sz
      · rw [if_pos hfit]
        by_cases hbest : (res.isNone || decide (sz < sm)) = true
        · rw [if_pos hbest]
          by_cases hexact : sz = asize
          · rw [if_pos hexact]
            constructor
            · exact hcnt
            · show vis + 1 ≤ vis + (rest.length + 1)
              omega
          · rw [if_neg hexact]
            obtain ⟨h1, h2⟩ := ih (some bp) sz (cnt + 1) (vis + 1) (by omega)
            exact ⟨h1, by simp at h2 ⊢; omega⟩
        · rw [if_neg hbest]
          obtain ⟨h1, h2⟩ := ih res sm (cnt + 1) (vis + 1) (by omega)
          exact ⟨h1, by simp at h2 ⊢; omega⟩
      · rw [if_neg hfit]
        obtain ⟨h1, h2⟩ := ih res sm cnt (vis + 1) hcnt
        exact ⟨h1, by simp at h2 ⊢; omega⟩
    · rw [if_neg hc]
      exact ⟨hcnt, Nat.le_add_right _ _⟩

theorem findFitClasses_bounds (bs : List Block) (segs : List (List Nat)) (asize : Nat) :
    ∀ (js : List Nat),
    (findFitClasses bs segs asize js).2.1 ≤ 10 * js.length ∧
    (findFitClasses bs segs asize js).2.2 ≤
      (js.map (fun j => (segGet segs j).length)).sum := by
  intro js
  induction js with
  | nil => exact ⟨by simp [findFitClasses], by simp [findFitClasses]⟩
  | cons j rest ih =>
    obtain ⟨hs1, hs2⟩ :=
      scanClass_bounds bs asize (segGet segs j) none (wordMod - 1) 0 0 (by omega)
    simp only [findFitClasses, List.map_cons, List.sum_cons, List.length_cons]
    by_cases hres : (scanClass bs asize (segGet segs j) none (wordMod - 1) 0 0).1.isSome
    · rw [if_pos hres]
      constructor
      · omega
      · omega
    · rw [if_neg hres]
      obtain ⟨ih1, ih2⟩ := ih
      constructor
      · show (scanClass bs asize (segGet segs j) none (wordMod - 1) 0 0).2.1 +
          (findFitClasses bs segs asize rest).2.1 ≤ 10 * (rest.length + 1)
        omega
      · show (scanClass bs asize (segGet segs j) none (wordMod - 1) 0 0).2.2 +
          (findFitClasses bs segs asize rest).2.2 ≤ _
        omega

/-- C6 (amended): `find_fit`'s search counts at most ten fitting candidates
per class (the `count < 10` guard counts only blocks with `size ≥ asize`),
hence at most `10·SEGS = 50` fitting candidates over the whole search; but
the number of free-list nodes *visited* is bounded only by the total length
of the free lists scanned, not by 50 — non-fitting nodes are walked without
being counted. -/
theorem find_fit_bounds (h : Heap) (asize : Nat) :
    (∀ lst : List Nat,
      (scanClass h.blocks asize lst none (wordMod - 1) 0 0).2.1 ≤ 10 ∧
      (scanClass h.blocks asize lst none (wordMod - 1) 0 0).2.2 ≤ lst.length) ∧
    (findFitClasses h.blocks h.segs asize ((List.range 5).drop (segIdx asize))).2.1 ≤ 50 ∧
    (findFitClasses h.blocks h.segs asize ((List.range 5).drop (segIdx asize))).2.2 ≤
      ((((List.range 5).drop (segIdx asize))).map (fun j => (segGet h.segs j).length)).sum := by
  refine ⟨?_, ?_, ?_⟩
  · intro lst
    have := scanClass_bounds h.blocks asize lst none (wordMod - 1) 0 0 (by omega)
    exact ⟨this.1, by have := this.2; omega⟩
  · have := (findFitClasses_bounds h.blocks h.segs asize ((List.range 5).drop (segIdx asize))).1
    have hlen : ((List.range 5).drop (segIdx asize)).length ≤ 5 := by
      simp
    omega
  · exact (findFitClasses_bounds h.blocks h.segs asize _).2

/-- A reachable heap with sixty small free blocks in class 0: 120 mallocs of
16 bytes (adjusted size 32; each 264-byte extension is carved into seven
32-byte blocks and one 40-byte block), then free every other returned
pointer — the neighbours of each freed block stay allocated, so no
coalescing happens and all sixty 32-byte blocks land in class 0. -/
def manyFreeOps : List MOp :=
  List.replicate 120 (MOp.mal 16) ++ (List.range 60).map MOp.fre

/-- The payload address of the `i`-th malloc of `manyFreeOps`. -/
def mPtr (i : Nat) : Nat := 264 * (i / 8) + 32 * (i % 8)

/-- One fully carved 264-byte extension: seven 32-byte blocks, one 40-byte
block. -/
def grpBlocks : List Block :=
  List.replicate 7 ⟨32, true, 32, true, List.replicate 16 0⟩ ++
    [⟨40, true, 40, true, List.replicate 24 0⟩]

/-- The tiled region after the first `m` mallocs of `manyFreeOps`. -/
def mallocBlocks (m : Nat) : List Block :=
  let g := m / 8
  let r := m % 8
  (List.replicate g grpBlocks).flatten ++
  List.replicate r (⟨32, true, 32, true, List.replicate 16 0⟩ : Block) ++
  (if r = 0 then
    (if m = 0 then [(⟨264, false, 264, false, List.replicate 248 0⟩ : Block)] else [])
   else [(⟨264 - 32 * r, false, 264 - 32 * r, false, List.replicate (248 - 32 * r) 0⟩ : Block)])

/-- The free lists after the first `m` mallocs of `manyFreeOps`. -/
def mallocSegs (m : Nat) : List (List Nat) :=
  let r := m % 8
  if m = 0 then [[], [mPtr m], [], [], []]
  else if r = 0 then [[], [], [], [], []]
  else if r ≤ 2 then [[], [mPtr m], [], [], []]
  else [[mPtr m], [], [], [], []]

/-- The bytes obtained from `mem_sbrk` after the first `m` mallocs. -/
def mallocUsed (m : Nat) : Nat :=
  if m = 0 then 336 else 72 + 264 * ((m + 7) / 8)

/-- The driver state after the first `m` mallocs of `manyFreeOps`. -/
def mallocSt (m : Nat) : MState :=
  ⟨⟨mallocSegs m, mallocBlocks m, mallocUsed m, 100000⟩, (List.range m).map mPtr⟩

/-- The `i`-th block of the region after the free phase made it free
(`fr = true`) or left it allocated. -/
def freeBlockAt (i : Nat) (fr : Bool) : Block :=
  let s := if i % 8 = 7 then 40 else 32
  ⟨s, !fr, s, !fr, List.replicate (s - 16) 0⟩

/-- The driver state after all 120 mallocs and the first `j` frees of
`manyFreeOps`: blocks of even original index below `2j` are free and their
addresses sit in class 0 in LIFO order. -/
def freeSt (j : Nat) : MState :=
  ⟨⟨[(List.range j).reverse.map (fun i => mPtr (2 * i)), [], [], [], []],
    (List.range 120).map (fun i => freeBlockAt i (decide (i < 2 * j) && decide (i % 2 = 0))),
    mallocUsed 120, 100000⟩,
   ((List.range j).map (fun i => mPtr (2 * i + 1))) ++
     ((List.range (120 - 2 * j)).map (fun i => mPtr (2 * j + i)))⟩

/-- Twenty mallocs of 16 bytes. -/
def mChunk : List MOp := List.replicate 20 (MOp.mal 16)

/-- Twenty frees at driver indices `o`, `o+1`, ..., `o+19`. -/
def fChunk (o : Nat) : List MOp := (List.range 20).map (fun k => MOp.fre (o + k))

set_option maxRecDepth 8000 in
theorem c6_chunk_m1 : mChunk.foldl runMOp (mallocSt 0) = mallocSt 20 := by decide

set_option maxRecDepth 8000 in
theorem c6_chunk_m2 : mChunk.foldl runMOp (mallocSt 20) = mallocSt 40 := by decide

set_option maxRecDepth 8000 in
theorem c6_chunk_m3 : mChunk.foldl runMOp (mallocSt 40) = mallocSt 60 := by decide

set_option maxRecDepth 8000 in
theorem c6_chunk_m4 : mChunk.foldl runMOp (mallocSt 60) = mallocSt 80 := by decide

set_option maxRecDepth 8000 in
theorem c6_chunk_m5 : mChunk.foldl runMOp (mallocSt 80) = mallocSt 100 := by decide

set_option maxRecDepth 8000 in
theorem c6_chunk_m6 : mChunk.foldl runMOp (mallocSt 100) = mallocSt 120 := by decide

set_option maxRecDepth 8000 in
theorem c6_chunk_f1 : (fChunk 0).foldl runMOp (mallocSt 120) = freeSt 20 := by decide

set_option maxRecDepth 8000 in
theorem c6_chunk_f2 : (fChunk 20).foldl runMOp (freeSt 20) = freeSt 40 := by decide

set_option maxRecDepth 8000 in
theorem c6_chunk_f3 : (fChunk 40).foldl runMOp (freeSt 40) = freeSt 60 := by decide

set_option maxRecDepth 2000 in
theorem manyFree_run : runMOps 100000 manyFreeOps = some (freeSt 60) := by
  have hsplit : manyFreeOps =
      mChunk ++ (mChunk ++ (mChunk ++ (mChunk ++ (mChunk ++ (mChunk ++
        (fChunk 0 ++ (fChunk 20 ++ fChunk 40))))))) := by decide
  have hinit : mm_init 100000 = some (mallocSt 0).heap := by decide
  rw [runMOps, hinit]
  show some (manyFreeOps.foldl runMOp ⟨(mallocSt 0).heap, []⟩) = _
  have hstart : (⟨(mallocSt 0).heap, []⟩ : MState) = mallocSt 0 := rfl
  rw [hstart, hsplit, List.foldl_append, List.foldl_append, List.foldl_append,
    List.foldl_append, List.foldl_append, List.foldl_append, List.foldl_append,
    List.foldl_append, c6_chunk_m1, c6_chunk_m2, c6_chunk_m3, c6_chunk_m4,
    c6_chunk_m5, c6_chunk_m6, c6_chunk_f1, c6_chunk_f2, c6_chunk_f3]

set_option maxRecDepth 4000 in
/-- Counterexample to C6 as stated: on the heap reached by `manyFreeOps`,
the allocation request `malloc(144)` (adjusted size 160) makes `find_fit`
visit 60 free-list nodes — more than the claimed bound of `10·SEGS = 50` —
because the sixty blocks in class 0 are all smaller than 160 and are walked
without being counted as fits. -/
theorem find_fit_visits_counterexample :
    (runMOps 100000 manyFreeOps).map (fun st =>
      (findFitClasses st.heap.blocks st.heap.segs (asizeOf 144)
        ((List.range 5).drop (segIdx (asizeOf 144)))).2.2) = some 60 ∧ (50 : Nat) < 60 := by
  rw [manyFree_run]
  exact ⟨by decide, by decide⟩

/-! ### Heap well-formedness -/

/-- Well-formedness of one block: header equals footer, at least the minimum
block size, 8-byte-aligned size, payload of `size - 16` bytes. -/
def blockWF (b : Block) : Prop :=
  b.fsize = b.hsize ∧ b.falloc = b.halloc ∧ 32 ≤ b.hsize ∧ b.hsize % 8 = 0 ∧
  b.data.length = b.hsize - 16

/-- No two physically adjacent blocks are both free. -/
def coalescedOK (bs : List Block) : Prop :=
  List.Chain' (fun x y => x.halloc = true ∨ y.halloc = true) bs

/-- Address `a` resolves to a free block whose class is `j`. -/
def addrFree (bs : List Block) (j a : Nat) : Prop :=
  ∃ pre b post, locate bs a = some (pre, b, post) ∧ b.halloc = false ∧ segIdx b.hsize = j

/-- Soundness of the segregated lists: five classes, no duplicate addresses
within a class, and every listed address is the address of a free block of
that class. -/
def segsWF (bs : List Block) (segs : List (List Nat)) : Prop :=
  segs.length = 5 ∧
  (∀ j, (segGet segs j).Nodup) ∧
  (∀ j, ∀ a ∈ segGet segs j, addrFree bs j a)

/-- The full heap invariant. -/
def heapWF (h : Heap) : Prop :=
  (∀ b ∈ h.blocks, blockWF b) ∧ coalescedOK h.blocks ∧ segsWF h.blocks h.segs ∧
  h.used = 72 + sumSizes h.blocks ∧ h.used ≤ h.maxHeap

theorem sumSizes_nil : sumSizes [] = 0 := rfl

theorem sumSizes_cons (b : Block) (l : List Block) :
    sumSizes (b :: l) = b.hsize + sumSizes l := by
  simp [sumSizes]

theorem sumSizes_append (l1 l2 : List Block) :
    sumSizes (l1 ++ l2) = sumSizes l1 + sumSizes l2 := by
  simp [sumSizes]

/-! ### `locate` lemmas -/

theorem locate_decomp : ∀ (bs : List Block) (a : Nat) (pre : List Block) (b : Block)
    (post : List Block), locate bs a = some (pre, b, post) →
    bs = pre ++ b :: post ∧ sumSizes pre = a := by
  intro bs
  induction bs with
  | nil => intro a pre b post h; cases h
  | cons x rest ih =>
    intro a pre b post h
    rw [locate] at h
    by_cases h0 : a = 0
    · rw [if_pos h0] at h
      cases h
      exact ⟨rfl, by simp [sumSizes_nil, h0]⟩
    · rw [if_neg h0] at h
      by_cases hlt : a < x.hsize
      · rw [if_pos hlt] at h; cases h
      · rw [if_neg hlt] at h
        cases hrec : locate rest (a - x.hsize) with
        | none => rw [hrec] at h; cases h
        | some t =>
          rw [hrec] at h
          obtain ⟨t1, t2, t3⟩ := t
          cases h
          obtain ⟨hd, hs⟩ := ih (a - x.hsize) t1 t2 t3 hrec
          constructor
          · rw [show x :: rest = x :: (t1 ++ t2 :: t3) from by rw [← hd]]
            rfl
          · rw [sumSizes_cons, hs]
            omega

theorem locate_of_pos : ∀ (pre : List Block) (b : Block) (post : List Block),
    (∀ x ∈ pre, 0 < x.hsize) →
    locate (pre ++ b :: post) (sumSizes pre) = some (pre, b, post) := by
  intro pre
  induction pre with
  | nil => intro b post _; simp [locate, sumSizes_nil]
  | cons x rest ih =>
    intro b post hpos
    have hx : 0 < x.hsize := hpos x (by simp)
    rw [show (x :: rest) ++ b :: post = x :: (rest ++ b :: post) from rfl, locate]
    rw [sumSizes_cons]
    rw [if_neg (by omega), if_neg (by omega)]
    rw [show x.hsize + sumSizes rest - x.hsize = sumSizes rest from by omega]
    rw [ih b post (fun y hy => hpos y (by simp [hy]))]
    rfl

theorem locate_append_left : ∀ (P R : List Block) (a : Nat), a < sumSizes P →
    locate (P ++ R) a = (locate P a).map (fun t => (t.1, t.2.1, t.2.2 ++ R)) := by
  intro P
  induction P with
  | nil => intro R a h; rw [sumSizes_nil] at h; omega
  | cons x rest ih =>
    intro R a h
    rw [show (x :: rest) ++ R = x :: (rest ++ R) from rfl, locate, locate]
    by_cases h0 : a = 0
    · simp [h0]
    · rw [if_neg h0, if_neg h0]
      by_cases hlt : a < x.hsize
      · simp [hlt]
      · rw [if_neg hlt, if_neg hlt]
        rw [sumSizes_cons] at h
        rw [ih R (a - x.hsize) (by omega)]
        cases locate rest (a - x.hsize) <;> rfl

theorem locate_append_right : ∀ (P R : List Block) (a : Nat),
    (∀ x ∈ P, 0 < x.hsize) → sumSizes P ≤ a →
    locate (P ++ R) a = (locate R (a - sumSizes P)).map
      (fun t => (P ++ t.1, t.2.1, t.2.2)) := by
  intro P
  induction P with
  | nil =>
    intro R a _ _
    rw [sumSizes_nil, Nat.sub_zero]
    show locate R a = _
    cases h : locate R a with
    | none => rfl
    | some t => rfl
  | cons x rest ih =>
    intro R a hpos hle
    have hx : 0 < x.hsize := hpos x (by simp)
    rw [sumSizes_cons] at hle
    have hrest : sumSizes rest ≤ a - x.hsize := by omega
    rw [show (x :: rest) ++ R = x :: (rest ++ R) from rfl, locate]
    rw [if_neg (by omega), if_neg (by omega)]
    rw [ih R (a - x.hsize) (fun y hy => hpos y (by simp [hy])) hrest]
    rw [show a - x.hsize - sumSizes rest = a - sumSizes (x :: rest) from by
      rw [sumSizes_cons]; omega]
    cases locate R (a - sumSizes (x :: rest)) <;> rfl

/-! ### Window and frame lemmas -/

/-- A located address inside the window of a middle segment `Z` is the start
address of one of `Z`'s blocks. -/
theorem locate_window {P Z Q : List Block} {a : Nat}
    {t : List Block × Block × List Block}
    (hP : ∀ x ∈ P, 0 < x.hsize)
    (hloc : locate (P ++ Z ++ Q) a = some t)
    (h1 : sumSizes P ≤ a) (h2 : a < sumSizes P + sumSizes Z) :
    ∃ pz bz qz, Z = pz ++ bz :: qz ∧ a = sumSizes P + sumSizes pz ∧ t.2.1 = bz := by
  rw [List.append_assoc, locate_append_right P (Z ++ Q) a hP h1] at hloc
  cases hl1 : locate (Z ++ Q) (a - sumSizes P) with
  | none => rw [hl1] at hloc; cases hloc
  | some t1 =>
    rw [hl1] at hloc
    rw [locate_append_left Z Q (a - sumSizes P) (by omega)] at hl1
    cases hl2 : locate Z (a - sumSizes P) with
    | none => rw [hl2] at hl1; cases hl1
    | some t2 =>
      rw [hl2] at hl1
      obtain ⟨pz, bz, qz⟩ := t2
      obtain ⟨hdecomp, hsum⟩ := locate_decomp Z (a - sumSizes P) pz bz qz hl2
      cases hl1
      cases hloc
      exact ⟨pz, bz, qz, hdecomp, by omega, rfl⟩

/-- Replacing a middle segment by one of equal total size preserves
`addrFree` for addresses outside the window. -/
theorem addrFree_replace {P Z Z2 Q : List Block} {j a : Nat}
    (hP : ∀ x ∈ P, 0 < x.hsize) (hZ : ∀ x ∈ Z, 0 < x.hsize)
    (hZ2 : ∀ x ∈ Z2, 0 < x.hsize)
    (hsz : sumSizes Z2 = sumSizes Z)
    (h : addrFree (P ++ Z ++ Q) j a)
    (hout : a < sumSizes P ∨ sumSizes P + sumSizes Z ≤ a) :
    addrFree (P ++ Z2 ++ Q) j a := by
  obtain ⟨pre, b, post, hloc, hfree, hcls⟩ := h
  rcases hout with hlt | hge
  · rw [List.append_assoc, locate_append_left P (Z ++ Q) a hlt] at hloc
    cases hl : locate P a with
    | none => rw [hl] at hloc; cases hloc
    | some t =>
      rw [hl] at hloc
      obtain ⟨t1, t2, t3⟩ := t
      cases hloc
      refine ⟨t1, t2, t3 ++ (Z2 ++ Q), ?_, hfree, hcls⟩
      rw [List.append_assoc, locate_append_left P (Z2 ++ Q) a hlt, hl]
      rfl
  · rw [locate_append_right (P ++ Z) Q a
      (by intro x hx; rcases List.mem_append.mp hx with h1 | h2
          exacts [hP x h1, hZ x h2])
      (by rw [sumSizes_append]; omega)] at hloc
    cases hl : locate Q (a - sumSizes (P ++ Z)) with
    | none => rw [hl] at hloc; cases hloc
    | some t =>
      rw [hl] at hloc
      obtain ⟨t1, t2, t3⟩ := t
      cases hloc
      refine ⟨(P ++ Z2) ++ t1, t2, t3, ?_, hfree, hcls⟩
      rw [locate_append_right (P ++ Z2) Q a ?_ ?_]
      · rw [show a - sumSizes (P ++ Z2) = a - sumSizes (P ++ Z) from by
          rw [sumSizes_append, sumSizes_append, hsz], hl]
        rfl
      · intro x hx
        rcases List.mem_append.mp hx with h1 | h2
        exacts [hP x h1, hZ2 x h2]
      · rw [sumSizes_append, hsz]
        omega

/-! ### Class-list helper lemmas -/

theorem bucket_le (num : Nat) : bucket num ≤ 32 := by
  rw [bucket]
  by_cases hbig : 1296 ≤ num / (2 * 16)
  · rw [if_pos hbig]
  · rw [if_neg hbig]
    set n := num / (2 * 16) with hn
    rw [logLoopGo_eq (n / 6) (n / 6) le_rfl]
    by_cases h6 : n / 6 = 0
    · simp [h6]
    · rw [if_neg h6]
      have h6ge : 6 ≤ n := by
        by_contra hc
        exact h6 (Nat.div_eq_of_lt (by omega))
      have : Nat.log 6 (n / 6) < 3 := by
        apply Nat.log_lt_of_lt_pow (by omega)
        have : n / 6 < 216 := by omega
        simpa using this
      omega

theorem segIdx_lt (num : Nat) : segIdx num < 5 := by
  have := bucket_le num
  rw [segIdx]
  omega

theorem segGet_set_self {segs : List (List Nat)} {j : Nat} (l : List Nat)
    (hj : j < segs.length) : segGet (segSet segs j l) j = l := by
  rw [segGet, segSet, List.getElem?_set_self' ]
  simp [hj]

theorem segGet_set_other {segs : List (List Nat)} {j j2 : Nat} (l : List Nat)
    (hne : j2 ≠ j) : segGet (segSet segs j l) j2 = segGet segs j2 := by
  rw [segGet, segSet, List.getElem?_set_ne (fun h => hne h.symm)]
  rfl

theorem segSet_length (segs : List (List Nat)) (j : Nat) (l : List Nat) :
    (segSet segs j l).length = segs.length := by
  simp [segSet]

theorem segGet_detachAddr {segs : List (List Nat)} (h5 : segs.length = 5)
    (s a j : Nat) :
    segGet (detachAddr segs s a) j =
      if j = segIdx s then (segGet segs j).erase a else segGet segs j := by
  by_cases hj : j = segIdx s
  · rw [if_pos hj, hj, detachAddr, segGet_set_self _ (by rw [h5]; exact segIdx_lt s)]
  · rw [if_neg hj, detachAddr, segGet_set_other _ hj]

theorem segGet_insertRoot {segs : List (List Nat)} (h5 : segs.length = 5)
    (s a j : Nat) :
    segGet (insertRoot segs s a) j =
      if j = segIdx s then a :: segGet segs j else segGet segs j := by
  by_cases hj : j = segIdx s
  · rw [if_pos hj, hj, insertRoot, segGet_set_self _ (by rw [h5]; exact segIdx_lt s)]
  · rw [if_neg hj, insertRoot, segGet_set_other _ hj]

theorem detachAddr_length (segs : List (List Nat)) (s a : Nat) :
    (detachAddr segs s a).length = segs.length := segSet_length _ _ _

theorem insertRoot_length (segs : List (List Nat)) (s a : Nat) :
    (insertRoot segs s a).length = segs.length := by
  simp [insertRoot, segSet]

/-- Replacing a middle segment by one of equal total size keeps every
located block outside the window, at the same address. -/
theorem locate_replace {P Z Z2 Q : List Block} {a : Nat}
    {t : List Block × Block × List Block}
    (hP : ∀ x ∈ P, 0 < x.hsize) (hZ : ∀ x ∈ Z, 0 < x.hsize)
    (hZ2 : ∀ x ∈ Z2, 0 < x.hsize)
    (hsz : sumSizes Z2 = sumSizes Z)
    (hloc : locate (P ++ Z ++ Q) a = some t)
    (hout : a < sumSizes P ∨ sumSizes P + sumSizes Z ≤ a) :
    ∃ pre2 post2, locate (P ++ Z2 ++ Q) a = some (pre2, t.2.1, post2) := by
  rcases hout with hlt | hge
  · rw [List.append_assoc, locate_append_left P (Z ++ Q) a hlt] at hloc
    cases hl : locate P a with
    | none => rw [hl] at hloc; cases hloc
    | some t1 =>
      rw [hl] at hloc
      obtain ⟨t1a, t1b, t1c⟩ := t1
      cases hloc
      refine ⟨t1a, t1c ++ (Z2 ++ Q), ?_⟩
      rw [List.append_assoc, locate_append_left P (Z2 ++ Q) a hlt, hl]
      rfl
  · rw [locate_append_right (P ++ Z) Q a
      (by intro x hx; rcases List.mem_append.mp hx with h1 | h2
          exacts [hP x h1, hZ x h2])
      (by rw [sumSizes_append]; omega)] at hloc
    cases hl : locate Q (a - sumSizes (P ++ Z)) with
    | none => rw [hl] at hloc; cases hloc
    | some t1 =>
      rw [hl] at hloc
      obtain ⟨t1a, t1b, t1c⟩ := t1
      cases hloc
      refine ⟨(P ++ Z2) ++ t1a, t1c, ?_⟩
      rw [locate_append_right (P ++ Z2) Q a ?_ ?_]
      · rw [show a - sumSizes (P ++ Z2) = a - sumSizes (P ++ Z) from by
          rw [sumSizes_append, sumSizes_append, hsz], hl]
        rfl
      · intro x hx
        rcases List.mem_append.mp hx with h1 | h2
        exacts [hP x h1, hZ2 x h2]
      · rw [sumSizes_append, hsz]
        omega

/-- Well-formedness of the merged state produced by the merging cases of
`coalesce`: a window `Z` of free blocks is replaced by the single free block
`merged` of the same total size, under class lists `segs2` from which all of
`Z`'s addresses have been detached; the merged address is then inserted at
the root of its class. -/
theorem merged_heap_wf
    (segs2 : List (List Nat))
    (P2 Z Q2 : List Block) (merged : Block)
    (hwfP : ∀ x ∈ P2, blockWF x) (hwfQ : ∀ x ∈ Q2, blockWF x)
    (hwfZ : ∀ x ∈ Z, blockWF x) (hZfree : ∀ x ∈ Z, x.halloc = false)
    (hZpos : 0 < sumSizes Z)
    (hwfM : blockWF merged) (hMfree : merged.halloc = false)
    (hMsz : merged.hsize = sumSizes Z)
    (hchP : coalescedOK P2) (hchQ : coalescedOK Q2)
    (hbl : ∀ p ∈ P2.getLast?, p.halloc = true)
    (hbr : ∀ n ∈ Q2.head?, n.halloc = true)
    (hlen2 : segs2.length = 5)
    (hnodup2 : ∀ j, (segGet segs2 j).Nodup)
    (hsound2 : ∀ j, ∀ a ∈ segGet segs2 j, addrFree (P2 ++ Z ++ Q2) j a ∧
        (a < sumSizes P2 ∨ sumSizes P2 + sumSizes Z ≤ a)) :
    (∀ x ∈ P2 ++ merged :: Q2, blockWF x) ∧
    coalescedOK (P2 ++ merged :: Q2) ∧
    segsWF (P2 ++ merged :: Q2) (insertRoot segs2 merged.hsize (sumSizes P2)) ∧
    sumSizes (P2 ++ merged :: Q2) = sumSizes (P2 ++ Z ++ Q2) ∧
    (∀ a t, locate (P2 ++ Z ++ Q2) a = some t → t.2.1.halloc = true →
      ∃ pre2 post2, locate (P2 ++ merged :: Q2) a = some (pre2, t.2.1, post2)) ∧
    locate (P2 ++ merged :: Q2) (sumSizes P2) = some (P2, merged, Q2) := by
  have hposP : ∀ x ∈ P2, 0 < x.hsize := fun x hx => by
    have := (hwfP x hx).2.2.1
    omega
  have hposZ : ∀ x ∈ Z, 0 < x.hsize := fun x hx => by
    have := (hwfZ x hx).2.2.1
    omega
  have hposM : ∀ x ∈ [merged], 0 < x.hsize := by
    intro x hx
    rw [List.mem_singleton] at hx
    subst hx
    have := hwfM.2.2.1
    omega
  have hszM : sumSizes [merged] = sumSizes Z := by
    rw [sumSizes_cons, sumSizes_nil, hMsz]
    omega
  have hlocM : locate (P2 ++ merged :: Q2) (sumSizes P2) = some (P2, merged, Q2) :=
    locate_of_pos P2 merged Q2 hposP
  refine ⟨?_, ?_, ?_, ?_, ?_, hlocM⟩
  · intro x hx
    rcases List.mem_append.mp hx with h1 | h2
    · exact hwfP x h1
    · rcases List.mem_cons.mp h2 with rfl | h3
      · exact hwfM
      · exact hwfQ x h3
  · rw [coalescedOK, List.chain'_append]
    refine ⟨hchP, ?_, ?_⟩
    · rw [List.chain'_cons']
      refine ⟨?_, hchQ⟩
      intro y hy
      exact Or.inr (hbr y hy)
    · intro x hx y hy
      rw [List.head?_cons, Option.mem_some_iff] at hy
      subst hy
      exact Or.inl (hbl x hx)
  · refine ⟨?_, ?_, ?_⟩
    · rw [insertRoot_length, hlen2]
    · intro j
      rw [segGet_insertRoot hlen2]
      by_cases hj : j = segIdx merged.hsize
      · rw [if_pos hj]
        refine List.Nodup.cons ?_ (hnodup2 j)
        intro hmem
        have := (hsound2 j _ hmem).2
        omega
      · rw [if_neg hj]
        exact hnodup2 j
    · intro j a ha
      rw [segGet_insertRoot hlen2] at ha
      by_cases hj : j = segIdx merged.hsize
      · rw [if_pos hj] at ha
        rcases List.mem_cons.mp ha with rfl | ha2
        · exact ⟨P2, merged, Q2, hlocM, hMfree, hj.symm⟩
        · obtain ⟨haf, hout⟩ := hsound2 j a ha2
          have := addrFree_replace hposP hposZ hposM hszM haf hout
          simpa using this
      · rw [if_neg hj] at ha
        obtain ⟨haf, hout⟩ := hsound2 j a ha
        have := addrFree_replace hposP hposZ hposM hszM haf hout
        simpa using this
  · rw [sumSizes_append, sumSizes_append, sumSizes_append, sumSizes_cons, hMsz]
    omega
  · intro a t hloc halloc
    by_cases hout : a < sumSizes P2 ∨ sumSizes P2 + sumSizes Z ≤ a
    · obtain ⟨pre2, post2, h2⟩ := locate_replace hposP hposZ hposM hszM hloc hout
      exact ⟨pre2, post2, by simpa using h2⟩
    · push_neg at hout
      obtain ⟨pz, bz, qz, hdec, hsum, hbz⟩ :=
        locate_window hposP hloc hout.1 (by omega)
      have : bz.halloc = false := hZfree bz (by rw [hdec]; simp)
      rw [hbz, this] at halloc
      cases halloc

/-! ### Evaluation lemmas for `coalesce` on a located zipper -/

theorem coalesce_eq_case1 (segs : List (List Nat)) (used maxHeap : Nat)
    (P : List Block) (b : Block) (Q : List Block)
    (hposP : ∀ x ∈ P, 0 < x.hsize)
    (hpa : ∀ p ∈ P.getLast?, p.falloc = true)
    (hna : ∀ n ∈ Q.head?, n.halloc = true) :
    coalesce ⟨segs, P ++ b :: Q, used, maxHeap⟩ (sumSizes P) =
      (⟨insertRoot segs b.hsize (sumSizes P), P ++ b :: Q, used, maxHeap⟩, sumSizes P) := by
  have hloc := locate_of_pos P b Q hposP
  have hpa2 : (((P.getLast?).map (·.falloc)).getD true) = true := by
    cases hP : P.getLast? with
    | none => rfl
    | some p => simpa using hpa p (by rw [hP]; rfl)
  have hna2 : (((Q.head?).map (·.halloc)).getD true) = true := by
    cases hQ : Q.head? with
    | none => rfl
    | some n => simpa using hna n (by rw [hQ]; rfl)
  simp only [coalesce, hloc, hpa2, hna2, if_pos]

theorem coalesce_eq_case2 (segs : List (List Nat)) (used maxHeap : Nat)
    (P : List Block) (b : Block) (n : Block) (Q2 : List Block)
    (hposP : ∀ x ∈ P, 0 < x.hsize)
    (hpa : ∀ p ∈ P.getLast?, p.falloc = true)
    (hnfree : n.halloc = false) :
    coalesce ⟨segs, P ++ b :: n :: Q2, used, maxHeap⟩ (sumSizes P) =
      (⟨insertRoot (detachAddr segs n.hsize (sumSizes P + b.hsize)) (b.hsize + n.hsize)
          (sumSizes P),
        P ++ (⟨b.hsize + n.hsize, false, b.hsize + n.hsize, false,
          b.data ++ tagBytes b.fsize b.falloc ++ tagBytes n.hsize n.halloc ++ n.data⟩ : Block)
          :: Q2,
        used, maxHeap⟩, sumSizes P) := by
  have hloc := locate_of_pos P b (n :: Q2) hposP
  have hpa2 : ((((P).getLast?).map (·.falloc)).getD true) = true := by
    cases hP : P.getLast? with
    | none => rfl
    | some p => simpa using hpa p (by rw [hP]; rfl)
  have hna2 : ((((n :: Q2).head?).map (·.halloc)).getD true) = false := by
    simpa using hnfree
  simp only [coalesce, hloc, hpa2, hna2, if_pos, Bool.false_eq_true, if_false]

theorem coalesce_eq_case3 (segs : List (List Nat)) (used maxHeap : Nat)
    (P2 : List Block) (p : Block) (b : Block) (Q : List Block)
    (hposP : ∀ x ∈ P2 ++ [p], 0 < x.hsize)
    (hpfree : p.falloc = false)
    (hna : ∀ n ∈ Q.head?, n.halloc = true) :
    coalesce ⟨segs, (P2 ++ [p]) ++ b :: Q, used, maxHeap⟩ (sumSizes (P2 ++ [p])) =
      (⟨insertRoot (detachAddr segs p.hsize (sumSizes (P2 ++ [p]) - p.hsize))
          (p.hsize + b.hsize) (sumSizes (P2 ++ [p]) - p.hsize),
        (P2 ++ [p]).dropLast ++ (⟨p.hsize + b.hsize, false, p.hsize + b.hsize, false,
          p.data ++ tagBytes p.fsize p.falloc ++ tagBytes b.hsize b.halloc ++ b.data⟩ : Block)
          :: Q,
        used, maxHeap⟩, sumSizes (P2 ++ [p]) - p.hsize) := by
  have hloc := locate_of_pos (P2 ++ [p]) b Q hposP
  have hlast : (P2 ++ [p]).getLast? = some p := by
    rw [List.getLast?_concat]
  have hpa2 : ((((P2 ++ [p]).getLast?).map (·.falloc)).getD true) = false := by
    rw [hlast]
    simpa using hpfree
  have hna2 : (((Q.head?).map (·.halloc)).getD true) = true := by
    cases hQ : Q.head? with
    | none => rfl
    | some n => simpa using hna n (by rw [hQ]; rfl)
  simp only [coalesce, hloc, hpa2, hna2, if_pos, Bool.false_eq_true, if_false, hlast,
    Option.map_some', Option.getD_some, hpfree]

theorem coalesce_eq_case4 (segs : List (List Nat)) (used maxHeap : Nat)
    (P2 : List Block) (p : Block) (b : Block) (n : Block) (Q2 : List Block)
    (hposP : ∀ x ∈ P2 ++ [p], 0 < x.hsize)
    (hpfree : p.falloc = false)
    (hnfree : n.halloc = false) :
    coalesce ⟨segs, (P2 ++ [p]) ++ b :: n :: Q2, used, maxHeap⟩ (sumSizes (P2 ++ [p])) =
      (⟨insertRoot
          (detachAddr (detachAddr segs n.hsize (sumSizes (P2 ++ [p]) + b.hsize))
            p.hsize (sumSizes (P2 ++ [p]) - p.hsize))
          (b.hsize + p.hsize + n.fsize) (sumSizes (P2 ++ [p]) - p.hsize),
        (P2 ++ [p]).dropLast ++
          (⟨b.hsize + p.hsize + n.fsize, false, b.hsize + p.hsize + n.fsize, false,
            p.data ++ tagBytes p.fsize p.falloc ++ tagBytes b.hsize b.halloc ++
              b.data ++ tagBytes b.fsize b.falloc ++ tagBytes n.hsize n.halloc ++ n.data⟩ :
            Block) :: Q2,
        used, maxHeap⟩, sumSizes (P2 ++ [p]) - p.hsize) := by
  have hloc := locate_of_pos (P2 ++ [p]) b (n :: Q2) hposP
  have hlast : (P2 ++ [p]).getLast? = some p := by
    rw [List.getLast?_concat]
  have hpa2 : ((((P2 ++ [p]).getLast?).map (·.falloc)).getD true) = false := by
    rw [hlast]
    simpa using hpfree
  have hna2 : ((((n :: Q2).head?).map (·.halloc)).getD true) = false := by
    simpa using hnfree
  simp only [coalesce, hloc, hpa2, hna2, if_pos, Bool.false_eq_true, if_false, hlast,
    Option.map_some', Option.getD_some, hpfree, hnfree]

/-- What `coalesce` guarantees: well-formed blocks, coalesced adjacency,
sound class lists, preserved total size and accounting, preservation of all
allocated blocks (same address, same block value), and a free result block
at the returned address at least as large as the freed block. -/
def CoalesceOut (bsOld : List Block) (bold : Block) (used maxHeap : Nat)
    (r : Heap × Nat) : Prop :=
  (∀ x ∈ r.1.blocks, blockWF x) ∧
  coalescedOK r.1.blocks ∧
  segsWF r.1.blocks r.1.segs ∧
  sumSizes r.1.blocks = sumSizes bsOld ∧
  r.1.used = used ∧ r.1.maxHeap = maxHeap ∧
  (∀ a t, locate bsOld a = some t → t.2.1.halloc = true →
    ∃ pre2 post2, locate r.1.blocks a = some (pre2, t.2.1, post2)) ∧
  (∃ pre2 b2 post2, locate r.1.blocks r.2 = some (pre2, b2, post2) ∧
    b2.halloc = false ∧ bold.hsize ≤ b2.hsize)

theorem coalesce_spec_case1 (segs : List (List Nat)) (used maxHeap : Nat)
    (P : List Block) (b : Block) (Q : List Block)
    (hwf : ∀ x ∈ P ++ b :: Q, blockWF x)
    (hbfree : b.halloc = false)
    (hchP : coalescedOK P) (hchQ : coalescedOK Q)
    (hsegs : segsWF (P ++ b :: Q) segs)
    (hnl : ∀ j, sumSizes P ∉ segGet segs j)
    (hpa : ∀ p ∈ P.getLast?, p.falloc = true)
    (hna : ∀ n ∈ Q.head?, n.halloc = true) :
    CoalesceOut (P ++ b :: Q) b used maxHeap
      (coalesce ⟨segs, P ++ b :: Q, used, maxHeap⟩ (sumSizes P)) := by
  have hposP : ∀ x ∈ P, 0 < x.hsize := fun x hx => by
    have := (hwf x (by simp [hx])).2.2.1
    omega
  have hwfb : blockWF b := hwf b (by simp)
  rw [coalesce_eq_case1 segs used maxHeap P b Q hposP hpa hna]
  have hloc : locate (P ++ b :: Q) (sumSizes P) = some (P, b, Q) :=
    locate_of_pos P b Q hposP
  refine ⟨hwf, ?_, ?_, rfl, rfl, rfl, ?_, ?_⟩
  · rw [coalescedOK, List.chain'_append]
    refine ⟨hchP, ?_, ?_⟩
    · rw [List.chain'_cons']
      exact ⟨fun y hy => Or.inr (hna y hy), hchQ⟩
    · intro x hx y hy
      rw [List.head?_cons, Option.mem_some_iff] at hy
      subst hy
      have hxwf : blockWF x := hwf x (by
        simp [List.mem_append, List.mem_of_mem_getLast? hx])
      exact Or.inl (by rw [← hxwf.2.1]; exact hpa x hx)
  · refine ⟨?_, ?_, ?_⟩
    · rw [insertRoot_length, hsegs.1]
    · intro j
      rw [segGet_insertRoot hsegs.1]
      by_cases hj : j = segIdx b.hsize
      · rw [if_pos hj]
        exact List.Nodup.cons (fun hmem => hnl j hmem) (hsegs.2.1 j)
      · rw [if_neg hj]
        exact hsegs.2.1 j
    · intro j a ha
      rw [segGet_insertRoot hsegs.1] at ha
      by_cases hj : j = segIdx b.hsize
      · rw [if_pos hj] at ha
        rcases List.mem_cons.mp ha with rfl | ha2
        · exact ⟨P, b, Q, hloc, hbfree, hj.symm⟩
        · exact hsegs.2.2 j a ha2
      · rw [if_neg hj] at ha
        exact hsegs.2.2 j a ha
  · intro a t h1 _
    exact ⟨t.1, t.2.2, by rw [h1]⟩
  · exact ⟨P, b, Q, hloc, hbfree, le_rfl⟩

theorem tagBytes_length (s : Nat) (al : Bool) : (tagBytes s al).length = 8 := rfl

theorem coalesce_spec_case2 (segs : List (List Nat)) (used maxHeap : Nat)
    (P : List Block) (b n : Block) (Q2 : List Block)
    (hwf : ∀ x ∈ P ++ b :: n :: Q2, blockWF x)
    (hbfree : b.halloc = false) (hnfree : n.halloc = false)
    (hchP : coalescedOK P) (hchQ : coalescedOK (n :: Q2))
    (hsegs : segsWF (P ++ b :: n :: Q2) segs)
    (hnl : ∀ j, sumSizes P ∉ segGet segs j)
    (hpa : ∀ p ∈ P.getLast?, p.falloc = true) :
    CoalesceOut (P ++ b :: n :: Q2) b used maxHeap
      (coalesce ⟨segs, P ++ b :: n :: Q2, used, maxHeap⟩ (sumSizes P)) := by
  have hposP : ∀ x ∈ P, 0 < x.hsize := fun x hx => by
    have := (hwf x (by simp [hx])).2.2.1
    omega
  have hwfb : blockWF b := hwf b (by simp)
  have hwfn : blockWF n := hwf n (by simp)
  rw [coalesce_eq_case2 segs used maxHeap P b n Q2 hposP hpa hnfree]
  set a := sumSizes P with ha
  set merged : Block := ⟨b.hsize + n.hsize, false, b.hsize + n.hsize, false,
    b.data ++ tagBytes b.fsize b.falloc ++ tagBytes n.hsize n.halloc ++ n.data⟩
    with hmerged
  set segs1 := detachAddr segs n.hsize (a + b.hsize) with hsegs1
  have hlisteq : P ++ b :: n :: Q2 = P ++ [b, n] ++ Q2 := by simp
  have hposPb : ∀ x ∈ P ++ [b], 0 < x.hsize := by
    intro x hx
    rcases List.mem_append.mp hx with h1 | h2
    · exact hposP x h1
    · rw [List.mem_singleton] at h2
      subst h2
      have := hwfb.2.2.1
      omega
  have hlocn : locate (P ++ b :: n :: Q2) (a + b.hsize) = some (P ++ [b], n, Q2) := by
    rw [show P ++ b :: n :: Q2 = (P ++ [b]) ++ n :: Q2 from by simp]
    have := locate_of_pos (P ++ [b]) n Q2 hposPb
    rwa [sumSizes_append, sumSizes_cons, sumSizes_nil, show a + (b.hsize + 0) =
      sumSizes P + b.hsize from by omega] at this
  have hZsum : sumSizes [b, n] = b.hsize + n.hsize := by
    rw [sumSizes_cons, sumSizes_cons, sumSizes_nil]
    omega
  have H := merged_heap_wf segs1 P [b, n] Q2 merged
    (fun x hx => hwf x (by simp [hx]))
    (fun x hx => hwf x (by simp [hx]))
    (by
      intro x hx
      rcases List.mem_cons.mp hx with rfl | hx2
      · exact hwfb
      · rw [List.mem_singleton] at hx2
        subst hx2
        exact hwfn)
    (by
      intro x hx
      rcases List.mem_cons.mp hx with rfl | hx2
      · exact hbfree
      · rw [List.mem_singleton] at hx2
        subst hx2
        exact hnfree)
    (by
      rw [hZsum]
      have := hwfb.2.2.1
      omega)
    (by
      refine ⟨rfl, rfl, ?_, ?_, ?_⟩
      · show 32 ≤ b.hsize + n.hsize
        have := hwfb.2.2.1
        omega
      · show (b.hsize + n.hsize) % 8 = 0
        have h1 := hwfb.2.2.2.1
        have h2 := hwfn.2.2.2.1
        omega
      · show (b.data ++ tagBytes b.fsize b.falloc ++ tagBytes n.hsize n.halloc ++
          n.data).length = (b.hsize + n.hsize) - 16
        rw [List.length_append, List.length_append, List.length_append,
          tagBytes_length, tagBytes_length, hwfb.2.2.2.2, hwfn.2.2.2.2]
        have h1 := hwfb.2.2.1
        have h2 := hwfn.2.2.1
        omega)
    rfl
    (by rw [hZsum])
    hchP
    ((List.chain'_cons'.mp hchQ).2)
    (by
      intro p hp
      have hwfp : blockWF p := hwf p (by simp [List.mem_of_mem_getLast? hp])
      rw [← hwfp.2.1]
      exact hpa p hp)
    (by
      intro y hy
      rcases (List.chain'_cons'.mp hchQ).1 y hy with h1 | h2
      · rw [hnfree] at h1; cases h1
      · exact h2)
    (by rw [hsegs1, detachAddr_length, hsegs.1])
    (by
      intro j
      rw [hsegs1, segGet_detachAddr hsegs.1]
      by_cases hj : j = segIdx n.hsize
      · rw [if_pos hj]
        exact List.Nodup.erase _ (hsegs.2.1 j)
      · rw [if_neg hj]
        exact hsegs.2.1 j)
    (by
      intro j a2 ha2
      rw [hsegs1, segGet_detachAddr hsegs.1] at ha2
      have hmem : a2 ∈ segGet segs j ∧ a2 ≠ a + b.hsize := by
        by_cases hj : j = segIdx n.hsize
        · rw [if_pos hj] at ha2
          have := (List.Nodup.mem_erase_iff (hsegs.2.1 j)).mp ha2
          exact ⟨this.2, this.1⟩
        · rw [if_neg hj] at ha2
          refine ⟨ha2, ?_⟩
          intro he
          subst he
          obtain ⟨pre', b', post', hloc', _, hcls'⟩ := hsegs.2.2 j _ ha2
          rw [hlocn] at hloc'
          cases hloc'
          exact hj hcls'.symm
      have hne_a : a2 ≠ a := by
        intro he
        subst he
        exact hnl j hmem.1
      have haf : addrFree (P ++ [b, n] ++ Q2) j a2 := by
        rw [← hlisteq]
        exact hsegs.2.2 j a2 hmem.1
      refine ⟨haf, ?_⟩
      by_contra hout
      push_neg at hout
      obtain ⟨hge, hlt⟩ := hout
      obtain ⟨pre', b', post', hloc', _, _⟩ := haf
      obtain ⟨pz, bz, qz, hdec, hsum, _⟩ := locate_window hposP hloc' hge hlt
      rcases pz with _ | ⟨x, _ | ⟨y, pz'⟩⟩
      · rw [sumSizes_nil] at hsum
        omega
      · cases hdec
        rw [sumSizes_cons, sumSizes_nil] at hsum
        omega
      · rw [show (x :: y :: pz') ++ bz :: qz = x :: y :: (pz' ++ bz :: qz) from rfl] at hdec
        injection hdec with _ hdec2
        injection hdec2 with _ hdec3
        cases pz' <;> cases hdec3)
  obtain ⟨H1, H2, H3, H4, H5, H6⟩ := H
  refine ⟨H1, H2, H3, ?_, rfl, rfl, ?_, ?_⟩
  · rw [H4, ← hlisteq]
  · intro a2 t h1 h2
    rw [hlisteq] at h1
    exact H5 a2 t h1 h2
  · exact ⟨P, merged, Q2, H6, rfl, by
      show b.hsize ≤ b.hsize + n.hsize
      omega⟩

theorem coalesce_spec_case3 (segs : List (List Nat)) (used maxHeap : Nat)
    (P2 : List Block) (p b : Block) (Q : List Block)
    (hwf : ∀ x ∈ (P2 ++ [p]) ++ b :: Q, blockWF x)
    (hbfree : b.halloc = false) (hpfree : p.falloc = false)
    (hchP : coalescedOK (P2 ++ [p])) (hchQ : coalescedOK Q)
    (hsegs : segsWF ((P2 ++ [p]) ++ b :: Q) segs)
    (hnl : ∀ j, sumSizes (P2 ++ [p]) ∉ segGet segs j)
    (hna : ∀ n1 ∈ Q.head?, n1.halloc = true) :
    CoalesceOut ((P2 ++ [p]) ++ b :: Q) b used maxHeap
      (coalesce ⟨segs, (P2 ++ [p]) ++ b :: Q, used, maxHeap⟩ (sumSizes (P2 ++ [p]))) := by
  have hwfb : blockWF b := hwf b (by simp)
  have hwfp : blockWF p := hwf p (by simp)
  have hposP : ∀ x ∈ P2 ++ [p], 0 < x.hsize := fun x hx => by
    have hx2 : x ∈ (P2 ++ [p]) ++ b :: Q := by
      rw [List.mem_append]
      exact Or.inl hx
    have := (hwf x hx2).2.2.1
    omega
  have hposP2 : ∀ x ∈ P2, 0 < x.hsize := fun x hx => hposP x (by simp [hx])
  have hphalloc : p.halloc = false := by rw [← hwfp.2.1]; exact hpfree
  rw [coalesce_eq_case3 segs used maxHeap P2 p b Q hposP hpfree hna]
  have heq : sumSizes (P2 ++ [p]) - p.hsize = sumSizes P2 := by
    rw [sumSizes_append, sumSizes_cons, sumSizes_nil]
    omega
  have haval : sumSizes (P2 ++ [p]) = sumSizes P2 + p.hsize := by
    rw [sumSizes_append, sumSizes_cons, sumSizes_nil]
    omega
  rw [heq, List.dropLast_concat]
  set pa2 := sumSizes P2 with hpa2
  set merged : Block := ⟨p.hsize + b.hsize, false, p.hsize + b.hsize, false,
    p.data ++ tagBytes p.fsize p.falloc ++ tagBytes b.hsize b.halloc ++ b.data⟩
    with hmerged
  set segs1 := detachAddr segs p.hsize pa2 with hsegs1
  have hlisteq : (P2 ++ [p]) ++ b :: Q = P2 ++ [p, b] ++ Q := by simp
  have hlocp : locate ((P2 ++ [p]) ++ b :: Q) pa2 = some (P2, p, b :: Q) := by
    rw [show (P2 ++ [p]) ++ b :: Q = P2 ++ p :: b :: Q from by simp]
    exact locate_of_pos P2 p (b :: Q) hposP2
  have hZsum : sumSizes [p, b] = p.hsize + b.hsize := by
    rw [sumSizes_cons, sumSizes_cons, sumSizes_nil]
    omega
  have hchbound : ∀ x ∈ P2.getLast?, x.halloc = true := by
    intro x hx
    rcases (List.chain'_append.mp hchP).2.2 x hx p (by rfl) with h1 | h2
    · exact h1
    · rw [hphalloc] at h2; cases h2
  have H := merged_heap_wf segs1 P2 [p, b] Q merged
    (fun x hx => hwf x (by simp [hx]))
    (fun x hx => hwf x (by simp [hx]))
    (by
      intro x hx
      rcases List.mem_cons.mp hx with rfl | hx2
      · exact hwfp
      · rw [List.mem_singleton] at hx2
        subst hx2
        exact hwfb)
    (by
      intro x hx
      rcases List.mem_cons.mp hx with rfl | hx2
      · exact hphalloc
      · rw [List.mem_singleton] at hx2
        subst hx2
        exact hbfree)
    (by
      rw [hZsum]
      have := hwfp.2.2.1
      omega)
    (by
      refine ⟨rfl, rfl, ?_, ?_, ?_⟩
      · show 32 ≤ p.hsize + b.hsize
        have := hwfp.2.2.1
        omega
      · show (p.hsize + b.hsize) % 8 = 0
        have h1 := hwfp.2.2.2.1
        have h2 := hwfb.2.2.2.1
        omega
      · show (p.data ++ tagBytes p.fsize p.falloc ++ tagBytes b.hsize b.halloc ++
          b.data).length = (p.hsize + b.hsize) - 16
        rw [List.length_append, List.length_append, List.length_append,
          tagBytes_length, tagBytes_length, hwfp.2.2.2.2, hwfb.2.2.2.2]
        have h1 := hwfp.2.2.1
        have h2 := hwfb.2.2.1
        omega)
    rfl
    (by rw [hZsum])
    ((List.chain'_append.mp hchP).1)
    hchQ
    hchbound
    hna
    (by rw [hsegs1, detachAddr_length, hsegs.1])
    (by
      intro j
      rw [hsegs1, segGet_detachAddr hsegs.1]
      by_cases hj : j = segIdx p.hsize
      · rw [if_pos hj]
        exact List.Nodup.erase _ (hsegs.2.1 j)
      · rw [if_neg hj]
        exact hsegs.2.1 j)
    (by
      intro j a2 ha2
      rw [hsegs1, segGet_detachAddr hsegs.1] at ha2
      have hmem : a2 ∈ segGet segs j ∧ a2 ≠ pa2 := by
        by_cases hj : j = segIdx p.hsize
        · rw [if_pos hj] at ha2
          have := (List.Nodup.mem_erase_iff (hsegs.2.1 j)).mp ha2
          exact ⟨this.2, this.1⟩
        · rw [if_neg hj] at ha2
          refine ⟨ha2, ?_⟩
          intro he
          subst he
          obtain ⟨pre', b', post', hloc', _, hcls'⟩ := hsegs.2.2 j _ ha2
          rw [hlocp] at hloc'
          cases hloc'
          exact hj hcls'.symm
      have hne_a : a2 ≠ sumSizes (P2 ++ [p]) := by
        intro he
        subst he
        exact hnl j hmem.1
      have haf : addrFree (P2 ++ [p, b] ++ Q) j a2 := by
        rw [← hlisteq]
        exact hsegs.2.2 j a2 hmem.1
      refine ⟨haf, ?_⟩
      by_contra hout
      push_neg at hout
      obtain ⟨hge, hlt⟩ := hout
      obtain ⟨pre', b', post', hloc', _, _⟩ := haf
      obtain ⟨pz, bz, qz, hdec, hsum, _⟩ := locate_window hposP2 hloc' hge hlt
      rcases pz with _ | ⟨x, _ | ⟨y, pz'⟩⟩
      · rw [sumSizes_nil] at hsum
        omega
      · cases hdec
        rw [sumSizes_cons, sumSizes_nil] at hsum
        omega
      · rw [show (x :: y :: pz') ++ bz :: qz = x :: y :: (pz' ++ bz :: qz) from rfl] at hdec
        injection hdec with _ hdec2
        injection hdec2 with _ hdec3
        cases pz' <;> cases hdec3)
  obtain ⟨H1, H2, H3, H4, H5, H6⟩ := H
  refine ⟨H1, H2, H3, ?_, rfl, rfl, ?_, ?_⟩
  · rw [H4, ← hlisteq]
  · intro a2 t h1 h2
    rw [hlisteq] at h1
    exact H5 a2 t h1 h2
  · exact ⟨P2, merged, Q, H6, rfl, by
      show b.hsize ≤ p.hsize + b.hsize
      omega⟩

theorem coalesce_spec_case4 (segs : List (List Nat)) (used maxHeap : Nat)
    (P2 : List Block) (p b n : Block) (Q2 : List Block)
    (hwf : ∀ x ∈ (P2 ++ [p]) ++ b :: n :: Q2, blockWF x)
    (hbfree : b.halloc = false) (hpfree : p.falloc = false) (hnfree : n.halloc = false)
    (hchP : coalescedOK (P2 ++ [p])) (hchQ : coalescedOK (n :: Q2))
    (hsegs : segsWF ((P2 ++ [p]) ++ b :: n :: Q2) segs)
    (hnl : ∀ j, sumSizes (P2 ++ [p]) ∉ segGet segs j) :
    CoalesceOut ((P2 ++ [p]) ++ b :: n :: Q2) b used maxHeap
      (coalesce ⟨segs, (P2 ++ [p]) ++ b :: n :: Q2, used, maxHeap⟩
        (sumSizes (P2 ++ [p]))) := by
  have hwfb : blockWF b := hwf b (by simp)
  have hwfp : blockWF p := hwf p (by simp)
  have hwfn : blockWF n := hwf n (by simp)
  have hposP : ∀ x ∈ P2 ++ [p], 0 < x.hsize := fun x hx => by
    have hx2 : x ∈ (P2 ++ [p]) ++ b :: n :: Q2 := by
      rw [List.mem_append]
      exact Or.inl hx
    have := (hwf x hx2).2.2.1
    omega
  have hposP2 : ∀ x ∈ P2, 0 < x.hsize := fun x hx => hposP x (by simp [hx])
  have hphalloc : p.halloc = false := by rw [← hwfp.2.1]; exact hpfree
  rw [coalesce_eq_case4 segs used maxHeap P2 p b n Q2 hposP hpfree hnfree]
  have heq : sumSizes (P2 ++ [p]) - p.hsize = sumSizes P2 := by
    rw [sumSizes_append, sumSizes_cons, sumSizes_nil]
    omega
  have haval : sumSizes (P2 ++ [p]) = sumSizes P2 + p.hsize := by
    rw [sumSizes_append, sumSizes_cons, sumSizes_nil]
    omega
  rw [heq, List.dropLast_concat, hwfn.1]
  set pa2 := sumSizes P2 with hpa2
  set merged : Block := ⟨b.hsize + p.hsize + n.hsize, false,
    b.hsize + p.hsize + n.hsize, false,
    p.data ++ tagBytes p.fsize p.falloc ++ tagBytes b.hsize b.halloc ++
      b.data ++ tagBytes b.fsize b.falloc ++ tagBytes n.hsize n.halloc ++ n.data⟩
    with hmerged
  set segs1 := detachAddr segs n.hsize (sumSizes (P2 ++ [p]) + b.hsize) with hsegs1
  set segs2 := detachAddr segs1 p.hsize pa2 with hsegs2
  have hlisteq : (P2 ++ [p]) ++ b :: n :: Q2 = P2 ++ [p, b, n] ++ Q2 := by simp
  have hlocp : locate ((P2 ++ [p]) ++ b :: n :: Q2) pa2 = some (P2, p, b :: n :: Q2) := by
    rw [show (P2 ++ [p]) ++ b :: n :: Q2 = P2 ++ p :: b :: n :: Q2 from by simp]
    exact locate_of_pos P2 p (b :: n :: Q2) hposP2
  have hlocn : locate ((P2 ++ [p]) ++ b :: n :: Q2) (sumSizes (P2 ++ [p]) + b.hsize) =
      some ((P2 ++ [p]) ++ [b], n, Q2) := by
    rw [show (P2 ++ [p]) ++ b :: n :: Q2 = ((P2 ++ [p]) ++ [b]) ++ n :: Q2 from by simp]
    have hpos2 : ∀ x ∈ (P2 ++ [p]) ++ [b], 0 < x.hsize := by
      intro x hx
      rcases List.mem_append.mp hx with h1 | h2
      · exact hposP x h1
      · rw [List.mem_singleton] at h2
        subst h2
        have := hwfb.2.2.1
        omega
    have := locate_of_pos ((P2 ++ [p]) ++ [b]) n Q2 hpos2
    rwa [sumSizes_append (P2 ++ [p]) [b], sumSizes_cons, sumSizes_nil,
      show sumSizes (P2 ++ [p]) + (b.hsize + 0) = sumSizes (P2 ++ [p]) + b.hsize from by
        omega] at this
  have hZsum : sumSizes [p, b, n] = p.hsize + b.hsize + n.hsize := by
    rw [sumSizes_cons, sumSizes_cons, sumSizes_cons, sumSizes_nil]
    omega
  have hchbound : ∀ x ∈ P2.getLast?, x.halloc = true := by
    intro x hx
    rcases (List.chain'_append.mp hchP).2.2 x hx p (by rfl) with h1 | h2
    · exact h1
    · rw [hphalloc] at h2; cases h2
  have hlen1 : segs1.length = 5 := by
    rw [hsegs1, detachAddr_length, hsegs.1]
  have hnodup1 : ∀ j, (segGet segs1 j).Nodup := by
    intro j
    rw [hsegs1, segGet_detachAddr hsegs.1]
    by_cases hj : j = segIdx n.hsize
    · rw [if_pos hj]
      exact List.Nodup.erase _ (hsegs.2.1 j)
    · rw [if_neg hj]
      exact hsegs.2.1 j
  have H := merged_heap_wf segs2 P2 [p, b, n] Q2 merged
    (fun x hx => hwf x (by simp [hx]))
    (fun x hx => hwf x (by simp [hx]))
    (by
      intro x hx
      rcases List.mem_cons.mp hx with rfl | hx2
      · exact hwfp
      · rcases List.mem_cons.mp hx2 with rfl | hx3
        · exact hwfb
        · rw [List.mem_singleton] at hx3
          subst hx3
          exact hwfn)
    (by
      intro x hx
      rcases List.mem_cons.mp hx with rfl | hx2
      · exact hphalloc
      · rcases List.mem_cons.mp hx2 with rfl | hx3
        · exact hbfree
        · rw [List.mem_singleton] at hx3
          subst hx3
          exact hnfree)
    (by
      rw [hZsum]
      have := hwfp.2.2.1
      omega)
    (by
      refine ⟨rfl, rfl, ?_, ?_, ?_⟩
      · show 32 ≤ b.hsize + p.hsize + n.hsize
        have := hwfb.2.2.1
        omega
      · show (b.hsize + p.hsize + n.hsize) % 8 = 0
        have h1 := hwfb.2.2.2.1
        have h2 := hwfp.2.2.2.1
        have h3 := hwfn.2.2.2.1
        omega
      · show (p.data ++ tagBytes p.fsize p.falloc ++ tagBytes b.hsize b.halloc ++
          b.data ++ tagBytes b.fsize b.falloc ++ tagBytes n.hsize n.halloc ++
          n.data).length = (b.hsize + p.hsize + n.hsize) - 16
        rw [List.length_append, List.length_append, List.length_append,
          List.length_append, List.length_append, List.length_append,
          tagBytes_length, tagBytes_length, tagBytes_length, tagBytes_length,
          hwfp.2.2.2.2, hwfb.2.2.2.2, hwfn.2.2.2.2]
        have h1 := hwfp.2.2.1
        have h2 := hwfb.2.2.1
        have h3 := hwfn.2.2.1
        omega)
    rfl
    (by
      show b.hsize + p.hsize + n.hsize = sumSizes [p, b, n]
      rw [hZsum]
      omega)
    ((List.chain'_append.mp hchP).1)
    ((List.chain'_cons'.mp hchQ).2)
    hchbound
    (by
      intro y hy
      rcases (List.chain'_cons'.mp hchQ).1 y hy with h1 | h2
      · rw [hnfree] at h1; cases h1
      · exact h2)
    (by rw [hsegs2, detachAddr_length, hlen1])
    (by
      intro j
      rw [hsegs2, segGet_detachAddr hlen1]
      by_cases hj : j = segIdx p.hsize
      · rw [if_pos hj]
        exact List.Nodup.erase _ (hnodup1 j)
      · rw [if_neg hj]
        exact hnodup1 j)
    (by
      intro j a2 ha2
      rw [hsegs2, segGet_detachAddr hlen1] at ha2
      have hmem1 : a2 ∈ segGet segs1 j ∧ (j = segIdx p.hsize → a2 ≠ pa2) := by
        by_cases hj : j = segIdx p.hsize
        · rw [if_pos hj] at ha2
          have := (List.Nodup.mem_erase_iff (hnodup1 j)).mp ha2
          exact ⟨this.2, fun _ => this.1⟩
        · rw [if_neg hj] at ha2
          exact ⟨ha2, fun he => absurd he hj⟩
      have hmem : a2 ∈ segGet segs j ∧
          (j = segIdx n.hsize → a2 ≠ sumSizes (P2 ++ [p]) + b.hsize) := by
        have h1 := hmem1.1
        rw [hsegs1, segGet_detachAddr hsegs.1] at h1
        by_cases hj : j = segIdx n.hsize
        · rw [if_pos hj] at h1
          have := (List.Nodup.mem_erase_iff (hsegs.2.1 j)).mp h1
          exact ⟨this.2, fun _ => this.1⟩
        · rw [if_neg hj] at h1
          exact ⟨h1, fun he => absurd he hj⟩
      have hne_p : a2 ≠ pa2 := by
        by_cases hj : j = segIdx p.hsize
        · exact hmem1.2 hj
        · intro he
          subst he
          obtain ⟨pre', b', post', hloc', _, hcls'⟩ := hsegs.2.2 j _ hmem.1
          rw [hlocp] at hloc'
          cases hloc'
          exact hj hcls'.symm
      have hne_n : a2 ≠ sumSizes (P2 ++ [p]) + b.hsize := by
        by_cases hj : j = segIdx n.hsize
        · exact hmem.2 hj
        · intro he
          subst he
          obtain ⟨pre', b', post', hloc', _, hcls'⟩ := hsegs.2.2 j _ hmem.1
          rw [hlocn] at hloc'
          cases hloc'
          exact hj hcls'.symm
      have hne_a : a2 ≠ sumSizes (P2 ++ [p]) := by
        intro he
        subst he
        exact hnl j hmem.1
      have haf : addrFree (P2 ++ [p, b, n] ++ Q2) j a2 := by
        rw [← hlisteq]
        exact hsegs.2.2 j a2 hmem.1
      refine ⟨haf, ?_⟩
      by_contra hout
      push_neg at hout
      obtain ⟨hge, hlt⟩ := hout
      obtain ⟨pre', b', post', hloc', _, _⟩ := haf
      obtain ⟨pz, bz, qz, hdec, hsum, _⟩ := locate_window hposP2 hloc' hge hlt
      rcases pz with _ | ⟨x, _ | ⟨y, _ | ⟨z, pz'⟩⟩⟩
      · rw [sumSizes_nil] at hsum
        omega
      · cases hdec
        rw [sumSizes_cons, sumSizes_nil] at hsum
        omega
      · rw [show (x :: y :: ([] : List Block)) ++ bz :: qz =
          x :: y :: bz :: qz from rfl] at hdec
        injection hdec with he1 hdec2
        injection hdec2 with he2 hdec3
        subst he1
        subst he2
        rw [sumSizes_cons, sumSizes_cons, sumSizes_nil] at hsum
        omega
      · rw [show (x :: y :: z :: pz') ++ bz :: qz =
          x :: y :: z :: (pz' ++ bz :: qz) from rfl] at hdec
        injection hdec with _ hdec2
        injection hdec2 with _ hdec3
        injection hdec3 with _ hdec4
        cases pz' <;> cases hdec4)
  obtain ⟨H1, H2, H3, H4, H5, H6⟩ := H
  refine ⟨H1, H2, H3, ?_, rfl, rfl, ?_, ?_⟩
  · rw [H4, ← hlisteq]
  · intro a2 t h1 h2
    rw [hlisteq] at h1
    exact H5 a2 t h1 h2
  · exact ⟨P2, merged, Q2, H6, rfl, by
      show b.hsize ≤ b.hsize + p.hsize + n.hsize
      omega⟩

theorem coalesce_spec (segs : List (List Nat)) (used maxHeap : Nat)
    (P : List Block) (b : Block) (Q : List Block)
    (hwf : ∀ x ∈ P ++ b :: Q, blockWF x)
    (hbfree : b.halloc = false)
    (hchP : coalescedOK P) (hchQ : coalescedOK Q)
    (hsegs : segsWF (P ++ b :: Q) segs)
    (hnl : ∀ j, sumSizes P ∉ segGet segs j) :
    CoalesceOut (P ++ b :: Q) b used maxHeap
      (coalesce ⟨segs, P ++ b :: Q, used, maxHeap⟩ (sumSizes P)) := by
  rcases List.eq_nil_or_concat P with rfl | ⟨P2, p, hP⟩
  · have hpa : ∀ x ∈ (List.getLast? ([] : List Block)), x.falloc = true := by
      intro x hx
      simp at hx
    cases Q with
    | nil =>
      exact coalesce_spec_case1 segs used maxHeap [] b [] hwf hbfree hchP hchQ hsegs hnl
        hpa (by intro x hx; simp at hx)
    | cons n Q2 =>
      cases hq : n.halloc with
      | true =>
        refine coalesce_spec_case1 segs used maxHeap [] b (n :: Q2) hwf hbfree hchP hchQ
          hsegs hnl hpa ?_
        intro x hx
        have hx2 : n = x := by simpa using hx
        rw [← hx2]
        exact hq
      | false =>
        exact coalesce_spec_case2 segs used maxHeap [] b n Q2 hwf hbfree hq hchP hchQ
          hsegs hnl hpa
  · rw [List.concat_eq_append] at hP
    subst hP
    have hgl : (P2 ++ [p]).getLast? = some p := by
      rw [List.getLast?_concat]
    cases hp : p.falloc with
    | true =>
      have hpa : ∀ x ∈ (P2 ++ [p]).getLast?, x.falloc = true := by
        intro x hx
        rw [hgl] at hx
        have hx2 : p = x := by simpa using hx
        rw [← hx2]
        exact hp
      cases Q with
      | nil =>
        exact coalesce_spec_case1 segs used maxHeap (P2 ++ [p]) b [] hwf hbfree hchP hchQ
          hsegs hnl hpa (by intro x hx; simp at hx)
      | cons n Q2 =>
        cases hq : n.halloc with
        | true =>
          refine coalesce_spec_case1 segs used maxHeap (P2 ++ [p]) b (n :: Q2) hwf hbfree
            hchP hchQ hsegs hnl hpa ?_
          intro x hx
          have hx2 : n = x := by simpa using hx
          rw [← hx2]
          exact hq
        | false =>
          exact coalesce_spec_case2 segs used maxHeap (P2 ++ [p]) b n Q2 hwf hbfree hq
            hchP hchQ hsegs hnl hpa
    | false =>
      cases Q with
      | nil =>
        exact coalesce_spec_case3 segs used maxHeap P2 p b [] hwf hbfree hp hchP hchQ
          hsegs hnl (by intro x hx; simp at hx)
      | cons n Q2 =>
        cases hq : n.halloc with
        | true =>
          refine coalesce_spec_case3 segs used maxHeap P2 p b (n :: Q2) hwf hbfree hp
            hchP hchQ hsegs hnl ?_
          intro x hx
          have hx2 : n = x := by simpa using hx
          rw [← hx2]
          exact hq
        | false =>
          exact coalesce_spec_case4 segs used maxHeap P2 p b n Q2 hwf hbfree hp hq
            hchP hchQ hsegs hnl

/-! ### Operation-level helper lemmas -/

theorem blocks_pos {bs : List Block} (hwf : ∀ x ∈ bs, blockWF x) :
    ∀ x ∈ bs, 0 < x.hsize := fun x hx => by
  have := (hwf x hx).2.2.1
  omega

theorem locate_lt_sum {bs : List Block} {a : Nat} {t : List Block × Block × List Block}
    (hpos : ∀ x ∈ bs, 0 < x.hsize) (hloc : locate bs a = some t) :
    a < sumSizes bs := by
  obtain ⟨pre, b, post⟩ := t
  obtain ⟨hdec, hsum⟩ := locate_decomp bs a pre b post hloc
  have hb : 0 < b.hsize := hpos b (by rw [hdec]; simp)
  rw [hdec, sumSizes_append, sumSizes_cons]
  omega

/-- No address of an allocated block is listed in any class list. -/
theorem segs_not_alloc_addr {bs : List Block} {segs : List (List Nat)} {a : Nat}
    {pre : List Block} {b : Block} {post : List Block}
    (hsegs : segsWF bs segs) (hloc : locate bs a = some (pre, b, post))
    (halloc : b.halloc = true) : ∀ j, a ∉ segGet segs j := by
  intro j hmem
  obtain ⟨pre2, b2, post2, hloc2, hfree, _⟩ := hsegs.2.2 j a hmem
  rw [hloc] at hloc2
  cases hloc2
  rw [halloc] at hfree
  cases hfree

/-- A located address other than the start of a distinguished middle block
lies outside that block's window. -/
theorem located_outside_single {P Q : List Block} {b : Block} {a2 : Nat}
    {t : List Block × Block × List Block}
    (hposP : ∀ x ∈ P, 0 < x.hsize)
    (hloc : locate (P ++ b :: Q) a2 = some t) (hne : a2 ≠ sumSizes P) :
    a2 < sumSizes P ∨ sumSizes P + b.hsize ≤ a2 := by
  by_contra hout
  push_neg at hout
  obtain ⟨hge, hlt⟩ := hout
  have hlt2 : a2 < sumSizes P + sumSizes [b] := by
    rw [sumSizes_cons, sumSizes_nil]
    omega
  have hloc2 : locate (P ++ [b] ++ Q) a2 = some t := by
    rw [List.append_assoc]
    simpa using hloc
  obtain ⟨pz, bz, qz, hdec, hsum, _⟩ := locate_window hposP hloc2 hge hlt2
  rcases pz with _ | ⟨x, pz'⟩
  · rw [sumSizes_nil] at hsum
    omega
  · rw [show (x :: pz') ++ bz :: qz = x :: (pz' ++ bz :: qz) from rfl] at hdec
    injection hdec with _ hdec2
    cases pz' <;> cases hdec2

/-- After detaching a located block's own address, that address is in no
class list. -/
theorem detach_self_not_mem {bs : List Block} {segs : List (List Nat)} {a : Nat}
    {pre : List Block} {b : Block} {post : List Block}
    (hsegs : segsWF bs segs) (hloc : locate bs a = some (pre, b, post)) :
    ∀ j, a ∉ segGet (detachAddr segs b.hsize a) j := by
  intro j hmem
  rw [segGet_detachAddr hsegs.1] at hmem
  by_cases hj : j = segIdx b.hsize
  · rw [if_pos hj] at hmem
    exact ((List.Nodup.mem_erase_iff (hsegs.2.1 j)).mp hmem).1 rfl
  · rw [if_neg hj] at hmem
    obtain ⟨pre2, b2, post2, hloc2, _, hcls⟩ := hsegs.2.2 j a hmem
    rw [hloc] at hloc2
    cases hloc2
    exact hj hcls.symm

/-- Detaching an address preserves soundness of the class lists. -/
theorem segsWF_detach {bs : List Block} {segs : List (List Nat)} (s a : Nat)
    (hsegs : segsWF bs segs) : segsWF bs (detachAddr segs s a) := by
  refine ⟨by rw [detachAddr_length, hsegs.1], ?_, ?_⟩
  · intro j
    rw [segGet_detachAddr hsegs.1]
    by_cases hj : j = segIdx s
    · rw [if_pos hj]
      exact List.Nodup.erase _ (hsegs.2.1 j)
    · rw [if_neg hj]
      exact hsegs.2.1 j
  · intro j a2 ha2
    rw [segGet_detachAddr hsegs.1] at ha2
    by_cases hj : j = segIdx s
    · rw [if_pos hj] at ha2
      exact hsegs.2.2 j a2 (List.mem_of_mem_erase ha2)
    · rw [if_neg hj] at ha2
      exact hsegs.2.2 j a2 ha2

/-- Replacing a single block by a same-size window whose address is in no
class list preserves soundness of the class lists. -/
theorem segsWF_replace1 {P Q Z2 : List Block} {b : Block} {segs : List (List Nat)}
    (hposP : ∀ x ∈ P, 0 < x.hsize) (hbpos : 0 < b.hsize)
    (hposZ2 : ∀ x ∈ Z2, 0 < x.hsize) (hsz : sumSizes Z2 = b.hsize)
    (hsegs : segsWF (P ++ b :: Q) segs)
    (hnot : ∀ j, sumSizes P ∉ segGet segs j) :
    segsWF (P ++ Z2 ++ Q) segs := by
  refine ⟨hsegs.1, hsegs.2.1, ?_⟩
  intro j a2 ha2
  have haf := hsegs.2.2 j a2 ha2
  obtain ⟨pre2, b2, post2, hloc2, hfree2, hcls2⟩ := haf
  have hne : a2 ≠ sumSizes P := fun he => hnot j (he ▸ ha2)
  have hout := located_outside_single hposP hloc2 hne
  have haf2 : addrFree (P ++ [b] ++ Q) j a2 := by
    refine ⟨pre2, b2, post2, ?_, hfree2, hcls2⟩
    rw [List.append_assoc]
    simpa using hloc2
  have := addrFree_replace hposP (by
      intro x hx
      rw [List.mem_singleton] at hx
      subst hx
      exact hbpos) hposZ2
    (by rw [hsz, sumSizes_cons, sumSizes_nil]; omega) haf2
    (by rw [sumSizes_cons, sumSizes_nil]; rcases hout with h1 | h2 <;> omega)
  exact this

/-- Replacing a single block by a same-size window keeps every other
located block at its address. -/
theorem locate_replace1 {P Q Z2 : List Block} {b : Block} {a2 : Nat}
    {t : List Block × Block × List Block}
    (hposP : ∀ x ∈ P, 0 < x.hsize) (hbpos : 0 < b.hsize)
    (hposZ2 : ∀ x ∈ Z2, 0 < x.hsize) (hsz : sumSizes Z2 = b.hsize)
    (hloc : locate (P ++ b :: Q) a2 = some t) (hne : a2 ≠ sumSizes P) :
    ∃ pre2 post2, locate (P ++ Z2 ++ Q) a2 = some (pre2, t.2.1, post2) := by
  have hout := located_outside_single hposP hloc hne
  have hloc2 : locate (P ++ [b] ++ Q) a2 = some t := by
    rw [List.append_assoc]
    simpa using hloc
  exact locate_replace hposP
    (by
      intro x hx
      rw [List.mem_singleton] at hx
      subst hx
      exact hbpos) hposZ2
    (by rw [hsz, sumSizes_cons, sumSizes_nil]; omega) hloc2
    (by rw [sumSizes_cons, sumSizes_nil]; rcases hout with h1 | h2 <;> omega)

/-- Appending blocks on the right preserves `addrFree`. -/
theorem addrFree_append {bs R : List Block} {j a : Nat}
    (hpos : ∀ x ∈ bs, 0 < x.hsize) (h : addrFree bs j a) :
    addrFree (bs ++ R) j a := by
  obtain ⟨pre, b, post, hloc, hfree, hcls⟩ := h
  refine ⟨pre, b, post ++ R, ?_, hfree, hcls⟩
  rw [locate_append_left bs R a (locate_lt_sum hpos hloc), hloc]
  rfl

/-- A request size whose adjusted size does not overflow the `size_t`
computation `ALIGN(size + QSIZE)` (mm.c:200-203). -/
def sizeOK (n : Nat) : Prop := n ≤ 16 ∨ n + 23 < wordMod

instance (n : Nat) : Decidable (sizeOK n) := by
  rw [sizeOK]
  infer_instance

theorem asizeOf_ge_min {n : Nat} (h : sizeOK n) : 32 ≤ asizeOf n := by
  rw [asizeOf]
  by_cases h16 : n ≤ 16
  · rw [if_pos h16]
  · rw [if_neg h16]
    rcases h with h1 | h2
    · omega
    · rw [Nat.mod_eq_of_lt h2]
      omega

theorem asizeOf_mod8 (n : Nat) : asizeOf n % 8 = 0 := by
  rw [asizeOf]
  by_cases h16 : n ≤ 16
  · rw [if_pos h16]
  · rw [if_neg h16]
    omega

theorem asizeOf_ge_payload {n : Nat} (h : sizeOK n) : n + 16 ≤ asizeOf n := by
  rw [asizeOf]
  by_cases h16 : n ≤ 16
  · rw [if_pos h16]
    omega
  · rw [if_neg h16]
    rcases h with h1 | h2
    · omega
    · rw [Nat.mod_eq_of_lt h2]
      omega

/-- The driver operations whose request sizes avoid `size_t` overflow in the
adjusted-size computation. -/
def opOK : MOp → Prop
  | .mal n => sizeOK n
  | .fre _ => True
  | .rea _ n => sizeOK n
  | .cal a b => sizeOK (a * b % wordMod)

instance (op : MOp) : Decidable (opOK op) := by
  cases op <;> (rw [opOK]; infer_instance)

/-- `free` preserves the heap invariant, keeps the accounting fields, and
keeps every other allocated block in place. -/
theorem mm_free_spec {h : Heap} {p : Nat} {pre : List Block} {b : Block}
    {post : List Block} (hwf : heapWF h)
    (hloc : locate h.blocks p = some (pre, b, post)) (halloc : b.halloc = true) :
    heapWF (mm_free h p) ∧ (mm_free h p).maxHeap = h.maxHeap ∧
    (mm_free h p).used = h.used ∧
    sumSizes (mm_free h p).blocks = sumSizes h.blocks ∧
    (∀ a t, locate h.blocks a = some t → t.2.1.halloc = true → a ≠ p →
      ∃ pre2 post2, locate (mm_free h p).blocks a = some (pre2, t.2.1, post2)) := by
  obtain ⟨hdec, hsum⟩ := locate_decomp h.blocks p pre b post hloc
  have hwfb : blockWF b := hwf.1 b (by rw [hdec]; simp)
  have hposP : ∀ x ∈ pre, 0 < x.hsize := by
    intro x hx
    exact blocks_pos hwf.1 x (by rw [hdec]; simp [hx])
  set b2 : Block := ⟨b.hsize, false, b.hsize, false, b.data⟩ with hb2
  have hwfb2 : blockWF b2 := by
    refine ⟨rfl, rfl, hwfb.2.2.1, hwfb.2.2.2.1, ?_⟩
    show b.data.length = b.hsize - 16
    exact hwfb.2.2.2.2
  have hfreeeq : mm_free h p =
      (coalesce ⟨h.segs, pre ++ b2 :: post, h.used, h.maxHeap⟩ (sumSizes pre)).1 := by
    rw [mm_free, hloc, hsum]
  have hch := hwf.2.1
  rw [hdec] at hch
  have hchP : coalescedOK pre := (List.chain'_append.mp hch).1
  have hchQ : coalescedOK post := (List.chain'_cons'.mp (List.chain'_append.mp hch).2.1).2
  have hnot : ∀ j, sumSizes pre ∉ segGet h.segs j := by
    rw [hsum]
    exact segs_not_alloc_addr hwf.2.2.1 hloc halloc
  have hwf2 : ∀ x ∈ pre ++ b2 :: post, blockWF x := by
    intro x hx
    rcases List.mem_append.mp hx with h1 | h2
    · exact hwf.1 x (by rw [hdec]; simp [h1])
    · rcases List.mem_cons.mp h2 with rfl | h3
      · exact hwfb2
      · exact hwf.1 x (by rw [hdec]; simp [h3])
  have hsegs2 : segsWF (pre ++ b2 :: post) h.segs := by
    have h1 : segsWF (pre ++ [b2] ++ post) h.segs := segsWF_replace1 hposP
      (by have := hwfb.2.2.1; omega)
      (by
        intro x hx
        rw [List.mem_singleton] at hx
        subst hx
        show 0 < b.hsize
        have := hwfb.2.2.1
        omega)
      (by rw [sumSizes_cons, sumSizes_nil]; show b.hsize + 0 = b.hsize; omega)
      (hdec ▸ hwf.2.2.1) hnot
    simpa using h1
  have hco := coalesce_spec h.segs h.used h.maxHeap pre b2 post hwf2 rfl hchP hchQ
    hsegs2 hnot
  obtain ⟨hc1, hc2, hc3, hc4, hc5, hc6, hc7, _⟩ := hco
  have hsum2 : sumSizes (pre ++ b2 :: post) = sumSizes h.blocks := by
    rw [hdec, sumSizes_append, sumSizes_append, sumSizes_cons, sumSizes_cons]
  refine ⟨⟨?_, ?_, ?_, ?_, ?_⟩, ?_, ?_, ?_, ?_⟩
  · rw [hfreeeq]
    exact hc1
  · rw [hfreeeq]
    exact hc2
  · rw [hfreeeq]
    exact hc3
  · rw [hfreeeq, hc5, hc4, hsum2]
    exact hwf.2.2.2.1
  · rw [hfreeeq, hc5, hc6]
    exact hwf.2.2.2.2
  · rw [hfreeeq, hc6]
  · rw [hfreeeq, hc5]
  · rw [hfreeeq, hc4, hsum2]
  · intro a t hlocA hallocA hne
    have hlocA2 : locate (pre ++ b :: post) a = some t := by rw [← hdec]; exact hlocA
    have hrep0 : ∃ pre2 post2, locate (pre ++ [b2] ++ post) a = some (pre2, t.2.1, post2) :=
      locate_replace1 hposP
        (by have := hwfb.2.2.1; omega)
        (by
          intro x hx
          rw [List.mem_singleton] at hx
          subst hx
          show 0 < b.hsize
          have := hwfb.2.2.1
          omega)
        (by rw [sumSizes_cons, sumSizes_nil]; show b.hsize + 0 = b.hsize; omega)
        hlocA2 (by rw [hsum]; exact hne)
    obtain ⟨pre2, post2, hrep⟩ := hrep0
    have hrep2 : locate (pre ++ b2 :: post) a = some (pre2, t.2.1, post2) := by
      rw [show pre ++ b2 :: post = pre ++ [b2] ++ post from by simp]
      exact hrep
    obtain ⟨pre3, post3, hrep3⟩ := hc7 a (pre2, t.2.1, post2) hrep2 hallocA
    rw [hfreeeq]
    exact ⟨pre3, post3, hrep3⟩

/-- `place` on a located free block of sufficient size preserves the heap
invariant, keeps the accounting fields, produces an allocated block of at
least the requested adjusted size at the placed address, and keeps every
allocated block in place. -/
theorem place_spec {h : Heap} {a asize : Nat} {pre : List Block} {b : Block}
    {post : List Block} (hwf : heapWF h)
    (hloc : locate h.blocks a = some (pre, b, post))
    (hbfree : b.halloc = false) (hasz : asize ≤ b.hsize)
    (h32 : 32 ≤ asize) (h8 : asize % 8 = 0) :
    heapWF (place h a asize) ∧ (place h a asize).maxHeap = h.maxHeap ∧
    (place h a asize).used = h.used ∧
    sumSizes (place h a asize).blocks = sumSizes h.blocks ∧
    (∃ pre2 b2 post2, locate (place h a asize).blocks a = some (pre2, b2, post2) ∧
      b2.halloc = true ∧ asize ≤ b2.hsize) ∧
    (∀ a2 t, locate h.blocks a2 = some t → t.2.1.halloc = true →
      ∃ pre2 post2, locate (place h a asize).blocks a2 = some (pre2, t.2.1, post2)) := by
  obtain ⟨hdec, hsum⟩ := locate_decomp h.blocks a pre b post hloc
  have hwfb : blockWF b := hwf.1 b (by rw [hdec]; simp)
  have hposP : ∀ x ∈ pre, 0 < x.hsize := by
    intro x hx
    exact blocks_pos hwf.1 x (by rw [hdec]; simp [hx])
  have hbpos : 0 < b.hsize := by
    have := hwfb.2.2.1
    omega
  have hdata : b.data.length = b.hsize - 16 := hwfb.2.2.2.2
  have hsegs1 : segsWF h.blocks (detachAddr h.segs b.hsize a) :=
    segsWF_detach b.hsize a hwf.2.2.1
  have hnot1 : ∀ j, a ∉ segGet (detachAddr h.segs b.hsize a) j :=
    detach_self_not_mem hwf.2.2.1 hloc
  have hch := hwf.2.1
  rw [hdec] at hch
  have hchP : coalescedOK pre := (List.chain'_append.mp hch).1
  have hchQ : coalescedOK post := (List.chain'_cons'.mp (List.chain'_append.mp hch).2.1).2
  have hsegs1b : segsWF (pre ++ b :: post) (detachAddr h.segs b.hsize a) := by
    rw [← hdec]
    exact hsegs1
  have hframe0 : ∀ a2 (t : List Block × Block × List Block),
      locate h.blocks a2 = some t → t.2.1.halloc = true → a2 ≠ a := by
    intro a2 t hl2 hal2 he
    subst he
    rw [hloc] at hl2
    cases hl2
    rw [hbfree] at hal2
    cases hal2
  by_cases hsplit : 32 ≤ b.hsize - asize
  · set bA : Block := ⟨asize, true, asize, true, b.data.take (asize - 16)⟩ with hbA
    set rem : Block := ⟨b.hsize - asize, false, b.hsize - asize, false,
      b.data.drop asize⟩ with hrem
    have hplace : place h a asize =
        (coalesce ⟨detachAddr h.segs b.hsize a, pre ++ bA :: rem :: post,
          h.used, h.maxHeap⟩ (a + asize)).1 := by
      rw [place, hloc]
      simp only [if_pos hsplit]
    have hwfbA : blockWF bA := by
      refine ⟨rfl, rfl, h32, h8, ?_⟩
      show (b.data.take (asize - 16)).length = asize - 16
      rw [List.length_take, hdata]
      omega
    have hwfrem : blockWF rem := by
      have hb8 := hwfb.2.2.2.1
      refine ⟨rfl, rfl, hsplit, by show (b.hsize - asize) % 8 = 0; omega, ?_⟩
      show (b.data.drop asize).length = b.hsize - asize - 16
      rw [List.length_drop, hdata]
      omega
    have hposZ2 : ∀ x ∈ [bA, rem], 0 < x.hsize := by
      intro x hx
      rcases List.mem_cons.mp hx with rfl | hx2
      · show 0 < asize
        omega
      · rw [List.mem_singleton] at hx2
        subst hx2
        show 0 < b.hsize - asize
        omega
    have hszZ2 : sumSizes [bA, rem] = b.hsize := by
      rw [sumSizes_cons, sumSizes_cons, sumSizes_nil]
      show asize + (b.hsize - asize + 0) = b.hsize
      omega
    have hwfL1 : ∀ x ∈ (pre ++ [bA]) ++ rem :: post, blockWF x := by
      intro x hx
      rcases List.mem_append.mp hx with h1 | h2
      · rcases List.mem_append.mp h1 with h1a | h1b
        · exact hwf.1 x (by rw [hdec]; simp [h1a])
        · rw [List.mem_singleton] at h1b
          subst h1b
          exact hwfbA
      · rcases List.mem_cons.mp h2 with rfl | h3
        · exact hwfrem
        · exact hwf.1 x (by rw [hdec]; simp [h3])
    have hchP1 : coalescedOK (pre ++ [bA]) := by
      rw [coalescedOK, List.chain'_append]
      refine ⟨hchP, List.chain'_singleton _, ?_⟩
      intro x _ y hy
      have : bA = y := by simpa using hy
      rw [← this]
      exact Or.inr rfl
    have hsegsL1 : segsWF ((pre ++ [bA]) ++ rem :: post) (detachAddr h.segs b.hsize a) := by
      have h1 : segsWF (pre ++ [bA, rem] ++ post) (detachAddr h.segs b.hsize a) :=
        segsWF_replace1 hposP hbpos hposZ2 hszZ2 hsegs1b (hsum ▸ hnot1)
      have h2 : pre ++ [bA, rem] ++ post = (pre ++ [bA]) ++ rem :: post := by simp
      rw [← h2]
      exact h1
    have hsumA : sumSizes (pre ++ [bA]) = a + asize := by
      rw [sumSizes_append, sumSizes_cons, sumSizes_nil, hsum]
      show a + (asize + 0) = a + asize
      omega
    have hnl1 : ∀ j, sumSizes (pre ++ [bA]) ∉
        segGet (detachAddr h.segs b.hsize a) j := by
      intro j hmem
      rw [hsumA] at hmem
      rw [segGet_detachAddr hwf.2.2.1.1] at hmem
      have hmem0 : a + asize ∈ segGet h.segs j := by
        by_cases hj : j = segIdx b.hsize
        · rw [if_pos hj] at hmem
          exact List.mem_of_mem_erase hmem
        · rw [if_neg hj] at hmem
          exact hmem
      obtain ⟨pre2, b2, post2, hloc2, _, _⟩ := hwf.2.2.1.2.2 j _ hmem0
      have hloc3 : locate (pre ++ b :: post) (a + asize) = some (pre2, b2, post2) := by
        rw [← hdec]
        exact hloc2
      have hout := located_outside_single hposP hloc3 (by omega)
      rw [hsum] at hout
      omega
    have hco := coalesce_spec (detachAddr h.segs b.hsize a) h.used h.maxHeap
      (pre ++ [bA]) rem post hwfL1 rfl hchP1 hchQ hsegsL1 hnl1
    obtain ⟨hc1, hc2, hc3, hc4, hc5, hc6, hc7, _⟩ := hco
    have hlists : (pre ++ [bA]) ++ rem :: post = pre ++ bA :: rem :: post := by simp
    have hplace2 : place h a asize =
        (coalesce ⟨detachAddr h.segs b.hsize a, (pre ++ [bA]) ++ rem :: post,
          h.used, h.maxHeap⟩ (sumSizes (pre ++ [bA]))).1 := by
      rw [hplace, hlists, hsumA]
    have hsumEq : sumSizes ((pre ++ [bA]) ++ rem :: post) = sumSizes h.blocks := by
      rw [hdec]
      simp only [sumSizes_append, sumSizes_cons, sumSizes_nil]
      show sumSizes pre + (asize + 0) + (b.hsize - asize + sumSizes post) =
        sumSizes pre + (b.hsize + sumSizes post)
      omega
    refine ⟨⟨?_, ?_, ?_, ?_, ?_⟩, ?_, ?_, ?_, ?_, ?_⟩
    · rw [hplace2]
      exact hc1
    · rw [hplace2]
      exact hc2
    · rw [hplace2]
      exact hc3
    · rw [hplace2, hc5, hc4, hsumEq]
      exact hwf.2.2.2.1
    · rw [hplace2, hc5, hc6]
      exact hwf.2.2.2.2
    · rw [hplace2, hc6]
    · rw [hplace2, hc5]
    · rw [hplace2, hc4, hsumEq]
    · have hlocA : locate ((pre ++ [bA]) ++ rem :: post) a = some (pre, bA, rem :: post) := by
        rw [hlists, ← hsum]
        exact locate_of_pos pre bA (rem :: post) hposP
      obtain ⟨pre2, post2, hl2⟩ := hc7 a (pre, bA, rem :: post) hlocA rfl
      rw [hplace2]
      exact ⟨pre2, bA, post2, hl2, rfl, le_rfl⟩
    · intro a2 t hl2 hal2
      have hne := hframe0 a2 t hl2 hal2
      have hl3 : locate (pre ++ b :: post) a2 = some t := by
        rw [← hdec]
        exact hl2
      have hrep0 : ∃ pre2 post2,
          locate (pre ++ [bA, rem] ++ post) a2 = some (pre2, t.2.1, post2) :=
        locate_replace1 hposP hbpos hposZ2
          (by rw [hszZ2])
          hl3 (by rw [hsum]; exact hne)
      obtain ⟨pre2, post2, hrep⟩ := hrep0
      have hrep2 : locate ((pre ++ [bA]) ++ rem :: post) a2 = some (pre2, t.2.1, post2) := by
        rw [hlists]
        rw [show pre ++ [bA, rem] ++ post = pre ++ bA :: rem :: post from by simp] at hrep
        exact hrep
      obtain ⟨pre3, post3, hrep3⟩ := hc7 a2 (pre2, t.2.1, post2) hrep2 hal2
      rw [hplace2]
      exact ⟨pre3, post3, hrep3⟩
  · set bW : Block := ⟨b.hsize, true, b.hsize, true, b.data⟩ with hbW
    have hplaceW : place h a asize =
        ⟨detachAddr h.segs b.hsize a, pre ++ bW :: post, h.used, h.maxHeap⟩ := by
      rw [place, hloc]
      simp only [if_neg hsplit]
    have hwfbW : blockWF bW := ⟨rfl, rfl, hwfb.2.2.1, hwfb.2.2.2.1, hdata⟩
    have hposZ2 : ∀ x ∈ [bW], 0 < x.hsize := by
      intro x hx
      rw [List.mem_singleton] at hx
      subst hx
      show 0 < b.hsize
      omega
    have hszZ2 : sumSizes [bW] = b.hsize := by
      rw [sumSizes_cons, sumSizes_nil]
      show b.hsize + 0 = b.hsize
      omega
    have hchW : coalescedOK (pre ++ bW :: post) := by
      rw [coalescedOK, List.chain'_append]
      refine ⟨hchP, List.chain'_cons'.mpr ⟨fun y _ => Or.inl rfl, hchQ⟩, ?_⟩
      intro x _ y hy
      have : bW = y := by simpa using hy
      rw [← this]
      exact Or.inr rfl
    have hsegsW : segsWF (pre ++ bW :: post) (detachAddr h.segs b.hsize a) := by
      have h1 : segsWF (pre ++ [bW] ++ post) (detachAddr h.segs b.hsize a) :=
        segsWF_replace1 hposP hbpos hposZ2 hszZ2 hsegs1b (hsum ▸ hnot1)
      simpa using h1
    have hsumW : sumSizes (pre ++ bW :: post) = sumSizes h.blocks := by
      rw [hdec, sumSizes_append, sumSizes_append, sumSizes_cons, sumSizes_cons]
    have hwfW : ∀ x ∈ pre ++ bW :: post, blockWF x := by
      intro x hx
      rcases List.mem_append.mp hx with h1 | h2
      · exact hwf.1 x (by rw [hdec]; simp [h1])
      · rcases List.mem_cons.mp h2 with rfl | h3
        · exact hwfbW
        · exact hwf.1 x (by rw [hdec]; simp [h3])
    refine ⟨⟨?_, ?_, ?_, ?_, ?_⟩, ?_, ?_, ?_, ?_, ?_⟩
    · rw [hplaceW]
      exact hwfW
    · rw [hplaceW]
      exact hchW
    · rw [hplaceW]
      exact hsegsW
    · rw [hplaceW]
      show h.used = 72 + sumSizes (pre ++ bW :: post)
      rw [hsumW]
      exact hwf.2.2.2.1
    · rw [hplaceW]
      exact hwf.2.2.2.2
    · rw [hplaceW]
    · rw [hplaceW]
    · rw [hplaceW]
      show sumSizes (pre ++ bW :: post) = sumSizes h.blocks
      exact hsumW
    · rw [hplaceW]
      refine ⟨pre, bW, post, ?_, rfl, ?_⟩
      · show locate (pre ++ bW :: post) a = some (pre, bW, post)
        rw [← hsum]
        exact locate_of_pos pre bW post hposP
      · show asize ≤ b.hsize
        omega
    · intro a2 t hl2 hal2
      have hne := hframe0 a2 t hl2 hal2
      have hl3 : locate (pre ++ b :: post) a2 = some t := by
        rw [← hdec]
        exact hl2
      have hrep0 : ∃ pre2 post2,
          locate (pre ++ [bW] ++ post) a2 = some (pre2, t.2.1, post2) :=
        locate_replace1 hposP hbpos hposZ2 hszZ2 hl3 (by rw [hsum]; exact hne)
      obtain ⟨pre2, post2, hrep⟩ := hrep0
      rw [hplaceW]
      refine ⟨pre2, post2, ?_⟩
      show locate (pre ++ bW :: post) a2 = some (pre2, t.2.1, post2)
      simpa using hrep

/-- The size `find_fit`'s scan reads at a candidate address. -/
def szAt (bs : List Block) (bp : Nat) : Nat :=
  ((locate bs bp).map (fun t => t.2.1.hsize)).getD 0

/-- Any address returned by the inner scan is either carried in from
`result` or comes from the scanned list, and it fits. -/
theorem scanClass_some (bs : List Block) (asize : Nat) :
    ∀ (l : List Nat) (result : Option Nat) (smallest count visits bp : Nat),
    (∀ r, result = some r → asize ≤ szAt bs r) →
    (scanClass bs asize l result smallest count visits).1 = some bp →
    (bp ∈ l ∨ result = some bp) ∧ asize ≤ szAt bs bp := by
  intro l
  induction l with
  | nil =>
    intro result smallest count visits bp hres h
    simp only [scanClass] at h
    exact ⟨Or.inr h, hres bp h⟩
  | cons q rest ih =>
    intro result smallest count visits bp hres h
    simp only [scanClass] at h
    split at h
    · split at h
      next hfit =>
        split at h
        · split at h
          next hexact =>
            simp only at h
            cases h
            exact ⟨Or.inl (by simp), hfit⟩
          next hexact =>
            have := ih (some q) (((locate bs q).map (fun t => t.2.1.hsize)).getD 0)
              (count + 1) (visits + 1) bp
              (by
                intro r hr
                cases hr
                exact hfit) h
            rcases this.1 with hmem | hcar
            · exact ⟨Or.inl (by simp [hmem]), this.2⟩
            · cases hcar
              exact ⟨Or.inl (by simp), this.2⟩
        · have := ih result smallest (count + 1) (visits + 1) bp hres h
          rcases this.1 with hmem | hcar
          · exact ⟨Or.inl (by simp [hmem]), this.2⟩
          · exact ⟨Or.inr hcar, this.2⟩
      next hfit =>
        have := ih result smallest count (visits + 1) bp hres h
        rcases this.1 with hmem | hcar
        · exact ⟨Or.inl (by simp [hmem]), this.2⟩
        · exact ⟨Or.inr hcar, this.2⟩
    · simp only at h
      exact ⟨Or.inr h, hres bp h⟩

/-- Any address returned by the class search comes from one of the scanned
class lists and fits. -/
theorem findFitClasses_some (bs : List Block) (segs : List (List Nat)) (asize : Nat) :
    ∀ (js : List Nat) (bp : Nat),
    (findFitClasses bs segs asize js).1 = some bp →
    ∃ j ∈ js, bp ∈ segGet segs j ∧ asize ≤ szAt bs bp := by
  intro js
  induction js with
  | nil =>
    intro bp h
    simp only [findFitClasses] at h
    cases h
  | cons j rest ih =>
    intro bp h
    simp only [findFitClasses] at h
    split at h
    · have := scanClass_some bs asize (segGet segs j) none (wordMod - 1) 0 0 bp
        (by intro r hr; cases hr) h
      rcases this.1 with hmem | hcar
      · exact ⟨j, by simp, hmem, this.2⟩
      · cases hcar
    · obtain ⟨j2, hj2, hmem, hfit⟩ := ih bp h
      exact ⟨j2, by simp [hj2], hmem, hfit⟩

/-- `find_fit` returns the address of a listed free block at least as large
as the request. -/
theorem find_fit_spec {h : Heap} {asize bp : Nat} (hwf : heapWF h)
    (hf : find_fit h asize = some bp) :
    ∃ pre b post, locate h.blocks bp = some (pre, b, post) ∧
      b.halloc = false ∧ asize ≤ b.hsize := by
  obtain ⟨j, _, hmem, hfit⟩ := findFitClasses_some h.blocks h.segs asize
    ((List.range 5).drop (segIdx asize)) bp hf
  obtain ⟨pre, b, post, hloc, hfree, _⟩ := hwf.2.2.1.2.2 j bp hmem
  refine ⟨pre, b, post, hloc, hfree, ?_⟩
  rw [szAt, hloc] at hfit
  exact hfit

/-- `extend_heap` preserves the heap invariant, grows the accounting by the
rounded request, yields a trailing free block at least as large as the
request, and keeps every allocated block in place. -/
theorem extend_heap_spec {h : Heap} {words : Nat} {h2 : Heap} {bp : Nat}
    (hwf : heapWF h) (hw : 8 ≤ words)
    (he : extend_heap h words = some (h2, bp)) :
    heapWF h2 ∧ h2.maxHeap = h.maxHeap ∧
    (∃ pre b post, locate h2.blocks bp = some (pre, b, post) ∧ b.halloc = false ∧
      words * 4 ≤ b.hsize) ∧
    (∀ a t, locate h.blocks a = some t → t.2.1.halloc = true →
      ∃ pre2 post2, locate h2.blocks a = some (pre2, t.2.1, post2)) := by
  set size := if words % 2 = 1 then (words + 1) * 4 else words * 4 with hsizedef
  have hsz32 : 32 ≤ size ∧ size % 8 = 0 ∧ words * 4 ≤ size := by
    rw [hsizedef]
    by_cases hodd : words % 2 = 1
    · rw [if_pos hodd]
      omega
    · rw [if_neg hodd]
      omega
  set nb : Block := ⟨size, false, size, false, List.replicate (size - 16) 0⟩ with hnb
  have hwfnb : blockWF nb := by
    refine ⟨rfl, rfl, hsz32.1, hsz32.2.1, ?_⟩
    show (List.replicate (size - 16) 0).length = size - 16
    rw [List.length_replicate]
  simp only [extend_heap] at he
  rw [← hsizedef, ← hnb] at he
  split at he
  case isFalse => cases he
  case isTrue hguard =>
  have heq : coalesce ⟨h.segs, h.blocks ++ [nb], h.used + size, h.maxHeap⟩
      (sumSizes h.blocks) = (h2, bp) := by
    injection he
  have hposB : ∀ x ∈ h.blocks, 0 < x.hsize := blocks_pos hwf.1
  have hwfall : ∀ x ∈ h.blocks ++ nb :: [], blockWF x := by
    intro x hx
    rcases List.mem_append.mp hx with h1 | h2
    · exact hwf.1 x h1
    · rcases List.mem_cons.mp h2 with rfl | h3
      · exact hwfnb
      · cases h3
  have hsegsA : segsWF (h.blocks ++ nb :: []) h.segs := by
    refine ⟨hwf.2.2.1.1, hwf.2.2.1.2.1, ?_⟩
    intro j a2 ha2
    exact addrFree_append hposB (hwf.2.2.1.2.2 j a2 ha2)
  have hnl : ∀ j, sumSizes h.blocks ∉ segGet h.segs j := by
    intro j hmem
    obtain ⟨pre2, b2, post2, hloc2, _, _⟩ := hwf.2.2.1.2.2 j _ hmem
    have := locate_lt_sum hposB hloc2
    omega
  have hco := coalesce_spec h.segs (h.used + size) h.maxHeap h.blocks nb []
    hwfall rfl hwf.2.1 List.chain'_nil hsegsA hnl
  rw [heq] at hco
  obtain ⟨hc1, hc2, hc3, hc4, hc5, hc6, hc7, hc8⟩ := hco
  have hsumA : sumSizes (h.blocks ++ nb :: []) = sumSizes h.blocks + size := by
    rw [sumSizes_append, sumSizes_cons, sumSizes_nil]
    show sumSizes h.blocks + (size + 0) = sumSizes h.blocks + size
    omega
  refine ⟨⟨hc1, hc2, hc3, ?_, ?_⟩, hc6, ?_, ?_⟩
  · rw [hc5, hc4, hsumA]
    have := hwf.2.2.2.1
    omega
  · rw [hc5, hc6]
    exact hguard
  · obtain ⟨pre2, b2, post2, hloc2, hfree2, hsz2⟩ := hc8
    refine ⟨pre2, b2, post2, hloc2, hfree2, ?_⟩
    have : nb.hsize = size := rfl
    omega
  · intro a t hloc halloc
    have hlt := locate_lt_sum hposB hloc
    have hloc2 : locate (h.blocks ++ nb :: []) a = some (t.1, t.2.1, t.2.2 ++ nb :: []) := by
      rw [locate_append_left h.blocks (nb :: []) a hlt, hloc]
      rfl
    exact hc7 a (t.1, t.2.1, t.2.2 ++ nb :: []) hloc2 halloc

/-- `malloc` preserves the heap invariant; a returned pointer addresses an
allocated block at least as large as the adjusted size and is distinct from
every allocated address of the old heap; allocated blocks stay in place; on
failure the heap is unchanged. -/
theorem mm_malloc_spec {h : Heap} {n : Nat} (hwf : heapWF h) (hok : sizeOK n) :
    heapWF (mm_malloc h n).1 ∧ (mm_malloc h n).1.maxHeap = h.maxHeap ∧
    (∀ p, (mm_malloc h n).2 = some p →
      ∃ pre b post, locate (mm_malloc h n).1.blocks p = some (pre, b, post) ∧
        b.halloc = true ∧ asizeOf n ≤ b.hsize) ∧
    (∀ a t, locate h.blocks a = some t → t.2.1.halloc = true →
      ∃ pre2 post2, locate (mm_malloc h n).1.blocks a = some (pre2, t.2.1, post2)) ∧
    (∀ p, (mm_malloc h n).2 = some p → ∀ a t, locate h.blocks a = some t →
      t.2.1.halloc = true → p ≠ a) ∧
    ((mm_malloc h n).2 = none → (mm_malloc h n).1 = h) := by
  by_cases hn0 : n = 0
  · have heq : mm_malloc h n = (h, none) := by
      rw [mm_malloc, if_pos hn0]
    rw [heq]
    refine ⟨hwf, rfl, ?_, ?_, ?_, fun _ => rfl⟩
    · intro p hp
      cases hp
    · intro a t hloc _
      exact ⟨t.1, t.2.2, by rw [hloc]⟩
    · intro p hp
      cases hp
  · have h32 := asizeOf_ge_min hok
    have h8 := asizeOf_mod8 n
    cases hff : find_fit h (asizeOf n) with
    | some bp =>
      have heq : mm_malloc h n = (place h bp (asizeOf n), some bp) := by
        simp only [mm_malloc]
        rw [if_neg hn0, hff]
      obtain ⟨pre, b, post, hloc, hfree, hsz⟩ := find_fit_spec hwf hff
      have hp := place_spec hwf hloc hfree hsz h32 h8
      rw [heq]
      refine ⟨hp.1, hp.2.1, ?_, ?_, ?_, ?_⟩
      · intro p hpe
        injection hpe with hpe
        subst hpe
        exact hp.2.2.2.2.1
      · exact hp.2.2.2.2.2
      · intro p hpe a t hloc2 halloc2 he
        injection hpe with hpe
        subst hpe
        subst he
        rw [hloc] at hloc2
        cases hloc2
        rw [hfree] at halloc2
        cases halloc2
      · intro hnone
        cases hnone
    | none =>
      cases hee : extend_heap h (max (asizeOf n) 260 / 4) with
      | none =>
        have heq : mm_malloc h n = (h, none) := by
          simp only [mm_malloc]
          rw [if_neg hn0, hff, hee]
        rw [heq]
        refine ⟨hwf, rfl, ?_, ?_, ?_, fun _ => rfl⟩
        · intro p hp
          cases hp
        · intro a t hloc _
          exact ⟨t.1, t.2.2, by rw [hloc]⟩
        · intro p hp
          cases hp
      | some pr =>
        obtain ⟨h2, bp⟩ := pr
        have heq : mm_malloc h n = (place h2 bp (asizeOf n), some bp) := by
          simp only [mm_malloc]
          rw [if_neg hn0, hff, hee]
        have hwords : 8 ≤ max (asizeOf n) 260 / 4 := by omega
        have hex := extend_heap_spec hwf hwords hee
        obtain ⟨hwf2, hmax2, ⟨pre, b, post, hloc, hfree, hsz⟩, hframeE⟩ := hex
        have hszA : asizeOf n ≤ b.hsize := by
          have h4 : max (asizeOf n) 260 / 4 * 4 = max (asizeOf n) 260 := by omega
          omega
        have hp := place_spec hwf2 hloc hfree hszA h32 h8
        rw [heq]
        refine ⟨hp.1, by rw [hp.2.1, hmax2], ?_, ?_, ?_, ?_⟩
        · intro p hpe
          injection hpe with hpe
          subst hpe
          exact hp.2.2.2.2.1
        · intro a t hloc2 halloc2
          obtain ⟨pre2, post2, hrep⟩ := hframeE a t hloc2 halloc2
          exact hp.2.2.2.2.2 a (pre2, t.2.1, post2) hrep halloc2
        · intro p hpe a t hloc2 halloc2 he
          injection hpe with hpe
          subst hpe
          subst he
          obtain ⟨pre2, post2, hrep⟩ := hframeE bp t hloc2 halloc2
          rw [hloc] at hrep
          injection hrep with hrep
          cases hrep
          rw [hfree] at halloc2
          cases halloc2
        · intro hnone
          cases hnone

theorem readRegion_take {bs : List Block} {p m cnt : Nat} {pre : List Block}
    {b : Block} {post : List Block}
    (hloc : locate bs p = some (pre, b, post))
    (hm1 : m ≤ cnt) (hm2 : m ≤ b.data.length) :
    (readRegion bs p cnt).take m = b.data.take m := by
  rw [readRegion, hloc]
  rw [List.take_take]
  rw [Nat.min_eq_left hm1]
  rw [List.append_assoc]
  rw [List.take_append_of_le_length hm2]

theorem readRegion_length {bs : List Block} {p cnt : Nat} {pre : List Block}
    {b : Block} {post : List Block}
    (hloc : locate bs p = some (pre, b, post)) (hwfb : blockWF b) :
    (readRegion bs p cnt).length = min cnt b.hsize := by
  rw [readRegion, hloc]
  have hfull : (b.data ++ tagBytes b.fsize b.falloc ++
      (match post.head? with
       | some nb => tagBytes nb.hsize nb.halloc
       | none => tagBytes 0 true)).length = b.hsize := by
    rw [List.length_append, List.length_append, tagBytes_length, hwfb.2.2.2.2]
    have h16 := hwfb.2.2.1
    cases post.head? with
    | none =>
      rw [tagBytes_length]
      omega
    | some nb =>
      rw [tagBytes_length]
      omega
  rw [List.length_take, hfull]

/-- Overwriting the payload of a located allocated block preserves the heap
invariant, keeps its boundary tags, and keeps every other block in place. -/
theorem writeBytes_spec {h : Heap} {p : Nat} {pre : List Block} {b : Block}
    {post : List Block} (bytes : List Nat) (hwf : heapWF h)
    (hloc : locate h.blocks p = some (pre, b, post)) (halloc : b.halloc = true) :
    heapWF (writeBytes h p bytes) ∧
    (writeBytes h p bytes).maxHeap = h.maxHeap ∧
    (writeBytes h p bytes).used = h.used ∧
    sumSizes (writeBytes h p bytes).blocks = sumSizes h.blocks ∧
    locate (writeBytes h p bytes).blocks p = some (pre,
      { b with data := bytes.take b.data.length ++ b.data.drop bytes.length }, post) ∧
    (∀ a t, locate h.blocks a = some t → t.2.1.halloc = true → a ≠ p →
      ∃ pre2 post2, locate (writeBytes h p bytes).blocks a = some (pre2, t.2.1, post2)) := by
  obtain ⟨hdec, hsum⟩ := locate_decomp h.blocks p pre b post hloc
  have hwfb : blockWF b := hwf.1 b (by rw [hdec]; simp)
  have hposP : ∀ x ∈ pre, 0 < x.hsize := by
    intro x hx
    exact blocks_pos hwf.1 x (by rw [hdec]; simp [hx])
  have hbpos : 0 < b.hsize := by
    have := hwfb.2.2.1
    omega
  set b2 : Block :=
    { b with data := bytes.take b.data.length ++ b.data.drop bytes.length } with hb2
  have heq : writeBytes h p bytes = ⟨h.segs, pre ++ b2 :: post, h.used, h.maxHeap⟩ := by
    rw [writeBytes, hloc]
  have hlen2 : b2.data.length = b.data.length := by
    show (bytes.take b.data.length ++ b.data.drop bytes.length).length = b.data.length
    rw [List.length_append, List.length_take, List.length_drop]
    omega
  have hwfb2 : blockWF b2 := by
    refine ⟨hwfb.1, hwfb.2.1, hwfb.2.2.1, hwfb.2.2.2.1, ?_⟩
    rw [hlen2]
    exact hwfb.2.2.2.2
  have hwfall : ∀ x ∈ pre ++ b2 :: post, blockWF x := by
    intro x hx
    rcases List.mem_append.mp hx with h1 | h2
    · exact hwf.1 x (by rw [hdec]; simp [h1])
    · rcases List.mem_cons.mp h2 with rfl | h3
      · exact hwfb2
      · exact hwf.1 x (by rw [hdec]; simp [h3])
  have hch := hwf.2.1
  rw [hdec] at hch
  have hchP : coalescedOK pre := (List.chain'_append.mp hch).1
  have hchQ : coalescedOK post := (List.chain'_cons'.mp (List.chain'_append.mp hch).2.1).2
  have hbd1 := (List.chain'_append.mp hch).2.2
  have hbd2 := (List.chain'_cons'.mp (List.chain'_append.mp hch).2.1).1
  have hch2 : coalescedOK (pre ++ b2 :: post) := by
    rw [coalescedOK, List.chain'_append]
    refine ⟨hchP, List.chain'_cons'.mpr ⟨?_, hchQ⟩, ?_⟩
    · intro y hy
      rcases hbd2 y hy with h1 | h2
      · exact Or.inl h1
      · exact Or.inr h2
    · intro x hx y hy
      have hyb : b2 = y := by simpa using hy
      rw [← hyb]
      rcases hbd1 x hx b rfl with h1 | h2
      · exact Or.inl h1
      · exact Or.inr h2
  have hnot : ∀ j, sumSizes pre ∉ segGet h.segs j := by
    rw [hsum]
    exact segs_not_alloc_addr hwf.2.2.1 hloc halloc
  have hsegs2 : segsWF (pre ++ b2 :: post) h.segs := by
    have h1 : segsWF (pre ++ [b2] ++ post) h.segs := segsWF_replace1 hposP hbpos
      (by
        intro x hx
        rw [List.mem_singleton] at hx
        subst hx
        show 0 < b.hsize
        omega)
      (by rw [sumSizes_cons, sumSizes_nil]; show b.hsize + 0 = b.hsize; omega)
      (hdec ▸ hwf.2.2.1) hnot
    simpa using h1
  have hsum2 : sumSizes (pre ++ b2 :: post) = sumSizes h.blocks := by
    rw [hdec, sumSizes_append, sumSizes_append, sumSizes_cons, sumSizes_cons]
  refine ⟨⟨?_, ?_, ?_, ?_, ?_⟩, ?_, ?_, ?_, ?_, ?_⟩
  · rw [heq]
    exact hwfall
  · rw [heq]
    exact hch2
  · rw [heq]
    exact hsegs2
  · rw [heq]
    show h.used = 72 + sumSizes (pre ++ b2 :: post)
    rw [hsum2]
    exact hwf.2.2.2.1
  · rw [heq]
    exact hwf.2.2.2.2
  · rw [heq]
  · rw [heq]
  · rw [heq]
    show sumSizes (pre ++ b2 :: post) = sumSizes h.blocks
    exact hsum2
  · rw [heq]
    show locate (pre ++ b2 :: post) p = some (pre, b2, post)
    rw [← hsum]
    exact locate_of_pos pre b2 post hposP
  · intro a t hl2 hal2 hne
    have hl3 : locate (pre ++ b :: post) a = some t := by
      rw [← hdec]
      exact hl2
    have hrep0 : ∃ pre2 post2,
        locate (pre ++ [b2] ++ post) a = some (pre2, t.2.1, post2) :=
      locate_replace1 hposP hbpos
        (by
          intro x hx
          rw [List.mem_singleton] at hx
          subst hx
          show 0 < b.hsize
          omega)
        (by rw [sumSizes_cons, sumSizes_nil]; show b.hsize + 0 = b.hsize; omega)
        hl3 (by rw [hsum]; exact hne)
    obtain ⟨pre2, post2, hrep⟩ := hrep0
    rw [heq]
    refine ⟨pre2, post2, ?_⟩
    show locate (pre ++ b2 :: post) a = some (pre2, t.2.1, post2)
    simpa using hrep

/-- The alloc-copy-free fallback of `realloc` preserves the heap invariant
and the first `min(old_payload, n)` payload bytes; on failure the heap is
unchanged. -/
theorem reallocMove_spec {h : Heap} {p n : Nat} {pre : List Block} {b : Block}
    {post : List Block} (hwf : heapWF h)
    (hloc : locate h.blocks p = some (pre, b, post)) (halloc : b.halloc = true)
    (hok : sizeOK n) :
    heapWF (reallocMove h p n b.hsize).1 ∧
    (reallocMove h p n b.hsize).1.maxHeap = h.maxHeap ∧
    (∀ q, (reallocMove h p n b.hsize).2 = some q →
      ∃ pre2 b2 post2,
        locate (reallocMove h p n b.hsize).1.blocks q = some (pre2, b2, post2) ∧
        b2.halloc = true ∧ asizeOf n ≤ b2.hsize ∧
        b2.data.take (min b.data.length n) = b.data.take (min b.data.length n)) ∧
    (∀ q, (reallocMove h p n b.hsize).2 = some q →
      ∀ a t, locate h.blocks a = some t → t.2.1.halloc = true → q ≠ a) ∧
    (∀ a t, locate h.blocks a = some t → t.2.1.halloc = true → a ≠ p →
      ∃ pre2 post2,
        locate (reallocMove h p n b.hsize).1.blocks a = some (pre2, t.2.1, post2)) ∧
    ((reallocMove h p n b.hsize).2 = none → (reallocMove h p n b.hsize).1 = h) := by
  have hwfb : blockWF b := by
    obtain ⟨hdec, _⟩ := locate_decomp h.blocks p pre b post hloc
    exact hwf.1 b (by rw [hdec]; simp)
  have hmal := mm_malloc_spec hwf hok
  cases hmal2 : mm_malloc h n with
  | mk h2 q =>
    rw [hmal2] at hmal
    cases q with
    | none =>
      have heq : reallocMove h p n b.hsize = (h2, none) := by
        rw [reallocMove, hmal2]
      have hh2 : h2 = h := hmal.2.2.2.2.2 rfl
      rw [heq, hh2]
      refine ⟨hwf, rfl, ?_, ?_, ?_, fun _ => rfl⟩
      · intro q hq
        cases hq
      · intro q hq
        cases hq
      · intro a t hl2 _ _
        exact ⟨t.1, t.2.2, by rw [hl2]⟩
    | some np =>
      set cnt := min b.hsize n with hcnt
      set bytes := readRegion h2.blocks p cnt with hbytes
      set h3 := writeBytes h2 np bytes with hh3
      have heq : reallocMove h p n b.hsize = (mm_free h3 p, some np) := by
        rw [reallocMove, hmal2, hh3, hbytes, hcnt]
      obtain ⟨hwf2, hmax2, hpost2, hframe2, hfresh2, _⟩ := hmal
      obtain ⟨preN, bA, postN, hlocN, hallocA, hszA⟩ := hpost2 np rfl
      have hwfbA : blockWF bA := by
        obtain ⟨hdec2, _⟩ := locate_decomp h2.blocks np preN bA postN hlocN
        exact hwf2.1 bA (by rw [hdec2]; simp)
      obtain ⟨preP2, postP2, hlocP2⟩ := hframe2 p (pre, b, post) hloc halloc
      have hnep : np ≠ p := hfresh2 np rfl p (pre, b, post) hloc halloc
      have hwb := writeBytes_spec bytes hwf2 hlocN hallocA
      obtain ⟨hwf3, hmax3, _, _, hlocN3, hframe3⟩ := hwb
      obtain ⟨preP3, postP3, hlocP3⟩ := hframe3 p (preP2, b, postP2) hlocP2 halloc
        (Ne.symm hnep)
      have hfree := mm_free_spec hwf3 hlocP3 halloc
      obtain ⟨hwfF, hmaxF, _, _, hframeF⟩ := hfree
      set bA2 : Block :=
        { bA with data := bytes.take bA.data.length ++ bA.data.drop bytes.length }
        with hbA2
      obtain ⟨preN4, postN4, hlocN4⟩ := hframeF np (preN, bA2, postN) hlocN3
        (by show bA.halloc = true; exact hallocA) hnep
      have hm : min b.data.length n ≤ cnt := by
        rw [hcnt, hwfb.2.2.2.2]
        omega
      have hmb : min b.data.length n ≤ b.data.length := by omega
      have hmA : min b.data.length n ≤ bA.data.length := by
        have hp16 := asizeOf_ge_payload hok
        have := hwfbA.2.2.2.2
        omega
      have hbl : bytes.length = cnt := by
        rw [hbytes, readRegion_length hlocP2 (by
          obtain ⟨hdec2, _⟩ := locate_decomp h2.blocks p preP2 b postP2 hlocP2
          exact hwf2.1 b (by rw [hdec2]; simp))]
        exact Nat.min_eq_left (by rw [hcnt]; exact Nat.min_le_left _ _)
      have hcontent : bA2.data.take (min b.data.length n) =
          b.data.take (min b.data.length n) := by
        show (bytes.take bA.data.length ++ bA.data.drop bytes.length).take
          (min b.data.length n) = b.data.take (min b.data.length n)
        rw [List.take_append_of_le_length (by
          rw [List.length_take]
          omega)]
        rw [List.take_take]
        rw [Nat.min_eq_left (by omega : min b.data.length n ≤ bA.data.length)]
        rw [hbytes]
        exact readRegion_take hlocP2 hm hmb
      rw [heq]
      refine ⟨hwfF, by rw [hmaxF, hmax3, hmax2], ?_, ?_, ?_, ?_⟩
      · intro q hq
        injection hq with hq
        subst hq
        refine ⟨preN4, bA2, postN4, hlocN4, ?_, ?_, hcontent⟩
        · show bA.halloc = true
          exact hallocA
        · show asizeOf n ≤ bA.hsize
          exact hszA
      · intro q hq a t hl2 hal2
        injection hq with hq
        subst hq
        exact hfresh2 np rfl a t hl2 hal2
      · intro a t hl2 hal2 hne
        obtain ⟨pre5, post5, hl5⟩ := hframe2 a t hl2 hal2
        have hnenp : a ≠ np := fun he => hfresh2 np rfl a t hl2 hal2 he.symm
        obtain ⟨pre6, post6, hl6⟩ := hframe3 a (pre5, t.2.1, post5) hl5 hal2 hnenp
        obtain ⟨pre7, post7, hl7⟩ := hframeF a (pre6, t.2.1, post6) hl6 hal2 hne
        exact ⟨pre7, post7, hl7⟩
      · intro hq
        cases hq

theorem segGet_detach_subset {segs : List (List Nat)} (h5 : segs.length = 5)
    {s a j a2 : Nat} (h : a2 ∈ segGet (detachAddr segs s a) j) :
    a2 ∈ segGet segs j := by
  rw [segGet_detachAddr h5] at h
  by_cases hj : j = segIdx s
  · rw [if_pos hj] at h
    exact List.mem_of_mem_erase h
  · rw [if_neg hj] at h
    exact h

/-- A located address other than the starts of two distinguished adjacent
middle blocks lies outside their combined window. -/
theorem located_outside_pair {P Q : List Block} {b n : Block} {a2 : Nat}
    {t : List Block × Block × List Block}
    (hposP : ∀ x ∈ P, 0 < x.hsize)
    (hloc : locate (P ++ b :: n :: Q) a2 = some t)
    (hne1 : a2 ≠ sumSizes P) (hne2 : a2 ≠ sumSizes P + b.hsize) :
    a2 < sumSizes P ∨ sumSizes P + b.hsize + n.hsize ≤ a2 := by
  by_contra hout
  push_neg at hout
  obtain ⟨hge, hlt⟩ := hout
  have hlt2 : a2 < sumSizes P + sumSizes [b, n] := by
    rw [sumSizes_cons, sumSizes_cons, sumSizes_nil]
    omega
  have hloc2 : locate (P ++ [b, n] ++ Q) a2 = some t := by
    rw [show P ++ [b, n] ++ Q = P ++ b :: n :: Q from by simp]
    exact hloc
  obtain ⟨pz, bz, qz, hdec, hsum, _⟩ := locate_window hposP hloc2 hge hlt2
  rcases pz with _ | ⟨x, _ | ⟨y, pz'⟩⟩
  · rw [sumSizes_nil] at hsum
    omega
  · injection hdec with he1 _
    subst he1
    rw [sumSizes_cons, sumSizes_nil] at hsum
    omega
  · rw [show (x :: y :: pz') ++ bz :: qz = x :: y :: (pz' ++ bz :: qz) from rfl] at hdec
    injection hdec with _ hdec2
    injection hdec2 with _ hdec3
    cases pz' <;> cases hdec3

/-- `realloc` on a live pointer preserves the heap invariant and the first
`min(old_payload, n)` payload bytes across its four paths; a returned
pointer is the old one or a fresh address; other allocated blocks stay in
place; on failure the heap is unchanged. -/
theorem mm_realloc_spec {h : Heap} {p n : Nat} {pre : List Block} {b : Block}
    {post : List Block} (hwf : heapWF h)
    (hloc : locate h.blocks p = some (pre, b, post)) (halloc : b.halloc = true)
    (hn : 0 < n) (hok : sizeOK n) :
    heapWF (mm_realloc h (some p) n).1 ∧
    (mm_realloc h (some p) n).1.maxHeap = h.maxHeap ∧
    (∀ q, (mm_realloc h (some p) n).2 = some q →
      ∃ pre2 b2 post2,
        locate (mm_realloc h (some p) n).1.blocks q = some (pre2, b2, post2) ∧
        b2.halloc = true ∧ asizeOf n ≤ b2.hsize ∧
        b2.data.take (min b.data.length n) = b.data.take (min b.data.length n)) ∧
    (∀ q, (mm_realloc h (some p) n).2 = some q →
      q = p ∨ ∀ a t, locate h.blocks a = some t → t.2.1.halloc = true → q ≠ a) ∧
    (∀ a t, locate h.blocks a = some t → t.2.1.halloc = true → a ≠ p →
      ∃ pre2 post2,
        locate (mm_realloc h (some p) n).1.blocks a = some (pre2, t.2.1, post2)) ∧
    ((mm_realloc h (some p) n).2 = none → (mm_realloc h (some p) n).1 = h) := by
  have hn0 : ¬ n = 0 := by omega
  obtain ⟨hdec, hsum⟩ := locate_decomp h.blocks p pre b post hloc
  have hwfb : blockWF b := hwf.1 b (by rw [hdec]; simp)
  have hposP : ∀ x ∈ pre, 0 < x.hsize := by
    intro x hx
    exact blocks_pos hwf.1 x (by rw [hdec]; simp [hx])
  have hid : ∀ (h2 : Heap), h2 = h → heapWF h2 ∧ h2.maxHeap = h.maxHeap ∧
      (∀ q, some p = some q → ∃ pre2 b2 post2,
        locate h2.blocks q = some (pre2, b2, post2) ∧ b2.halloc = true ∧
        asizeOf n ≤ b2.hsize ∧
        b2.data.take (min b.data.length n) = b.data.take (min b.data.length n)) ∧
      (∀ q, some p = some q →
        q = p ∨ ∀ a t, locate h.blocks a = some t → t.2.1.halloc = true → q ≠ a) ∧
      (∀ a t, locate h.blocks a = some t → t.2.1.halloc = true → a ≠ p →
        ∃ pre2 post2, locate h2.blocks a = some (pre2, t.2.1, post2)) →
      True := fun _ _ _ => trivial
  clear hid
  by_cases hA : asizeOf n = b.hsize
  · have heq : mm_realloc h (some p) n = (h, some p) := by
      simp only [mm_realloc]
      rw [if_neg hn0]; simp only [hloc]; rw [if_pos hA]
    rw [heq]
    refine ⟨hwf, rfl, ?_, ?_, ?_, ?_⟩
    · intro q hq
      injection hq with hq
      subst hq
      exact ⟨pre, b, post, hloc, halloc, by omega, rfl⟩
    · intro q hq
      injection hq with hq
      subst hq
      exact Or.inl rfl
    · intro a t hl2 _ _
      exact ⟨t.1, t.2.2, by rw [hl2]⟩
    · intro hq
      cases hq
  · by_cases hB : asizeOf n < b.hsize
    · by_cases hB2 : 32 ≤ b.hsize - asizeOf n
      · -- shrink with split
        set asize := asizeOf n with hasize
        set bA : Block := ⟨asize, true, asize, true, b.data.take (asize - 16)⟩ with hbA
        set rem : Block := ⟨b.hsize - asize, false, b.hsize - asize, false,
          b.data.drop asize⟩ with hrem
        have heq : mm_realloc h (some p) n =
            ((coalesce ⟨h.segs, pre ++ bA :: rem :: post, h.used, h.maxHeap⟩
              (p + asize)).1, some p) := by
          simp only [mm_realloc]
          rw [if_neg hn0]; simp only [hloc]; rw [if_neg hA, if_pos hB, if_pos hB2]
        have h32 := asizeOf_ge_min hok
        have h8 := asizeOf_mod8 n
        have hdata : b.data.length = b.hsize - 16 := hwfb.2.2.2.2
        have hwfbA : blockWF bA := by
          refine ⟨rfl, rfl, h32, h8, ?_⟩
          show (b.data.take (asize - 16)).length = asize - 16
          rw [List.length_take, hdata]
          rw [hasize]
          omega
        have hwfrem : blockWF rem := by
          have hb8 := hwfb.2.2.2.1
          refine ⟨rfl, rfl, hB2, by show (b.hsize - asize) % 8 = 0; rw [hasize]; omega, ?_⟩
          show (b.data.drop asize).length = b.hsize - asize - 16
          rw [List.length_drop, hdata]
          rw [hasize]
          omega
        have hposZ2 : ∀ x ∈ [bA, rem], 0 < x.hsize := by
          intro x hx
          rcases List.mem_cons.mp hx with rfl | hx2
          · show 0 < asize
            rw [hasize]
            omega
          · rw [List.mem_singleton] at hx2
            subst hx2
            show 0 < b.hsize - asize
            rw [hasize]
            omega
        have hszZ2 : sumSizes [bA, rem] = b.hsize := by
          rw [sumSizes_cons, sumSizes_cons, sumSizes_nil]
          show asize + (b.hsize - asize + 0) = b.hsize
          rw [hasize]
          omega
        have hch := hwf.2.1
        rw [hdec] at hch
        have hchP : coalescedOK pre := (List.chain'_append.mp hch).1
        have hchQ : coalescedOK post :=
          (List.chain'_cons'.mp (List.chain'_append.mp hch).2.1).2
        have hchP1 : coalescedOK (pre ++ [bA]) := by
          rw [coalescedOK, List.chain'_append]
          refine ⟨hchP, List.chain'_singleton _, ?_⟩
          intro x _ y hy
          have : bA = y := by simpa using hy
          rw [← this]
          exact Or.inr rfl
        have hnotp : ∀ j, p ∉ segGet h.segs j :=
          segs_not_alloc_addr hwf.2.2.1 hloc halloc
        have hwfL1 : ∀ x ∈ (pre ++ [bA]) ++ rem :: post, blockWF x := by
          intro x hx
          rcases List.mem_append.mp hx with h1 | h2
          · rcases List.mem_append.mp h1 with h1a | h1b
            · exact hwf.1 x (by rw [hdec]; simp [h1a])
            · rw [List.mem_singleton] at h1b
              subst h1b
              exact hwfbA
          · rcases List.mem_cons.mp h2 with rfl | h3
            · exact hwfrem
            · exact hwf.1 x (by rw [hdec]; simp [h3])
        have hsegsL1 : segsWF ((pre ++ [bA]) ++ rem :: post) h.segs := by
          have h1 : segsWF (pre ++ [bA, rem] ++ post) h.segs :=
            segsWF_replace1 hposP (by have := hwfb.2.2.1; omega) hposZ2 hszZ2
              (hdec ▸ hwf.2.2.1) (hsum ▸ hnotp)
          have h2 : pre ++ [bA, rem] ++ post = (pre ++ [bA]) ++ rem :: post := by simp
          rw [← h2]
          exact h1
        have hsumA : sumSizes (pre ++ [bA]) = p + asize := by
          rw [sumSizes_append, sumSizes_cons, sumSizes_nil, hsum]
          show p + (asize + 0) = p + asize
          omega
        have hnl1 : ∀ j, sumSizes (pre ++ [bA]) ∉ segGet h.segs j := by
          intro j hmem
          rw [hsumA] at hmem
          obtain ⟨pre2, b2, post2, hloc2, _, _⟩ := hwf.2.2.1.2.2 j _ hmem
          have hloc3 : locate (pre ++ b :: post) (p + asize) = some (pre2, b2, post2) := by
            rw [← hdec]
            exact hloc2
          have hout := located_outside_single hposP hloc3
            (by rw [hsum, hasize]; omega)
          rw [hsum] at hout
          rw [hasize] at hout
          omega
        have hco := coalesce_spec h.segs h.used h.maxHeap (pre ++ [bA]) rem post
          hwfL1 rfl hchP1 hchQ hsegsL1 hnl1
        obtain ⟨hc1, hc2, hc3, hc4, hc5, hc6, hc7, _⟩ := hco
        have hlists : (pre ++ [bA]) ++ rem :: post = pre ++ bA :: rem :: post := by simp
        have heq2 : mm_realloc h (some p) n =
            ((coalesce ⟨h.segs, (pre ++ [bA]) ++ rem :: post, h.used, h.maxHeap⟩
              (sumSizes (pre ++ [bA]))).1, some p) := by
          rw [heq, hlists, hsumA]
        have hsumEq : sumSizes ((pre ++ [bA]) ++ rem :: post) = sumSizes h.blocks := by
          rw [hdec]
          simp only [sumSizes_append, sumSizes_cons, sumSizes_nil]
          show sumSizes pre + (asize + 0) + (b.hsize - asize + sumSizes post) =
            sumSizes pre + (b.hsize + sumSizes post)
          rw [hasize]
          omega
        rw [heq2]
        refine ⟨⟨hc1, hc2, hc3, ?_, ?_⟩, hc6, ?_, ?_, ?_, ?_⟩
        · rw [hc5, hc4, hsumEq]
          exact hwf.2.2.2.1
        · rw [hc5, hc6]
          exact hwf.2.2.2.2
        · intro q hq
          injection hq with hq
          subst hq
          have hlocA : locate ((pre ++ [bA]) ++ rem :: post) p =
              some (pre, bA, rem :: post) := by
            rw [hlists, ← hsum]
            exact locate_of_pos pre bA (rem :: post) hposP
          obtain ⟨pre2, post2, hl2⟩ := hc7 p (pre, bA, rem :: post) hlocA rfl
          refine ⟨pre2, bA, post2, hl2, rfl, le_rfl, ?_⟩
          show (b.data.take (asize - 16)).take (min b.data.length n) =
            b.data.take (min b.data.length n)
          rw [List.take_take]
          rw [Nat.min_eq_left (by
            have := asizeOf_ge_payload hok
            rw [hasize]
            omega)]
        · intro q hq
          injection hq with hq
          subst hq
          exact Or.inl rfl
        · intro a t hl2 hal2 hne
          have hl3 : locate (pre ++ b :: post) a = some t := by
            rw [← hdec]
            exact hl2
          have hrep0 : ∃ pre2 post2,
              locate (pre ++ [bA, rem] ++ post) a = some (pre2, t.2.1, post2) :=
            locate_replace1 hposP (by have := hwfb.2.2.1; omega) hposZ2 hszZ2 hl3
              (by rw [hsum]; exact hne)
          obtain ⟨pre2, post2, hrep⟩ := hrep0
          have hrep2 : locate ((pre ++ [bA]) ++ rem :: post) a =
              some (pre2, t.2.1, post2) := by
            rw [hlists]
            rw [show pre ++ [bA, rem] ++ post = pre ++ bA :: rem :: post from by simp]
              at hrep
            exact hrep
          obtain ⟨pre3, post3, hrep3⟩ := hc7 a (pre2, t.2.1, post2) hrep2 hal2
          exact ⟨pre3, post3, hrep3⟩
        · intro hq
          cases hq
      · -- shrink without split
        have heq : mm_realloc h (some p) n = (h, some p) := by
          simp only [mm_realloc]
          rw [if_neg hn0]; simp only [hloc]; rw [if_neg hA, if_pos hB, if_neg hB2]
        rw [heq]
        refine ⟨hwf, rfl, ?_, ?_, ?_, ?_⟩
        · intro q hq
          injection hq with hq
          subst hq
          exact ⟨pre, b, post, hloc, halloc, by omega, rfl⟩
        · intro q hq
          injection hq with hq
          subst hq
          exact Or.inl rfl
        · intro a t hl2 _ _
          exact ⟨t.1, t.2.2, by rw [hl2]⟩
        · intro hq
          cases hq
    · -- grow
      have hC : b.hsize < asizeOf n := by omega
      cases hpost : post with
      | nil =>
        rw [hpost] at hloc hdec
        have heq : mm_realloc h (some p) n = reallocMove h p n b.hsize := by
          simp only [mm_realloc]
          rw [if_neg hn0]; simp only [hloc]; rw [if_neg hA, if_neg hB]
          rfl
        have hrm := reallocMove_spec hwf hloc halloc hok
        rw [heq]
        refine ⟨hrm.1, hrm.2.1, hrm.2.2.1, ?_, hrm.2.2.2.2.1, hrm.2.2.2.2.2⟩
        intro q hq
        exact Or.inr (hrm.2.2.2.1 q hq)
      | cons nb post2 =>
        rw [hpost] at hloc hdec
        by_cases hnb : nb.halloc = false
        · by_cases habs : asizeOf n ≤ b.hsize + nb.hsize
          · -- absorb the following free block
            set m : Block := ⟨b.hsize + nb.hsize, true, b.hsize + nb.hsize, true,
              b.data ++ tagBytes b.fsize b.falloc ++ tagBytes nb.hsize nb.halloc ++
                nb.data⟩ with hm
            have heq : mm_realloc h (some p) n =
                (⟨detachAddr h.segs nb.hsize (p + b.hsize), pre ++ m :: post2,
                  h.used, h.maxHeap⟩, some p) := by
              simp only [mm_realloc]
              rw [if_neg hn0]; simp only [hloc]; rw [if_neg hA, if_neg hB]
              simp only [List.head?_cons, List.tail_cons]
              rw [if_pos hnb, if_pos habs]
            have hwfnb : blockWF nb := hwf.1 nb (by rw [hdec]; simp)
            have hposPb : ∀ x ∈ pre ++ [b], 0 < x.hsize := by
              intro x hx
              rcases List.mem_append.mp hx with h1 | h2
              · exact hposP x h1
              · rw [List.mem_singleton] at h2
                subst h2
                have := hwfb.2.2.1
                omega
            have hlocnb : locate h.blocks (p + b.hsize) =
                some (pre ++ [b], nb, post2) := by
              rw [hdec]
              have := locate_of_pos (pre ++ [b]) nb post2 hposPb
              rw [show (pre ++ [b]) ++ nb :: post2 = pre ++ b :: nb :: post2 from
                by simp] at this
              rwa [sumSizes_append, sumSizes_cons, sumSizes_nil, hsum,
                show p + (b.hsize + 0) = p + b.hsize from by omega] at this
            have hsegs1 : segsWF h.blocks
                (detachAddr h.segs nb.hsize (p + b.hsize)) :=
              segsWF_detach nb.hsize (p + b.hsize) hwf.2.2.1
            have hnotnb : ∀ j, (p + b.hsize) ∉
                segGet (detachAddr h.segs nb.hsize (p + b.hsize)) j :=
              detach_self_not_mem hwf.2.2.1 hlocnb
            have hnotp : ∀ j, p ∉ segGet h.segs j :=
              segs_not_alloc_addr hwf.2.2.1 hloc halloc
            have hwfm : blockWF m := by
              have h1 := hwfb.2.2.1
              have h2 := hwfnb.2.2.1
              have h3 := hwfb.2.2.2.1
              have h4 := hwfnb.2.2.2.1
              refine ⟨rfl, rfl, by show 32 ≤ b.hsize + nb.hsize; omega,
                by show (b.hsize + nb.hsize) % 8 = 0; omega, ?_⟩
              show (b.data ++ tagBytes b.fsize b.falloc ++
                tagBytes nb.hsize nb.halloc ++ nb.data).length =
                b.hsize + nb.hsize - 16
              rw [List.length_append, List.length_append, List.length_append,
                tagBytes_length, tagBytes_length, hwfb.2.2.2.2, hwfnb.2.2.2.2]
              omega
            have hch := hwf.2.1
            rw [hdec] at hch
            have hchParts := List.chain'_append.mp hch
            have hchP : coalescedOK pre := hchParts.1
            have hchQ : coalescedOK post2 :=
              (List.chain'_cons'.mp (List.chain'_cons'.mp hchParts.2.1).2).2
            have hchNew : coalescedOK (pre ++ m :: post2) := by
              rw [coalescedOK, List.chain'_append]
              refine ⟨hchP, List.chain'_cons'.mpr ⟨fun y _ => Or.inl rfl, hchQ⟩, ?_⟩
              intro x _ y hy
              have : m = y := by simpa using hy
              rw [← this]
              exact Or.inr rfl
            have hposZ : ∀ x ∈ [b, nb], 0 < x.hsize := by
              intro x hx
              rcases List.mem_cons.mp hx with rfl | hx2
              · have := hwfb.2.2.1
                omega
              · rw [List.mem_singleton] at hx2
                subst hx2
                have := hwfnb.2.2.1
                omega
            have hposZ2 : ∀ x ∈ [m], 0 < x.hsize := by
              intro x hx
              rw [List.mem_singleton] at hx
              subst hx
              show 0 < b.hsize + nb.hsize
              have := hwfb.2.2.1
              omega
            have hszZ : sumSizes [m] = sumSizes [b, nb] := by
              rw [sumSizes_cons, sumSizes_nil, sumSizes_cons, sumSizes_cons,
                sumSizes_nil]
              show b.hsize + nb.hsize + 0 = b.hsize + (nb.hsize + 0)
              omega
            have hsegsNew : segsWF (pre ++ m :: post2)
                (detachAddr h.segs nb.hsize (p + b.hsize)) := by
              refine ⟨by rw [detachAddr_length]; exact hwf.2.2.1.1, ?_, ?_⟩
              · intro j
                rw [segGet_detachAddr hwf.2.2.1.1]
                by_cases hj : j = segIdx nb.hsize
                · rw [if_pos hj]
                  exact List.Nodup.erase _ (hwf.2.2.1.2.1 j)
                · rw [if_neg hj]
                  exact hwf.2.2.1.2.1 j
              · intro j a2 ha2
                have ha2s : a2 ∈ segGet h.segs j :=
                  segGet_detach_subset hwf.2.2.1.1 ha2
                obtain ⟨pre2, b2, post3, hloc2, hfree2, hcls2⟩ :=
                  hwf.2.2.1.2.2 j a2 ha2s
                have hne1 : a2 ≠ p := fun he => hnotp j (he ▸ ha2s)
                have hne2 : a2 ≠ p + b.hsize := fun he => hnotnb j (he ▸ ha2)
                have hloc3 : locate (pre ++ b :: nb :: post2) a2 =
                    some (pre2, b2, post3) := by
                  rw [← hdec]
                  exact hloc2
                have hout := located_outside_pair hposP hloc3
                  (by rw [hsum]; exact hne1) (by rw [hsum]; exact hne2)
                have haf : addrFree (pre ++ [b, nb] ++ post2) j a2 := by
                  refine ⟨pre2, b2, post3, ?_, hfree2, hcls2⟩
                  rw [show pre ++ [b, nb] ++ post2 = pre ++ b :: nb :: post2 from
                    by simp]
                  exact hloc3
                have := addrFree_replace hposP hposZ hposZ2 hszZ haf
                  (by
                    rw [sumSizes_cons, sumSizes_cons, sumSizes_nil, hsum]
                    rw [hsum] at hout
                    rcases hout with h1 | h2 <;> omega)
                simpa using this
            have hsumEq : sumSizes (pre ++ m :: post2) = sumSizes h.blocks := by
              rw [hdec]
              simp only [sumSizes_append, sumSizes_cons, sumSizes_nil]
              show sumSizes pre + (b.hsize + nb.hsize + sumSizes post2) =
                sumSizes pre + (b.hsize + (nb.hsize + sumSizes post2))
              omega
            have hwfNew : ∀ x ∈ pre ++ m :: post2, blockWF x := by
              intro x hx
              rcases List.mem_append.mp hx with h1 | h2
              · exact hwf.1 x (by rw [hdec]; simp [h1])
              · rcases List.mem_cons.mp h2 with rfl | h3
                · exact hwfm
                · exact hwf.1 x (by rw [hdec]; simp [h3])
            rw [heq]
            refine ⟨⟨hwfNew, hchNew, hsegsNew, ?_, ?_⟩, rfl, ?_, ?_, ?_, ?_⟩
            · show h.used = 72 + sumSizes (pre ++ m :: post2)
              rw [hsumEq]
              exact hwf.2.2.2.1
            · show h.used ≤ h.maxHeap
              exact hwf.2.2.2.2
            · intro q hq
              injection hq with hq
              subst hq
              refine ⟨pre, m, post2, ?_, rfl, habs, ?_⟩
              · show locate (pre ++ m :: post2) p = some (pre, m, post2)
                rw [← hsum]
                exact locate_of_pos pre m post2 hposP
              · show (b.data ++ tagBytes b.fsize b.falloc ++
                  tagBytes nb.hsize nb.halloc ++ nb.data).take (min b.data.length n) =
                  b.data.take (min b.data.length n)
                rw [List.append_assoc, List.append_assoc]
                rw [List.take_append_of_le_length (by omega)]
            · intro q hq
              injection hq with hq
              subst hq
              exact Or.inl rfl
            · intro a t hl2 hal2 hne
              have hl3 : locate (pre ++ b :: nb :: post2) a = some t := by
                rw [← hdec]
                exact hl2
              have hnenb : a ≠ p + b.hsize := by
                intro he
                subst he
                rw [hlocnb] at hl2
                cases hl2
                rw [hnb] at hal2
                cases hal2
              have hout := located_outside_pair hposP hl3
                (by rw [hsum]; exact hne) (by rw [hsum]; exact hnenb)
              have hl4 : locate (pre ++ [b, nb] ++ post2) a = some t := by
                rw [show pre ++ [b, nb] ++ post2 = pre ++ b :: nb :: post2 from
                  by simp]
                exact hl3
              have hrep0 := locate_replace hposP hposZ hposZ2 hszZ hl4
                (by
                  rw [sumSizes_cons, sumSizes_cons, sumSizes_nil, hsum]
                  rw [hsum] at hout
                  rcases hout with h1 | h2 <;> omega)
              obtain ⟨pre2, post3, hrep⟩ := hrep0
              refine ⟨pre2, post3, ?_⟩
              show locate (pre ++ m :: post2) a = some (pre2, t.2.1, post3)
              simpa using hrep
            · intro hq
              cases hq
          · have heq : mm_realloc h (some p) n = reallocMove h p n b.hsize := by
              simp only [mm_realloc]
              rw [if_neg hn0]; simp only [hloc]; rw [if_neg hA, if_neg hB]
              simp only [List.head?_cons]
              rw [if_pos hnb, if_neg habs]
            have hrm := reallocMove_spec hwf hloc halloc hok
            rw [heq]
            refine ⟨hrm.1, hrm.2.1, hrm.2.2.1, ?_, hrm.2.2.2.2.1, hrm.2.2.2.2.2⟩
            intro q hq
            exact Or.inr (hrm.2.2.2.1 q hq)
        · have heq : mm_realloc h (some p) n = reallocMove h p n b.hsize := by
            simp only [mm_realloc]
            rw [if_neg hn0]; simp only [hloc]; rw [if_neg hA, if_neg hB]
            simp only [List.head?_cons]
            rw [if_neg hnb]
          have hrm := reallocMove_spec hwf hloc halloc hok
          rw [heq]
          refine ⟨hrm.1, hrm.2.1, hrm.2.2.1, ?_, hrm.2.2.2.2.1, hrm.2.2.2.2.2⟩
          intro q hq
          exact Or.inr (hrm.2.2.2.1 q hq)

/-- `calloc` preserves the heap invariant and zero-fills the first
`k*n mod 2^64` bytes of the returned payload. -/
theorem mm_calloc_spec {h : Heap} {k n : Nat} (hwf : heapWF h)
    (hok : sizeOK (k * n % wordMod)) :
    heapWF (mm_calloc h k n).1 ∧ (mm_calloc h k n).1.maxHeap = h.maxHeap ∧
    (∀ p, (mm_calloc h k n).2 = some p →
      ∃ pre b post, locate (mm_calloc h k n).1.blocks p = some (pre, b, post) ∧
        b.halloc = true ∧ asizeOf (k * n % wordMod) ≤ b.hsize ∧
        k * n % wordMod ≤ b.data.length ∧
        b.data.take (k * n % wordMod) = List.replicate (k * n % wordMod) 0) ∧
    (∀ a t, locate h.blocks a = some t → t.2.1.halloc = true →
      ∃ pre2 post2, locate (mm_calloc h k n).1.blocks a = some (pre2, t.2.1, post2)) ∧
    (∀ p, (mm_calloc h k n).2 = some p → ∀ a t, locate h.blocks a = some t →
      t.2.1.halloc = true → p ≠ a) ∧
    ((mm_calloc h k n).2 = none → (mm_calloc h k n).1 = h) := by
  set bytes := k * n % wordMod with hbytes
  have hmal := mm_malloc_spec hwf hok
  cases hmal2 : mm_malloc h bytes with
  | mk h2 q =>
    rw [hmal2] at hmal
    cases q with
    | none =>
      have heq : mm_calloc h k n = (h2, none) := by
        simp only [mm_calloc]
        rw [← hbytes, hmal2]
      have hh2 : h2 = h := hmal.2.2.2.2.2 rfl
      rw [heq, hh2]
      refine ⟨hwf, rfl, ?_, ?_, ?_, fun _ => rfl⟩
      · intro p hp
        cases hp
      · intro a t hl2 _
        exact ⟨t.1, t.2.2, by rw [hl2]⟩
      · intro p hp
        cases hp
    | some p =>
      have heq : mm_calloc h k n =
          (writeBytes h2 p (List.replicate bytes 0), some p) := by
        simp only [mm_calloc]
        rw [← hbytes, hmal2]
      obtain ⟨hwf2, hmax2, hpost2, hframe2, hfresh2, _⟩ := hmal
      obtain ⟨preN, bA, postN, hlocN, hallocA, hszA⟩ := hpost2 p rfl
      have hwfbA : blockWF bA := by
        obtain ⟨hdec2, _⟩ := locate_decomp h2.blocks p preN bA postN hlocN
        exact hwf2.1 bA (by rw [hdec2]; simp)
      have hbl : bytes ≤ bA.data.length := by
        have h1 := asizeOf_ge_payload hok
        have h2b := hwfbA.2.2.2.2
        omega
      have hwb := writeBytes_spec (List.replicate bytes 0) hwf2 hlocN hallocA
      obtain ⟨hwf3, hmax3, _, _, hlocN3, hframe3⟩ := hwb
      set bA2 : Block :=
        { bA with data := (List.replicate bytes 0).take bA.data.length ++
            bA.data.drop (List.replicate bytes 0).length } with hbA2
      have hlen2 : bA2.data.length = bA.data.length := by
        show ((List.replicate bytes 0).take bA.data.length ++
          bA.data.drop (List.replicate bytes 0).length).length = bA.data.length
        rw [List.length_append, List.length_take, List.length_drop,
          List.length_replicate]
        omega
      have hcontent : bA2.data.take bytes = List.replicate bytes 0 := by
        show ((List.replicate bytes 0).take bA.data.length ++
          bA.data.drop (List.replicate bytes 0).length).take bytes =
          List.replicate bytes 0
        rw [List.take_append_of_le_length (by
          rw [List.length_take, List.length_replicate]
          omega)]
        rw [List.take_take]
        rw [Nat.min_eq_left hbl]
        rw [List.take_of_length_le (by rw [List.length_replicate])]
      rw [heq]
      refine ⟨hwf3, by rw [hmax3, hmax2], ?_, ?_, ?_, ?_⟩
      · intro q hq
        injection hq with hq
        subst hq
        refine ⟨preN, bA2, postN, hlocN3, ?_, ?_, ?_, hcontent⟩
        · show bA.halloc = true
          exact hallocA
        · show asizeOf bytes ≤ bA.hsize
          exact hszA
        · rw [hlen2]
          exact hbl
      · intro a t hl2 hal2
        obtain ⟨pre5, post5, hl5⟩ := hframe2 a t hl2 hal2
        have hnenp : a ≠ p := fun he => hfresh2 p rfl a t hl2 hal2 he.symm
        obtain ⟨pre6, post6, hl6⟩ := hframe3 a (pre5, t.2.1, post5) hl5 hal2 hnenp
        exact ⟨pre6, post6, hl6⟩
      · intro q hq a t hl2 hal2
        injection hq with hq
        subst hq
        exact hfresh2 p rfl a t hl2 hal2
      · intro hq
        cases hq

/-! ### Driver-level invariant -/

/-- Driver state well-formedness: the heap invariant plus validity of the
live pointer list (distinct addresses of allocated blocks). -/
def stateWF (st : MState) : Prop :=
  heapWF st.heap ∧ st.ptrs.Nodup ∧
  ∀ p ∈ st.ptrs, ∃ pre b post,
    locate st.heap.blocks p = some (pre, b, post) ∧ b.halloc = true

theorem nodup_eraseIdx_of_get : ∀ (l : List Nat) (k : Nat) (p : Nat),
    l.Nodup → l.get? k = some p →
    (l.eraseIdx k).Nodup ∧ ∀ q ∈ l.eraseIdx k, q ∈ l ∧ q ≠ p := by
  intro l
  induction l with
  | nil =>
    intro k p _ h
    cases h
  | cons x xs ih =>
    intro k p hnd hget
    obtain ⟨hx, hxs⟩ := List.nodup_cons.mp hnd
    cases k with
    | zero =>
      injection hget with hget
      subst hget
      refine ⟨hxs, ?_⟩
      intro q hq
      have hq2 : q ∈ xs := hq
      exact ⟨by simp [hq2], fun he => hx (he ▸ hq2)⟩
    | succ k2 =>
      have hget2 : xs.get? k2 = some p := hget
      obtain ⟨ih1, ih2⟩ := ih k2 p hxs hget2
      have hpmem : p ∈ xs := List.get?_mem hget2
      constructor
      · show (x :: xs.eraseIdx k2).Nodup
        exact List.nodup_cons.mpr ⟨fun hmem => hx ((ih2 x hmem).1), ih1⟩
      · intro q hq
        rcases List.mem_cons.mp hq with rfl | hq2
        · exact ⟨by simp, fun he => hx (he ▸ hpmem)⟩
        · exact ⟨by simp [(ih2 q hq2).1], (ih2 q hq2).2⟩

theorem nodup_set_of_get : ∀ (l : List Nat) (k : Nat) (p q : Nat),
    l.Nodup → l.get? k = some p → (∀ x ∈ l, x = p ∨ x ≠ q) →
    (l.set k q).Nodup ∧ ∀ x ∈ l.set k q, x = q ∨ (x ∈ l ∧ x ≠ p) := by
  intro l
  induction l with
  | nil =>
    intro k p q _ h
    cases h
  | cons x xs ih =>
    intro k p q hnd hget hside
    obtain ⟨hx, hxs⟩ := List.nodup_cons.mp hnd
    cases k with
    | zero =>
      injection hget with hget
      subst hget
      constructor
      · show (q :: xs).Nodup
        refine List.nodup_cons.mpr ⟨?_, hxs⟩
        intro hmem
        rcases hside q (by simp [hmem]) with h1 | h2
        · exact hx (h1 ▸ hmem)
        · exact h2 rfl
      · intro y hy
        rcases List.mem_cons.mp hy with rfl | hy2
        · exact Or.inl rfl
        · refine Or.inr ⟨by simp [hy2], fun he => hx (he ▸ hy2)⟩
    | succ k2 =>
      have hget2 : xs.get? k2 = some p := hget
      have hpmem : p ∈ xs := List.get?_mem hget2
      obtain ⟨ih1, ih2⟩ := ih k2 p q hxs hget2
        (fun y hy => hside y (by simp [hy]))
      constructor
      · show (x :: xs.set k2 q).Nodup
        refine List.nodup_cons.mpr ⟨?_, ih1⟩
        intro hmem
        rcases ih2 x hmem with h1 | h2
        · rcases hside x (by simp) with h3 | h4
          · exact hx (h3 ▸ hpmem)
          · exact h4 h1
        · exact hx h2.1
      · intro y hy
        rcases List.mem_cons.mp hy with rfl | hy2
        · refine Or.inr ⟨by simp, fun he => hx (he ▸ hpmem)⟩
        · rcases ih2 y hy2 with h1 | h2
          · exact Or.inl h1
          · exact Or.inr ⟨by simp [h2.1], h2.2⟩

/-- One driver step preserves the driver invariant (and the memory-system
capacity) as long as the request sizes avoid `size_t` overflow. -/
theorem runMOp_wf {st : MState} {op : MOp} (hst : stateWF st) (hop : opOK op) :
    stateWF (runMOp st op) ∧ (runMOp st op).heap.maxHeap = st.heap.maxHeap := by
  obtain ⟨hwf, hnd, hptrs⟩ := hst
  cases op with
  | mal n =>
    have hok : sizeOK n := hop
    have hspec := mm_malloc_spec hwf hok
    cases hm : mm_malloc st.heap n with
    | mk h2 p? =>
      rw [hm] at hspec
      obtain ⟨hwf2, hmax2, hpost, hframe, hfresh, _⟩ := hspec
      have heq : runMOp st (MOp.mal n) = ⟨h2, st.ptrs ++ p?.toList⟩ := by
        simp only [runMOp]
        rw [hm]
      rw [heq]
      cases p? with
      | none =>
        refine ⟨⟨hwf2, ?_, ?_⟩, hmax2⟩
        · show (st.ptrs ++ []).Nodup
          simpa using hnd
        · intro p hp
          have hp2 : p ∈ st.ptrs := by simpa using hp
          obtain ⟨pre, b, post, hl, hal⟩ := hptrs p hp2
          obtain ⟨pre2, post2, hl2⟩ := hframe p (pre, b, post) hl hal
          exact ⟨pre2, b, post2, hl2, hal⟩
      | some np =>
        refine ⟨⟨hwf2, ?_, ?_⟩, hmax2⟩
        · show (st.ptrs ++ [np]).Nodup
          rw [List.nodup_append]
          refine ⟨hnd, List.nodup_singleton _, ?_⟩
          intro q hq hq2
          have hqnp : q = np := by simpa using hq2
          obtain ⟨pre, b, post, hl, hal⟩ := hptrs q hq
          exact hfresh np rfl q (pre, b, post) hl hal hqnp.symm
        · intro p hp
          rcases List.mem_append.mp hp with h1 | h2
          · obtain ⟨pre, b, post, hl, hal⟩ := hptrs p h1
            obtain ⟨pre2, post2, hl2⟩ := hframe p (pre, b, post) hl hal
            exact ⟨pre2, b, post2, hl2, hal⟩
          · have hqnp : p = np := by simpa using h2
            subst hqnp
            obtain ⟨pre, b, post, hl, hal, _⟩ := hpost p rfl
            exact ⟨pre, b, post, hl, hal⟩
  | fre k =>
    cases hg : st.ptrs.get? k with
    | none =>
      have heq : runMOp st (MOp.fre k) = st := by
        simp only [runMOp]
        rw [hg]
      rw [heq]
      exact ⟨⟨hwf, hnd, hptrs⟩, rfl⟩
    | some p =>
      have heq : runMOp st (MOp.fre k) = ⟨mm_free st.heap p, st.ptrs.eraseIdx k⟩ := by
        simp only [runMOp]
        rw [hg]
      rw [heq]
      obtain ⟨pre, b, post, hl, hal⟩ := hptrs p (List.get?_mem hg)
      have hspec := mm_free_spec hwf hl hal
      obtain ⟨hwf2, hmax2, _, _, hframe⟩ := hspec
      obtain ⟨hnd2, hmem2⟩ := nodup_eraseIdx_of_get st.ptrs k p hnd hg
      refine ⟨⟨hwf2, hnd2, ?_⟩, hmax2⟩
      intro q hq
      obtain ⟨hqmem, hqne⟩ := hmem2 q hq
      obtain ⟨pre2, b2, post2, hl2, hal2⟩ := hptrs q hqmem
      obtain ⟨pre3, post3, hl3⟩ := hframe q (pre2, b2, post2) hl2 hal2 hqne
      exact ⟨pre3, b2, post3, hl3, hal2⟩
  | rea k n =>
    cases hg : st.ptrs.get? k with
    | none =>
      have heq : runMOp st (MOp.rea k n) = st := by
        simp only [runMOp]
        rw [hg]
      rw [heq]
      exact ⟨⟨hwf, hnd, hptrs⟩, rfl⟩
    | some p =>
      obtain ⟨pre, b, post, hl, hal⟩ := hptrs p (List.get?_mem hg)
      by_cases hn0 : n = 0
      · subst hn0
        have heq : runMOp st (MOp.rea k 0) =
            ⟨mm_free st.heap p, st.ptrs.eraseIdx k⟩ := by
          simp only [runMOp, hg]
          rfl
        rw [heq]
        have hspec := mm_free_spec hwf hl hal
        obtain ⟨hwf2, hmax2, _, _, hframe⟩ := hspec
        obtain ⟨hnd2, hmem2⟩ := nodup_eraseIdx_of_get st.ptrs k p hnd hg
        refine ⟨⟨hwf2, hnd2, ?_⟩, hmax2⟩
        intro q hq
        obtain ⟨hqmem, hqne⟩ := hmem2 q hq
        obtain ⟨pre2, b2, post2, hl2, hal2⟩ := hptrs q hqmem
        obtain ⟨pre3, post3, hl3⟩ := hframe q (pre2, b2, post2) hl2 hal2 hqne
        exact ⟨pre3, b2, post3, hl3, hal2⟩
      · have hok : sizeOK n := hop
        have hn : 0 < n := by omega
        have hspec := mm_realloc_spec hwf hl hal hn hok
        cases hr : mm_realloc st.heap (some p) n with
        | mk h2 q? =>
          rw [hr] at hspec
          obtain ⟨hwf2, hmax2, hpost, hfresh, hframe, hnone⟩ := hspec
          cases q? with
          | none =>
            have heq : runMOp st (MOp.rea k n) = ⟨h2, st.ptrs⟩ := by
              simp only [runMOp, hg]
              rw [if_neg hn0, hr]
            have hh2 : h2 = st.heap := hnone rfl
            rw [heq, hh2]
            exact ⟨⟨hwf, hnd, hptrs⟩, rfl⟩
          | some q =>
            have heq : runMOp st (MOp.rea k n) = ⟨h2, st.ptrs.set k q⟩ := by
              simp only [runMOp, hg]
              rw [if_neg hn0, hr]
            rw [heq]
            have hside : ∀ x ∈ st.ptrs, x = p ∨ x ≠ q := by
              intro x hx
              rcases hfresh q rfl with h1 | h2
              · subst h1
                by_cases hxp : x = q
                · exact Or.inl hxp
                · exact Or.inr hxp
              · obtain ⟨pre2, b2, post2, hl2, hal2⟩ := hptrs x hx
                exact Or.inr (fun he => h2 x (pre2, b2, post2) hl2 hal2 he.symm)
            obtain ⟨hnd2, hmem2⟩ := nodup_set_of_get st.ptrs k p q hnd hg hside
            refine ⟨⟨hwf2, hnd2, ?_⟩, hmax2⟩
            intro x hx
            rcases hmem2 x hx with rfl | ⟨hxmem, hxne⟩
            · obtain ⟨pre2, b2, post2, hl2, hal2, _⟩ := hpost x rfl
              exact ⟨pre2, b2, post2, hl2, hal2⟩
            · obtain ⟨pre2, b2, post2, hl2, hal2⟩ := hptrs x hxmem
              obtain ⟨pre3, post3, hl3⟩ := hframe x (pre2, b2, post2) hl2 hal2 hxne
              exact ⟨pre3, b2, post3, hl3, hal2⟩
  | cal a b =>
    have hok : sizeOK (a * b % wordMod) := hop
    have hspec := mm_calloc_spec hwf hok
    cases hm : mm_calloc st.heap a b with
    | mk h2 p? =>
      rw [hm] at hspec
      obtain ⟨hwf2, hmax2, hpost, hframe, hfresh, _⟩ := hspec
      have heq : runMOp st (MOp.cal a b) = ⟨h2, st.ptrs ++ p?.toList⟩ := by
        simp only [runMOp]
        rw [hm]
      rw [heq]
      cases p? with
      | none =>
        refine ⟨⟨hwf2, ?_, ?_⟩, hmax2⟩
        · show (st.ptrs ++ []).Nodup
          simpa using hnd
        · intro p hp
          have hp2 : p ∈ st.ptrs := by simpa using hp
          obtain ⟨pre, bb, post, hl, hal⟩ := hptrs p hp2
          obtain ⟨pre2, post2, hl2⟩ := hframe p (pre, bb, post) hl hal
          exact ⟨pre2, bb, post2, hl2, hal⟩
      | some np =>
        refine ⟨⟨hwf2, ?_, ?_⟩, hmax2⟩
        · show (st.ptrs ++ [np]).Nodup
          rw [List.nodup_append]
          refine ⟨hnd, List.nodup_singleton _, ?_⟩
          intro q hq hq2
          have hqnp : q = np := by simpa using hq2
          obtain ⟨pre, bb, post, hl, hal⟩ := hptrs q hq
          exact hfresh np rfl q (pre, bb, post) hl hal hqnp.symm
        · intro p hp
          rcases List.mem_append.mp hp with h1 | h2
          · obtain ⟨pre, bb, post, hl, hal⟩ := hptrs p h1
            obtain ⟨pre2, post2, hl2⟩ := hframe p (pre, bb, post) hl hal
            exact ⟨pre2, bb, post2, hl2, hal⟩
          · have hqnp : p = np := by simpa using h2
            subst hqnp
            obtain ⟨pre, bb, post, hl, hal, _⟩ := hpost p rfl
            exact ⟨pre, bb, post, hl, hal⟩

/-- A successful `mm_init` yields a well-formed heap of the requested
capacity. -/
theorem mm_init_wf {maxHeap : Nat} {h0 : Heap} (hi : mm_init maxHeap = some h0) :
    heapWF h0 ∧ h0.maxHeap = maxHeap := by
  rw [mm_init] at hi
  split at hi
  case isFalse => cases hi
  case isTrue hguard =>
  have hbase : heapWF ⟨[[], [], [], [], []], [], 4 * 8 + 5 * 8, maxHeap⟩ := by
    refine ⟨?_, ?_, ⟨rfl, ?_, ?_⟩, ?_, ?_⟩
    · intro x hx
      cases hx
    · exact List.chain'_nil
    · intro j
      show (segGet [[], [], [], [], []] j).Nodup
      rcases j with _ | _ | _ | _ | _ | j
      · exact List.nodup_nil
      · exact List.nodup_nil
      · exact List.nodup_nil
      · exact List.nodup_nil
      · exact List.nodup_nil
      · show (([[], [], [], [], []] : List (List Nat))[j + 5]?.getD []).Nodup
        rw [List.getElem?_eq_none (by simp)]
        exact List.nodup_nil
    · intro j a ha
      rcases j with _ | _ | _ | _ | _ | j
      · cases ha
      · cases ha
      · cases ha
      · cases ha
      · cases ha
      · rw [show segGet [[], [], [], [], []] (j + 5) = [] from by
          show (([[], [], [], [], []] : List (List Nat))[j + 5]?.getD []) = []
          rw [List.getElem?_eq_none (by simp)]
          rfl] at ha
        cases ha
    · show 4 * 8 + 5 * 8 = 72 + sumSizes []
      rw [sumSizes_nil]
    · exact hguard
  cases he : extend_heap ⟨[[], [], [], [], []], [], 4 * 8 + 5 * 8, maxHeap⟩ (260 / 4) with
  | none =>
    rw [he] at hi
    cases hi
  | some pr =>
    obtain ⟨h1, bp⟩ := pr
    rw [he] at hi
    injection hi with hi
    subst hi
    have := extend_heap_spec hbase (by omega) he
    exact ⟨this.1, this.2.1⟩

/-- Folding driver steps preserves the driver invariant. -/
theorem foldl_runMOp_wf : ∀ (ops : List MOp) (st0 : MState),
    (∀ op ∈ ops, opOK op) → stateWF st0 → stateWF (ops.foldl runMOp st0) := by
  intro ops
  induction ops with
  | nil =>
    intro st0 _ h
    exact h
  | cons op rest ih =>
    intro st0 hops h
    rw [List.foldl_cons]
    exact ih (runMOp st0 op) (fun o ho => hops o (by simp [ho]))
      (runMOp_wf h (hops op (by simp))).1

/-- A successful run from `mm_init` satisfies the driver invariant. -/
theorem runMOps_wf {maxHeap : Nat} {ops : List MOp} {st : MState}
    (hops : ∀ op ∈ ops, opOK op) (hrun : runMOps maxHeap ops = some st) :
    stateWF st := by
  rw [runMOps] at hrun
  cases hi : mm_init maxHeap with
  | none =>
    rw [hi] at hrun
    cases hrun
  | some h0 =>
    rw [hi] at hrun
    injection hrun with hrun
    subst hrun
    have hwf0 := (mm_init_wf hi).1
    refine foldl_runMOp_wf ops ⟨h0, []⟩ hops ⟨hwf0, List.nodup_nil, ?_⟩
    intro p hp
    cases hp

/-! ### Claims C1, C4 and C9 -/

/-- The state of a successful run (a fixed default otherwise), used to
instantiate run-level theorems at concrete inputs. -/
def runStOr (maxHeap : Nat) (ops : List MOp) : MState :=
  match runMOps maxHeap ops with
  | some st => st
  | none => ⟨⟨[], [], 0, 0⟩, []⟩

/-- **C1** (amended with the no-overflow condition): starting from a
successfully initialized heap, after every sequence of
`alloc/free/realloc/calloc` operations whose request sizes do not overflow
the `size_t` adjusted-size computation `ALIGN(size + QSIZE)`, every block
`b` of the tiled region satisfies `header(b) == footer(b)` (both the size
and the allocated bit) and `size(b) ≥ 32`, and no two physically adjacent
blocks are both free. -/
theorem heap_invariant_preserved (maxHeap : Nat) (ops : List MOp) (st : MState)
    (hops : ∀ op ∈ ops, opOK op) (hrun : runMOps maxHeap ops = some st) :
    (∀ b ∈ st.heap.blocks,
      b.fsize = b.hsize ∧ b.falloc = b.halloc ∧ 32 ≤ b.hsize) ∧
    coalescedOK st.heap.blocks := by
  have h := runMOps_wf hops hrun
  refine ⟨?_, h.1.2.1⟩
  intro b hb
  have hw := h.1.1 b hb
  exact ⟨hw.1, hw.2.1, hw.2.2.1⟩

set_option maxRecDepth 8000 in
/-- Witness: a run that allocates and frees a block keeps the invariant. -/
theorem heap_invariant_preserved_witness :
    (∀ op ∈ [MOp.mal 1, MOp.fre 0], opOK op) ∧
    ((∀ b ∈ (runStOr 400 [MOp.mal 1, MOp.fre 0]).heap.blocks,
      b.fsize = b.hsize ∧ b.falloc = b.halloc ∧ 32 ≤ b.hsize) ∧
    coalescedOK (runStOr 400 [MOp.mal 1, MOp.fre 0]).heap.blocks) :=
  ⟨by decide, heap_invariant_preserved 400 [MOp.mal 1, MOp.fre 0]
    (runStOr 400 [MOp.mal 1, MOp.fre 0]) (by decide) (by decide)⟩

set_option maxRecDepth 8000 in
/-- Counterexample to the unconditional claim: `malloc(2^64 - 8)` makes the
`size_t` computation `ALIGN(size + QSIZE)` wrap to an adjusted size of 8,
and `place` splits off a block of size 8 < 32. -/
theorem heap_invariant_counterexample :
    ¬ ∀ b ∈ blocksOfRun 1000 [MOp.mal (2 ^ 64 - 8)], 32 ≤ b.hsize := by
  decide

/-- **C4** (amended with the no-overflow condition): for a live pointer `p`
of a reachable heap and any `n > 0` whose adjusted size does not overflow,
when `realloc(p, n)` returns non-null the returned payload's first
`min(old_payload, n)` bytes equal the bytes stored at `p` before the call,
across all four `realloc` paths. -/
theorem realloc_preserves_content (maxHeap : Nat) (ops : List MOp) (st : MState)
    (hops : ∀ op ∈ ops, opOK op) (hrun : runMOps maxHeap ops = some st)
    (k p n : Nat) (hp : st.ptrs.get? k = some p) (hn : 0 < n) (hok : sizeOK n)
    (pre : List Block) (b : Block) (post : List Block)
    (hloc : locate st.heap.blocks p = some (pre, b, post))
    (q : Nat) (hq : (mm_realloc st.heap (some p) n).2 = some q) :
    ∃ pre2 b2 post2,
      locate (mm_realloc st.heap (some p) n).1.blocks q = some (pre2, b2, post2) ∧
      b2.halloc = true ∧
      b2.data.take (min b.data.length n) = b.data.take (min b.data.length n) := by
  have hst := runMOps_wf hops hrun
  obtain ⟨pre0, b0, post0, hl0, hal0⟩ := hst.2.2 p (List.get?_mem hp)
  rw [hloc] at hl0
  injection hl0 with hl0
  have hb0 : b0 = b := by
    have := congrArg (fun t => t.2.1) hl0
    exact this.symm
  rw [hb0] at hal0
  have hspec := mm_realloc_spec hst.1 hloc hal0 hn hok
  obtain ⟨pre2, b2, post2, hl2, hal2, _, hcontent⟩ := hspec.2.2.1 q hq
  exact ⟨pre2, b2, post2, hl2, hal2, hcontent⟩

set_option maxRecDepth 8000 in
/-- Witness: shrinking a 24-byte allocation to 8 bytes leaves the payload
prefix intact. -/
theorem realloc_preserves_content_witness :
    (∀ op ∈ [MOp.mal 24], opOK op) ∧ 0 < 8 ∧ sizeOK 8 ∧
    (∃ pre2 b2 post2,
      locate (mm_realloc (runStOr 400 [MOp.mal 24]).heap (some 0) 8).1.blocks 0 =
        some (pre2, b2, post2) ∧
      b2.halloc = true ∧
      b2.data.take (min (List.replicate 24 0 : List Nat).length 8) =
        (List.replicate 24 0 : List Nat).take
          (min (List.replicate 24 0 : List Nat).length 8)) :=
  ⟨by decide, by decide, by decide,
    realloc_preserves_content 400 [MOp.mal 24] (runStOr 400 [MOp.mal 24])
      (by decide) (by decide) 0 0 8 (by decide) (by decide) (by decide)
      [] ⟨40, true, 40, true, List.replicate 24 0⟩
      [⟨224, false, 224, false, List.replicate 208 0⟩] (by decide) 0 (by decide)⟩

set_option maxRecDepth 8000 in
/-- Counterexample to the unconditional claim: on a live 24-byte payload,
`realloc(p, 2^64 - 8)` wraps the adjusted size to 8 < oldsize and the
shrink path truncates the payload to 0 bytes, losing the stored prefix. -/
theorem realloc_content_counterexample :
    (mm_realloc (runStOr 400 [MOp.mal 24]).heap (some 0) (2 ^ 64 - 8)).2 = some 0 ∧
    ((locate (mm_realloc (runStOr 400 [MOp.mal 24]).heap (some 0)
        (2 ^ 64 - 8)).1.blocks 0).map (fun t => t.2.1.data.take 24)).getD [] ≠
      ((locate (runStOr 400 [MOp.mal 24]).heap.blocks 0).map
        (fun t => t.2.1.data.take 24)).getD [] := by
  constructor
  · decide
  · decide

/-- **C9** (amended with the no-overflow condition): when `k*n` does not
overflow `size_t` and its adjusted size does not overflow, `calloc(k, n)`
on a reachable heap returns either null or a pointer to a region whose
first `k*n` bytes are all zero. -/
theorem calloc_zero_fill (maxHeap : Nat) (ops : List MOp) (st : MState)
    (hops : ∀ op ∈ ops, opOK op) (hrun : runMOps maxHeap ops = some st)
    (k n : Nat) (hov : k * n < wordMod) (hok : sizeOK (k * n))
    (p : Nat) (hp : (mm_calloc st.heap k n).2 = some p) :
    ∃ pre b post,
      locate (mm_calloc st.heap k n).1.blocks p = some (pre, b, post) ∧
      k * n ≤ b.data.length ∧
      b.data.take (k * n) = List.replicate (k * n) 0 := by
  have hst := runMOps_wf hops hrun
  have hok2 : sizeOK (k * n % wordMod) := by
    rw [Nat.mod_eq_of_lt hov]
    exact hok
  have hspec := mm_calloc_spec hst.1 hok2
  obtain ⟨pre, b, post, hl, _, _, hlen, hcontent⟩ := hspec.2.2.1 p hp
  rw [Nat.mod_eq_of_lt hov] at hlen hcontent
  exact ⟨pre, b, post, hl, hlen, hcontent⟩

set_option maxRecDepth 8000 in
/-- Witness: `calloc(3, 8)` on the freshly initialized heap zero-fills 24
bytes. -/
theorem calloc_zero_fill_witness :
    (∀ op ∈ ([] : List MOp), opOK op) ∧ 3 * 8 < wordMod ∧ sizeOK (3 * 8) ∧
    (∃ pre b post,
      locate (mm_calloc (runStOr 400 []).heap 3 8).1.blocks 0 = some (pre, b, post) ∧
      3 * 8 ≤ b.data.length ∧
      b.data.take (3 * 8) = List.replicate (3 * 8) 0) :=
  ⟨by decide, by decide, by decide,
    calloc_zero_fill 400 [] (runStOr 400 []) (by decide) (by decide) 3 8
      (by decide) (by decide) 0 (by decide)⟩

set_option maxRecDepth 8000 in
/-- Counterexample to the unconditional claim: `calloc(2^63 + 1, 2)` wraps
the byte count to 2, returns a block whose payload is only 16 bytes, and
the first `k*n = 2^64 + 2` bytes of the region are not (and cannot be)
zero-filled. -/
theorem calloc_zero_counterexample :
    (mm_calloc (runStOr 400 []).heap (2 ^ 63 + 1) 2).2 = some 0 ∧
    ((locate (mm_calloc (runStOr 400 []).heap (2 ^ 63 + 1) 2).1.blocks 0).map
      (fun t => t.2.1.data.length)).getD 0 < (2 ^ 63 + 1) * 2 := by
  constructor
  · decide
  · decide

/-! ### The proxy request task (proxy.c) -/

/-- Whitespace in `sscanf`'s sense (`%s` skips and stops at it). -/
def isWS (c : Char) : Bool :=
  c = ' ' ∨ c = '\t' ∨ c = '\r' ∨ c = '\n'

/-- ASCII lower-casing, as `tolower` on the bytes `strcasecmp` compares. -/
def lowerByte (c : Char) : Char :=
  if 'A' ≤ c ∧ c ≤ 'Z' then Char.ofNat (c.toNat + 32) else c

/-- `strcasecmp(a, b) == 0`. -/
def strcaseEq (a b : List Char) : Bool :=
  a.map lowerByte == b.map lowerByte

/-- `sscanf(buf, "%s %s %s", method, uri, version)` (proxy.c:198): skip
whitespace, read a token, three times.  Only the first two tokens are
used by the caller. -/
def sscanf3 (l : List Char) : List Char × List Char :=
  let l1 := l.dropWhile isWS
  let m := l1.takeWhile (fun c => ¬ isWS c)
  let l2 := (l1.drop m.length).dropWhile isWS
  let u := l2.takeWhile (fun c => ¬ isWS c)
  (m, u)

/-- The digit-accumulation loop of `atoi`. -/
def digitsVal : List Char → Nat → Nat
  | [], acc => acc
  | c :: rest, acc =>
    if '0' ≤ c ∧ c ≤ '9' then digitsVal rest (acc * 10 + (c.toNat - 48))
    else acc

/-- `atoi` on a byte string. -/
def atoiVal (l : List Char) : Int :=
  match l.dropWhile isWS with
  | '-' :: rest => - (digitsVal rest 0 : Int)
  | '+' :: rest => (digitsVal rest 0 : Int)
  | rest => (digitsVal rest 0 : Int)

/-- `read_uri` (proxy.c:213-251): strip a case-insensitive `http://`
prefix, copy the host up to `/` or `:`, read the port digits after a `:`
up to `/` (the port defaults to `"-1"`, and a non-positive parse yields
`"80"`), and copy the remaining path.  Returns `(host, remain, port)`. -/
def read_uriT (uri : List Char) : List Char × List Char × List Char :=
  let u := if strcaseEq (uri.take 7) ("http://".data) then uri.drop 7 else uri
  let host := u.takeWhile (fun c => ¬ (c = '/' ∨ c = ':'))
  let rest := u.drop host.length
  match rest with
  | ':' :: r2 =>
    let ps := r2.takeWhile (fun c => ¬ (c = '/'))
    let remain := r2.drop ps.length
    (host, remain, if atoiVal ps < 0 then "80".data else ps)
  | _ => (host, rest, "80".data)

/-- `remove_newline` (proxy.c:287-297): truncate at the first `'\r'`. -/
def remove_newlineT (l : List Char) : List Char :=
  l.takeWhile (fun c => ¬ (c = '\r'))

/-- The externally visible actions of one proxy request task. -/
inductive PAct where
  | reply (code : String)
  | serveCached
  | connect (host port : String)
  | forward
  | closeConn
  deriving Repr, DecidableEq

/-- The action trace of `read_request` (proxy.c:188-204): parse the request
line; when the method differs from `GET` case-insensitively, send a 501
`clienterror` to the client — and then `return` normally either way.
Returns the actions, the raw request line (copied before parsing,
proxy.c:197), and the URI token. -/
def read_requestT (buf : String) : List PAct × String × List Char :=
  let t := sscanf3 buf.data
  let acts := if strcaseEq t.1 "GET".data then [] else [PAct.reply "501"]
  (acts, buf, t.2)

/-- The action trace of `new_request` (proxy.c:85-141) on one request line,
after `read_request` returns: `read_uri` splits the URI; the raw request
line is looked up in the cache (a hit is served and the connection closed);
otherwise `open_clientfd_r(host, req_port)` contacts the upstream server (a
failed connect sends a 404 and closes), the request is forwarded and the
connection closed.  `cat_requesthdrs` only rewrites headers and cannot end
the task, so it does not appear as an action.  `connectOK` says whether the
upstream connect succeeds. -/
def new_requestT (C : CCache) (reqline : String) (connectOK : Bool) : List PAct :=
  let r := read_requestT reqline
  let u := read_uriT r.2.2
  let host := remove_newlineT u.1
  match find_request C r.2.1 with
  | some _ => r.1 ++ [PAct.serveCached, PAct.closeConn]
  | none =>
    if connectOK then
      r.1 ++ [PAct.connect (String.mk host) (String.mk u.2.2), PAct.forward,
        PAct.closeConn]
    else
      r.1 ++ [PAct.reply "404", PAct.closeConn]

set_option maxRecDepth 8000 in
/-- **C7** is violated by the code: on the non-GET request line
`POST http://example.com/ HTTP/1.1` with an empty cache and a reachable
upstream, the task sends the 501 reply but does not terminate —
`read_request` returns normally after `clienterror` (proxy.c:200-203) and
`new_request` proceeds to contact the upstream server and forward the
request. -/
theorem proxy_non_get_contacts_upstream :
    new_requestT (cache_init 1048576) "POST http://example.com/ HTTP/1.1\r\n" true =
      [PAct.reply "501", PAct.connect "example.com" "80", PAct.forward,
        PAct.closeConn] := by
  decide
